/-
Verification of the sparrow in-memory full-text search engine.

Shallow embedding of the Rust sources:
  src/tsvector.rs        : TSVector, TSVectorTerm, from_tokens, the Add impl
  src/term_dictionary.rs : TermDictionary
  src/data_dictionary.rs : FieldConfig, DataDictionary
  src/query.rs           : Query AST and the smart constructors (simplifier)
  src/lib.rs             : InvertedIndex, Document ingest, Database executor

Modelling conventions:
  * u32 / usize ids and positions are Nat (no overflow-relevant arithmetic
    occurs: ids are allocated sequentially and positions are only compared
    and incremented).
  * f32 weights and scores are ℚ.  The binary logarithm applied by
    from_tokens and calculate_normalizer is not rational, so it is threaded
    through as an explicit parameter lg : ℚ → ℚ; concrete theorems
    instantiate it with log2floor, which agrees with the exact binary
    logarithm (and with the f32 one) on the powers of two arising in the
    concrete scenarios.  No document-set result of any executor depends on
    the value of a computed score, so this parametrisation does not affect
    the membership claims.
  * FnvHashMap is modelled as an association list in insertion order with
    the same insert/entry/get_mut semantics; FnvHashSet of positions is a
    Finset.  Iteration order of hash maps is unspecified in the source, so
    every theorem about executor output is stated at the level of sets of
    documents; the model fixes one deterministic order.
-/
import Mathlib

namespace Sparrow

/-! ## Tokens (src/tokenize.rs) -/

/-- Token from src/tokenize.rs: term string, 1-based position, weight. -/
structure Token where
  term : String
  position : Nat
  weight : ℚ
deriving DecidableEq, Repr

/-! ## Term dictionary (src/term_dictionary.rs) -/

/-- TermDictionary from src/term_dictionary.rs.  The redundant reverse map
term_ids is omitted; no embedded operation reads it. -/
structure TermDictionary where
  next_id : Nat
  terms : List (String × Nat)
deriving DecidableEq, Repr

def TermDictionary.empty : TermDictionary := ⟨0, []⟩

def TermDictionary.lookup (dict : TermDictionary) (term : String) : Option Nat :=
  (dict.terms.find? (fun e => e.1 == term)).map (·.2)

/-- TermDictionary::get_or_insert: return the interned id, minting next_id
for an unseen term. -/
def TermDictionary.get_or_insert (dict : TermDictionary) (term : String) :
    Nat × TermDictionary :=
  match dict.lookup term with
  | some term_id => (term_id, dict)
  | none =>
      (dict.next_id,
       { next_id := dict.next_id + 1
         terms := dict.terms ++ [(term, dict.next_id)] })

/-! ## TSVector (src/tsvector.rs) -/

/-- TSVectorTerm: ordered position list and accumulated weight. -/
structure TSVectorTerm where
  positions : List Nat
  weight : ℚ
deriving DecidableEq, Repr

/-- Default for TSVectorTerm from src/tsvector.rs: no positions, weight 0. -/
instance : Inhabited TSVectorTerm := ⟨⟨[], 0⟩⟩

/-- TSVector: token count and per-term entries, in first-occurrence order
(modelling the FnvHashMap). -/
structure TSVector where
  length : Nat
  terms : List (Nat × TSVectorTerm)
deriving DecidableEq, Repr

/-- Empty TSVector, the value `or_default` creates for an absent copy_to
destination in DocumentSource::as_document. -/
instance : Inhabited TSVector := ⟨⟨0, []⟩⟩

/-- Entry update for the terms map: push a position and add a weight to the
entry of term t, creating it from the default if absent (the
`terms.entry(term).or_default()` step of from_tokens). -/
def pushToken (terms : List (Nat × TSVectorTerm)) (t : Nat) (pos : Nat) (w : ℚ) :
    List (Nat × TSVectorTerm) :=
  if (terms.find? (fun e => e.1 == t)).isSome then
    terms.map (fun e =>
      if e.1 == t then (e.1, ⟨e.2.positions ++ [pos], e.2.weight + w⟩) else e)
  else
    terms ++ [(t, ⟨[pos], w⟩)]

/-- TSVector::from_tokens from src/tsvector.rs: intern each token, append its
position and accumulate its weight per term, then rescale every weight by
w ↦ lg (w + 1) / field_length where field_length is the token count. -/
def TSVector.from_tokens (lg : ℚ → ℚ) (tokens : List Token)
    (dict : TermDictionary) : TSVector × TermDictionary :=
  let step := fun (acc : List (Nat × TSVectorTerm) × TermDictionary) (token : Token) =>
    let (term, dict) := acc.2.get_or_insert token.term
    (pushToken acc.1 term token.position token.weight, dict)
  let (terms, dict) := tokens.foldl step ([], dict)
  let field_length : ℚ := (tokens.length : ℚ)
  let terms := terms.map (fun e => (e.1, ⟨e.2.positions, lg (e.2.weight + 1) / field_length⟩))
  (⟨tokens.length, terms⟩, dict)

/-- Modelled from the spec: TSVector::boost (§4.2, "multiply every term's
weight by factor").  lib.rs calls this method but its body is not in
src/tsvector.rs. -/
def TSVector.boost (v : TSVector) (factor : ℚ) : TSVector :=
  ⟨v.length, v.terms.map (fun e => (e.1, ⟨e.2.positions, e.2.weight * factor⟩))⟩

/-- Inner helper add_terms of the Add impl in src/tsvector.rs: merge
terms_to_add into terms, shifting every position by start_position. -/
def addTerms (terms : List (Nat × TSVectorTerm))
    (terms_to_add : List (Nat × TSVectorTerm)) (start_position : Nat) :
    List (Nat × TSVectorTerm) :=
  terms_to_add.foldl
    (fun acc e =>
      if (acc.find? (fun f => f.1 == e.1)).isSome then
        acc.map (fun f =>
          if f.1 == e.1 then
            (f.1, ⟨f.2.positions ++ e.2.positions.map (start_position + ·), f.2.weight + e.2.weight⟩)
          else f)
      else acc ++ [(e.1, e.2)])
    terms

/-- Add impl for TSVector from src/tsvector.rs; lib.rs uses it through the
append method (spec §4.2: `a + b` is append on a clone).  Positions of
other are shifted by the receiver's length. -/
def TSVector.append (v : TSVector) (other : TSVector) : TSVector :=
  ⟨v.length + other.length, addTerms (addTerms [] v.terms 0) other.terms v.length⟩

/-! ## Field dictionary (src/data_dictionary.rs) -/

/-- FieldConfig: multiplicative boost and copy_to destination set (an
FnvHashSet with unspecified iteration order in the source, modelled as a
duplicate-free list in iteration order). -/
structure FieldConfig where
  boost : ℚ
  copy_to : List Nat
deriving DecidableEq

instance : Inhabited FieldConfig := ⟨⟨1, []⟩⟩

/-- DataDictionary from src/data_dictionary.rs. -/
structure DataDictionary where
  next_field_id : Nat
  field_names : List (String × Nat)
  fields : List (Nat × FieldConfig)
deriving DecidableEq

def DataDictionary.empty : DataDictionary := ⟨0, [], []⟩

/-- DataDictionary::insert: mint a FieldId for a named field. -/
def DataDictionary.insert (dict : DataDictionary) (name : String)
    (config : FieldConfig) : Nat × DataDictionary :=
  let id := dict.next_field_id
  (id, ⟨id + 1, dict.field_names ++ [(name, id)], dict.fields ++ [(id, config)]⟩)

/-- DataDictionary::get_by_name. -/
def DataDictionary.get_by_name (dict : DataDictionary) (name : String) :
    Option (Nat × FieldConfig) :=
  (dict.field_names.find? (fun e => e.1 == name)).bind (fun e =>
    ((dict.fields.find? (fun f => f.1 == e.2)).map (fun f => (e.2, f.2))))

/-! ## Query AST and smart constructors (src/query.rs) -/

/-- Query AST from src/query.rs.  f32 boost factors are modelled as ℚ.
The executor enum in src/lib.rs is this enum minus Exclude; see the doc
comments on Database.simple_match and Database.query. -/
inductive Query where
  | MatchAll : Query
  | MatchNone : Query
  | Term : Nat → Nat → Query
  | Phrase : Nat → List Nat → Query
  | Or : List Query → Query
  | And : List Query → Query
  | Filter : Query → Query → Query
  | Exclude : Query → Query → Query
  | Boost : Query → ℚ → Query
deriving Repr

namespace Query

mutual

/-- Structural equality test for Query (the derive handler does not support
this nested inductive). -/
def beq : Query → Query → Bool
  | MatchAll, MatchAll => true
  | MatchNone, MatchNone => true
  | Term f t, Term g u => f == g && t == u
  | Phrase f ts, Phrase g us => f == g && ts == us
  | Or qs, Or rs => beqList qs rs
  | And qs, And rs => beqList qs rs
  | Filter q f, Filter r g => beq q r && beq f g
  | Exclude q f, Exclude r g => beq q r && beq f g
  | Boost q b, Boost r c => beq q r && b == c
  | _, _ => false

/-- Elementwise beq on query lists. -/
def beqList : List Query → List Query → Bool
  | [], [] => true
  | q :: qs, r :: rs => beq q r && beqList qs rs
  | _, _ => false

end

end Query

/-- Structural induction principle for Query giving membership hypotheses
for the list-shaped children. -/
theorem Query.recAll (P : Query → Prop)
    (hma : P MatchAll) (hmn : P MatchNone)
    (ht : ∀ f t, P (Term f t)) (hp : ∀ f ts, P (Phrase f ts))
    (hor : ∀ qs, (∀ q, q ∈ qs → P q) → P (Or qs))
    (hand : ∀ qs, (∀ q, q ∈ qs → P q) → P (And qs))
    (hf : ∀ q f, P q → P f → P (Filter q f))
    (he : ∀ q f, P q → P f → P (Exclude q f))
    (hb : ∀ q b, P q → P (Boost q b)) : ∀ q, P q
  | MatchAll => hma
  | MatchNone => hmn
  | Term f t => ht f t
  | Phrase f ts => hp f ts
  | Or qs => hor qs (fun q _ => Query.recAll P hma hmn ht hp hor hand hf he hb q)
  | And qs => hand qs (fun q _ => Query.recAll P hma hmn ht hp hor hand hf he hb q)
  | Filter q f => hf q f (Query.recAll P hma hmn ht hp hor hand hf he hb q)
      (Query.recAll P hma hmn ht hp hor hand hf he hb f)
  | Exclude q f => he q f (Query.recAll P hma hmn ht hp hor hand hf he hb q)
      (Query.recAll P hma hmn ht hp hor hand hf he hb f)
  | Boost q b => hb q b (Query.recAll P hma hmn ht hp hor hand hf he hb q)
termination_by q => sizeOf q
decreasing_by
  all_goals simp_wf
  all_goals first
    | (have h := List.sizeOf_lt_of_mem (show _ ∈ qs by assumption); omega)
    | simp_arith

/-- beqList decides list equality once beq decides equality of the members. -/
theorem Query.beqList_iff (qs : List Query)
    (ih : ∀ q, q ∈ qs → ∀ b, Query.beq q b = true ↔ q = b) :
    ∀ rs, Query.beqList qs rs = true ↔ qs = rs := by
  induction qs with
  | nil => intro rs; cases rs <;> simp [Query.beqList]
  | cons q qs ihq =>
      intro rs
      cases rs with
      | nil => simp [Query.beqList]
      | cons r rs =>
          have h1 := ih q (by simp)
          have h2 := ihq (fun q hq b => ih q (by simp [hq]) b) rs
          simp [Query.beqList, h1, h2]

/-- beq decides equality of queries. -/
theorem Query.beq_iff : ∀ a b, Query.beq a b = true ↔ a = b := by
  intro a
  induction a using Query.recAll with
  | hma => intro b; cases b <;> simp [Query.beq]
  | hmn => intro b; cases b <;> simp [Query.beq]
  | ht f t => intro b; cases b <;> simp [Query.beq]
  | hp f ts => intro b; cases b <;> simp [Query.beq]
  | hor qs ih =>
      intro b; cases b <;> simp [Query.beq]
      exact Query.beqList_iff qs ih _
  | hand qs ih =>
      intro b; cases b <;> simp [Query.beq]
      exact Query.beqList_iff qs ih _
  | hf q f ihq ihf => intro b; cases b <;> simp [Query.beq, ihq, ihf]
  | he q f ihq ihf => intro b; cases b <;> simp [Query.beq, ihq, ihf]
  | hb q c ihq => intro b; cases b <;> simp [Query.beq, ihq]

instance : DecidableEq Query := fun a b =>
  decidable_of_iff (Query.beq a b = true) (Query.beq_iff a b)

namespace Query

/-- Query::match_all. -/
def match_all : Query := MatchAll

/-- Query::match_none. -/
def match_none : Query := MatchNone

/-- Loop body of Query::or: drop MatchNone, flag MatchAll, splice nested Or
children verbatim, push everything else. -/
def orStep (acc : List Query × Bool) (q : Query) : List Query × Bool :=
  match q with
  | MatchNone => acc
  | MatchAll => (acc.1, true)
  | Or qs => (acc.1 ++ qs, acc.2)
  | q => (acc.1 ++ [q], acc.2)

/-- Query::or from src/query.rs. -/
def or (queries : List Query) : Query :=
  let acc := queries.foldl orStep ([], false)
  let processed := if acc.2 then acc.1 ++ [MatchAll] else acc.1
  match processed with
  | [] => MatchNone
  | [q] => q
  | processed => Or processed

/-- Loop of Query::and: an early return of MatchNone is modelled as none. -/
def andLoop : List Query → List Query × Bool → Option (List Query × Bool)
  | [], acc => some acc
  | q :: rest, acc =>
      match q with
      | MatchNone => none
      | MatchAll => andLoop rest (acc.1, true)
      | And qs => andLoop rest (acc.1 ++ qs, acc.2)
      | q => andLoop rest (acc.1 ++ [q], acc.2)

/-- Query::and from src/query.rs. -/
def and (queries : List Query) : Query :=
  match andLoop queries ([], false) with
  | none => MatchNone
  | some acc =>
      match acc.1 with
      | [] => if acc.2 then MatchAll else MatchNone
      | [q] => q
      | processed => And processed

mutual

/-- Query::filter from src/query.rs (match arms in source order). -/
def filter : Query → Query → Query
  | MatchNone, _ => match_none
  | q, MatchAll => q
  | _, MatchNone => match_none
  | q, Filter MatchAll f => filter q f
  | q, Exclude MatchAll f => exclude q f
  | q, f => Filter q f

/-- Query::exclude from src/query.rs (match arms in source order). -/
def exclude : Query → Query → Query
  | MatchNone, _ => match_none
  | _, MatchAll => match_none
  | q, MatchNone => q
  | q, Filter MatchAll f => exclude q f
  | q, Exclude MatchAll f => filter q f
  | q, f => Exclude q f

end

/-- Query::not. -/
def not (query : Query) : Query := exclude match_all query

/-- Query::boost. -/
def boost (query : Query) (b : ℚ) : Query := Boost query b

end Query

mutual

/-- Bottom-up application of the smart constructors to a query tree: the
simplifier of spec §4.7. -/
def simplify : Query → Query
  | .MatchAll => .MatchAll
  | .MatchNone => .MatchNone
  | .Term f t => .Term f t
  | .Phrase f ts => .Phrase f ts
  | .Or qs => Query.or (simplifyList qs)
  | .And qs => Query.and (simplifyList qs)
  | .Filter q f => Query.filter (simplify q) (simplify f)
  | .Exclude q f => Query.exclude (simplify q) (simplify f)
  | .Boost q b => Query.boost (simplify q) b

/-- Elementwise simplify, the `children.map(simplify)` step. -/
def simplifyList : List Query → List Query
  | [] => []
  | q :: qs => simplify q :: simplifyList qs

end

/-- simplifyList is the elementwise map of simplify. -/
theorem simplifyList_eq_map : ∀ qs, simplifyList qs = qs.map simplify
  | [] => rfl
  | q :: qs => by rw [simplifyList, List.map_cons, simplifyList_eq_map qs]

/-! ### MatchAll-free queries and simplifier normal forms -/

/-- A child shape the or smart constructor passes through unchanged. -/
def orChildOk : Query → Bool
  | .Or _ => false
  | .MatchNone => false
  | .MatchAll => false
  | _ => true

/-- A child shape the and smart constructor passes through unchanged. -/
def andChildOk : Query → Bool
  | .And _ => false
  | .MatchNone => false
  | .MatchAll => false
  | _ => true

mutual

/-- True when the query contains no MatchAll leaf. -/
def maFree : Query → Bool
  | .MatchAll => false
  | .MatchNone => true
  | .Term _ _ => true
  | .Phrase _ _ => true
  | .Or qs => maFreeList qs
  | .And qs => maFreeList qs
  | .Filter q f => maFree q && maFree f
  | .Exclude q f => maFree q && maFree f
  | .Boost q _ => maFree q

/-- Conjunction of maFree over a list. -/
def maFreeList : List Query → Bool
  | [] => true
  | q :: qs => maFree q && maFreeList qs

end

mutual

/-- Normal forms of the simplifier on MatchAll-free queries: the shapes the
smart constructors leave unchanged. -/
def nfB : Query → Bool
  | .MatchAll => false
  | .MatchNone => true
  | .Term _ _ => true
  | .Phrase _ _ => true
  | .Or qs => decide (2 ≤ qs.length) && qs.all orChildOk && nfList qs
  | .And qs => decide (2 ≤ qs.length) && qs.all andChildOk && nfList qs
  | .Filter q f => nfB q && nfB f && !(q == .MatchNone) && !(f == .MatchNone)
  | .Exclude q f => nfB q && nfB f && !(q == .MatchNone) && !(f == .MatchNone)
  | .Boost q _ => nfB q

/-- Conjunction of nfB over a list. -/
def nfList : List Query → Bool
  | [] => true
  | q :: qs => nfB q && nfList qs

end

/-! ## Inverted index (src/lib.rs) -/

/-- Posting from src/lib.rs: `(DocumentId, FnvHashSet<usize>, f32)`. -/
structure Posting where
  doc : Nat
  positions : Finset Nat
  weight : ℚ
deriving DecidableEq

/-- InvertedIndex from src/lib.rs; postings lists are kept per term id in
insertion order. -/
structure InvertedIndex where
  postings : List (Nat × List Posting)
  total_documents : Nat
  total_terms : Nat
deriving DecidableEq

/-- Default InvertedIndex (derive(Default) in the source). -/
instance : Inhabited InvertedIndex := ⟨⟨[], 0, 0⟩⟩

/-- Lookup of `self.postings.get(&term)`. -/
def InvertedIndex.getPostings (idx : InvertedIndex) (term : Nat) :
    Option (List Posting) :=
  (idx.postings.find? (fun e => e.1 == term)).map (·.2)

/-- Entry update for the postings map: append a posting to the list of term
t, creating the list if absent (`self.postings.entry(*term).or_default()`
followed by push). -/
def pushPosting (postings : List (Nat × List Posting)) (t : Nat) (p : Posting) :
    List (Nat × List Posting) :=
  if (postings.find? (fun e => e.1 == t)).isSome then
    postings.map (fun e => if e.1 == t then (e.1, e.2 ++ [p]) else e)
  else
    postings ++ [(t, [p])]

/-- InvertedIndex::insert_tsvector: push one posting per term of the vector
and bump both counters. -/
def InvertedIndex.insert_tsvector (idx : InvertedIndex) (document_id : Nat)
    (tsvector : TSVector) : InvertedIndex :=
  { postings :=
      tsvector.terms.foldl
        (fun acc e => pushPosting acc e.1 ⟨document_id, e.2.positions.toFinset, e.2.weight⟩)
        idx.postings
    total_documents := idx.total_documents + 1
    total_terms := idx.total_terms + tsvector.length }

/-- InvertedIndex::term_document_frequency. -/
def InvertedIndex.term_document_frequency (idx : InvertedIndex) (term : Nat) : Nat :=
  ((idx.getPostings term).map (·.length)).getD 0

/-- InvertedIndex::docs_with_term. -/
def InvertedIndex.docs_with_term (idx : InvertedIndex) (term : Nat) : List Nat :=
  ((idx.getPostings term).map (fun pl => pl.map (·.doc))).getD []

/-- Body of the docs_with_phrase loop over one posting list: if the posting's
document is a current candidate, record it as seen and advance its position
set to `{p+1 | p ∈ set, p+1 ∈ posting.positions}`. -/
def phraseStepFold (acc : List (Nat × Finset Nat) × List Nat) (p : Posting) :
    List (Nat × Finset Nat) × List Nat :=
  if (acc.1.find? (fun e => e.1 == p.doc)).isSome then
    (acc.1.map (fun e =>
       if e.1 == p.doc then
         (e.1, (e.2.filter (fun q => q + 1 ∈ p.positions)).image (fun q => q + 1))
       else e),
     p.doc :: acc.2)
  else acc

/-- One docs_with_phrase round for a subsequent term: advance all candidates
through the posting list, then drop candidates that were not seen or whose
position set became empty. -/
def phraseStep (results : List (Nat × Finset Nat)) (posting_list : List Posting) :
    List (Nat × Finset Nat) :=
  let s := posting_list.foldl phraseStepFold (results, [])
  s.1.filter (fun e => decide (e.1 ∈ s.2) && decide e.2.Nonempty)

/-- InvertedIndex::docs_with_phrase from src/lib.rs. -/
def InvertedIndex.docs_with_phrase (idx : InvertedIndex) (terms : List Nat) :
    List Nat :=
  match terms.mapM (fun term => idx.getPostings term) with
  | none => []
  | some posting_lists =>
      match posting_lists with
      | [] => []
      | first_posting_list :: rest =>
          let results := first_posting_list.map (fun p => (p.doc, p.positions))
          (rest.foldl phraseStep results).map (·.1)

/-- InvertedIndex::calculate_normalizer, with the f32 binary logarithm
abstracted as lg. -/
def InvertedIndex.calculate_normalizer (lg : ℚ → ℚ) (idx : InvertedIndex)
    (term : Nat) : ℚ :=
  let inverse_document_frequency := 1 / lg ((idx.term_document_frequency term : ℚ) + 1)
  let field_length_normalizer :=
    1 / ((idx.total_documents : ℚ) / (idx.total_terms : ℚ))
  inverse_document_frequency * field_length_normalizer

/-- InvertedIndex::search. -/
def InvertedIndex.search (lg : ℚ → ℚ) (idx : InvertedIndex) (term : Nat) :
    List (Nat × ℚ) :=
  let normalizer := idx.calculate_normalizer lg term
  ((idx.getPostings term).map (fun pl => pl.map (fun p => (p.doc, p.weight * normalizer)))).getD []

/-- Body of the phrase_search loop over one posting list: like
phraseStepFold but also accumulating `weight * normalizer` into the
candidate's score. -/
def phraseScoreStepFold (normalizer : ℚ)
    (acc : List (Nat × Finset Nat × ℚ) × List Nat) (p : Posting) :
    List (Nat × Finset Nat × ℚ) × List Nat :=
  if (acc.1.find? (fun e => e.1 == p.doc)).isSome then
    (acc.1.map (fun e =>
       if e.1 == p.doc then
         (e.1, (e.2.1.filter (fun q => q + 1 ∈ p.positions)).image (fun q => q + 1),
          e.2.2 + p.weight * normalizer)
       else e),
     p.doc :: acc.2)
  else acc

/-- One phrase_search round for a subsequent term. -/
def phraseScoreStep (results : List (Nat × Finset Nat × ℚ)) (normalizer : ℚ)
    (posting_list : List Posting) : List (Nat × Finset Nat × ℚ) :=
  let s := posting_list.foldl (phraseScoreStepFold normalizer) (results, [])
  s.1.filter (fun e => decide (e.1 ∈ s.2) && decide e.2.1.Nonempty)

/-- InvertedIndex::phrase_search from src/lib.rs. -/
def InvertedIndex.phrase_search (lg : ℚ → ℚ) (idx : InvertedIndex)
    (terms : List Nat) : List (Nat × ℚ) :=
  match terms.mapM (fun term => (idx.getPostings term).map (fun pl => (term, pl))) with
  | none => []
  | some posting_lists =>
      match posting_lists with
      | [] => []
      | first :: rest =>
          let normalizer := idx.calculate_normalizer lg first.1
          let results := first.2.map (fun p => (p.doc, p.positions, p.weight * normalizer))
          (rest.foldl (fun res e => phraseScoreStep res (idx.calculate_normalizer lg e.1) e.2)
            results).map (fun e => (e.1, e.2.2))

/-! ## Documents and ingest (src/lib.rs) -/

/-- Document: per-field vectors in insertion order. -/
structure Document where
  fields : List (Nat × TSVector)
deriving DecidableEq, Repr

/-- HashMap::insert semantics for an association list: replace in place or
append. -/
def insertAssoc {β : Type} (l : List (Nat × β)) (k : Nat) (v : β) : List (Nat × β) :=
  if (l.find? (fun e => e.1 == k)).isSome then
    l.map (fun e => if e.1 == k then (e.1, v) else e)
  else l ++ [(k, v)]

/-- DocumentSource: field name to token list.  The source stores a
HashMap<String, Vec<Token>> whose iteration order is arbitrary; the model
iterates in list order. -/
structure DocumentSource where
  fields : List (String × List Token)
deriving DecidableEq, Repr

/-- DocumentSource::as_document from src/lib.rs: build a boosted vector per
known field, then run the copy_to pass, appending each source vector into
its destination vectors (created empty if absent).  The copy_to hash set is
iterated in the model's list order (the source iterates an FnvHashSet in
unspecified order; spec §9 allows a deterministic order). -/
def DocumentSource.as_document (lg : ℚ → ℚ) (source : DocumentSource)
    (term_dict : TermDictionary) (data_dict : DataDictionary) :
    Document × TermDictionary :=
  let step := fun (acc : List (Nat × TSVector) × List (Nat × List Nat) × TermDictionary)
      (e : String × List Token) =>
    match data_dict.get_by_name e.1 with
    | some fc =>
        let (tsvector, term_dict) := TSVector.from_tokens lg e.2 acc.2.2
        let tsvector := tsvector.boost (fc.2.boost / (tsvector.length : ℚ))
        let fields := insertAssoc acc.1 fc.1 tsvector
        let copy_fields :=
          if fc.2.copy_to ≠ [] then insertAssoc acc.2.1 fc.1 fc.2.copy_to else acc.2.1
        (fields, copy_fields, term_dict)
    | none => acc
  let built := source.fields.foldl step ([], [], term_dict)
  let copy := fun (fields : List (Nat × TSVector)) (e : Nat × List Nat) =>
    match fields.find? (fun f => f.1 == e.1) with
    | some src =>
        e.2.foldl
          (fun fields dest =>
            let destination := (((fields.find? (fun f => f.1 == dest)).map (·.2)).getD default)
            insertAssoc fields dest (destination.append src.2))
          fields
    | none => fields
  (⟨built.2.1.foldl copy built.1⟩, built.2.2)

/-! ## Database and executors (src/lib.rs) -/

/-- Database from src/lib.rs. -/
structure Database where
  next_document_id : Nat
  term_dictionary : TermDictionary
  data_dictionary : DataDictionary
  fields : List (Nat × InvertedIndex)
  docs : List (Nat × Document)
  deleted_docs : Finset Nat
deriving DecidableEq

/-- Database::default() with a given pre-registered field dictionary (the
binaries register all fields before inserting documents). -/
def Database.start (data_dict : DataDictionary) : Database :=
  ⟨0, TermDictionary.empty, data_dict, [], [], ∅⟩

/-- Database::insert_document from src/lib.rs. -/
def Database.insert_document (lg : ℚ → ℚ) (db : Database)
    (source : DocumentSource) : Nat × Database :=
  let built := source.as_document lg db.term_dictionary db.data_dictionary
  let id := db.next_document_id
  let fields :=
    built.1.fields.foldl
      (fun fs e =>
        let field := (((fs.find? (fun f => f.1 == e.1)).map (·.2)).getD default)
        insertAssoc fs e.1 (field.insert_tsvector id e.2))
      db.fields
  (id,
   { next_document_id := id + 1
     term_dictionary := built.2
     data_dictionary := db.data_dictionary
     fields := fields
     docs := insertAssoc db.docs id built.1
     deleted_docs := db.deleted_docs })

/-- Database::delete_document: tombstone only. -/
def Database.delete_document (db : Database) (document_id : Nat) : Database :=
  { db with deleted_docs := insert document_id db.deleted_docs }

/-- HashSet insert for the Or accumulation (order is the model's choice;
the source collects an FnvHashSet). -/
def insertUnique (acc : List Nat) (d : Nat) : List Nat :=
  if d ∈ acc then acc else acc ++ [d]

/-- Occurrence counting for the And accumulation
(`results.entry(document_id).or_default(); *result += 1`). -/
def bumpCount (acc : List (Nat × Nat)) (d : Nat) : List (Nat × Nat) :=
  if (acc.find? (fun e => e.1 == d)).isSome then
    acc.map (fun e => if e.1 == d then (e.1, e.2 + 1) else e)
  else acc ++ [(d, 1)]

mutual

/-- Termination measure for the executors: a plain size with extra slack on
Filter and Exclude so that the Filter arm's recursive call on `And [q, f]`
decreases. -/
def qweight : Query → Nat
  | .MatchAll => 1
  | .MatchNone => 1
  | .Term _ _ => 1
  | .Phrase _ _ => 1
  | .Or qs => 2 + qweightList qs
  | .And qs => 2 + qweightList qs
  | .Filter q f => 4 + qweight q + qweight f
  | .Exclude q f => 4 + qweight q + qweight f
  | .Boost q _ => 1 + qweight q

/-- Sum of qweight over a list of queries. -/
def qweightList : List Query → Nat
  | [] => 0
  | q :: qs => qweight q + qweightList qs

end

/-- Every query has positive weight. -/
theorem qweight_pos (q : Query) : 0 < qweight q := by
  cases q <;> simp [qweight]

/-- Members of a list weigh no more than the list. -/
theorem qweight_le_of_mem : ∀ {qs : List Query} {q : Query}, q ∈ qs →
    qweight q ≤ qweightList qs := by
  intro qs
  induction qs with
  | nil => intro q h; cases h
  | cons a qs ih =>
      intro q h
      rcases List.mem_cons.mp h with h | h
      · subst h; simp [qweightList]
      · have := ih h
        simp [qweightList]
        omega

/-- Database::simple_match from src/lib.rs.  The Exclude arm is modelled
from the spec (§4.8: `Exclude(q, f)` evaluates to `simple_match(q)` minus
`simple_match(f)`): the executor enum in src/lib.rs omits Exclude although
the simplifier in src/query.rs and the server binary both produce Exclude
queries, so the executor case for it is missing from src/. -/
def Database.simple_match (db : Database) : Query → List Nat
  | .MatchAll =>
      (List.range db.next_document_id).filter (fun d => decide (d ∉ db.deleted_docs))
  | .MatchNone => []
  | .Term field_id term_id =>
      match db.fields.find? (fun e => e.1 == field_id) with
      | some e => (e.2.docs_with_term term_id).filter (fun d => decide (d ∉ db.deleted_docs))
      | none => []
  | .Phrase field_id terms =>
      match db.fields.find? (fun e => e.1 == field_id) with
      | some e => (e.2.docs_with_phrase terms).filter (fun d => decide (d ∉ db.deleted_docs))
      | none => []
  | .Or qs =>
      qs.attach.foldl (fun acc x => (db.simple_match x.1).foldl insertUnique acc) []
  | .And qs =>
      ((qs.attach.foldl (fun acc x => (db.simple_match x.1).foldl bumpCount acc) []).filter
        (fun e => e.2 == qs.length)).map (·.1)
  | .Filter q f => db.simple_match (.And [q, f])
  | .Exclude q f =>
      (db.simple_match q).filter (fun d => decide (d ∉ db.simple_match f))
  | .Boost q _ => db.simple_match q
termination_by q => qweight q
decreasing_by
  all_goals simp [qweight, qweightList]
  all_goals first
    | (have h := qweight_le_of_mem x.2; omega)
    | omega

/-- Score accumulation for the scored Or arm
(`*results.entry(document_id).or_default() += score`). -/
def bumpScore (acc : List (Nat × ℚ)) (d : Nat) (s : ℚ) : List (Nat × ℚ) :=
  if (acc.find? (fun e => e.1 == d)).isSome then
    acc.map (fun e => if e.1 == d then (e.1, e.2 + s) else e)
  else acc ++ [(d, s)]

/-- Score and child-count accumulation for the scored And arm. -/
def bumpAnd (acc : List (Nat × ℚ × Nat)) (d : Nat) (s : ℚ) : List (Nat × ℚ × Nat) :=
  if (acc.find? (fun e => e.1 == d)).isSome then
    acc.map (fun e => if e.1 == d then (e.1, e.2.1 + s, e.2.2 + 1) else e)
  else acc ++ [(d, s, 1)]

/-- Score accumulation with a passed_filter flag for the Filter arm
(entries start with the flag false). -/
def bumpFilter (acc : List (Nat × ℚ × Bool)) (d : Nat) (s : ℚ) :
    List (Nat × ℚ × Bool) :=
  if (acc.find? (fun e => e.1 == d)).isSome then
    acc.map (fun e => if e.1 == d then (e.1, e.2.1 + s, e.2.2) else e)
  else acc ++ [(d, s, false)]

/-- Mark passed_filter on an existing entry (`results.get_mut`: absent
documents are not inserted). -/
def markPass (acc : List (Nat × ℚ × Bool)) (d : Nat) : List (Nat × ℚ × Bool) :=
  acc.map (fun e => if e.1 == d then (e.1, e.2.1, true) else e)

/-- Database::query from src/lib.rs (scored executor).  As with
simple_match, the Exclude arm is modelled from the spec (§4.8: as Filter
but retaining the documents NOT in the filter set, the filter contributing
nothing to the score); the case is missing from src/. -/
def Database.query (lg : ℚ → ℚ) (db : Database) : Query → List (Nat × ℚ)
  | .MatchAll =>
      ((List.range db.next_document_id).filter
        (fun d => decide (d ∉ db.deleted_docs))).map (fun d => (d, 0))
  | .MatchNone => []
  | .Term field_id term_id =>
      match db.fields.find? (fun e => e.1 == field_id) with
      | some e =>
          (e.2.search lg term_id).filter (fun r => decide (r.1 ∉ db.deleted_docs))
      | none => []
  | .Phrase field_id terms =>
      match db.fields.find? (fun e => e.1 == field_id) with
      | some e =>
          (e.2.phrase_search lg terms).filter (fun r => decide (r.1 ∉ db.deleted_docs))
      | none => []
  | .Or qs =>
      qs.attach.foldl
        (fun acc x => (db.query lg x.1).foldl (fun acc r => bumpScore acc r.1 r.2) acc) []
  | .And qs =>
      ((qs.attach.foldl
          (fun acc x => (db.query lg x.1).foldl (fun acc r => bumpAnd acc r.1 r.2) acc)
          []).filter (fun e => e.2.2 == qs.length)).map (fun e => (e.1, e.2.1))
  | .Filter q f =>
      let results := (db.query lg q).foldl (fun acc r => bumpFilter acc r.1 r.2) []
      let results := (db.simple_match f).foldl markPass results
      (results.filter (fun e => e.2.2)).map (fun e => (e.1, e.2.1))
  | .Exclude q f =>
      let results := (db.query lg q).foldl (fun acc r => bumpFilter acc r.1 r.2) []
      let results := (db.simple_match f).foldl markPass results
      (results.filter (fun e => !e.2.2)).map (fun e => (e.1, e.2.1))
  | .Boost q b =>
      if b == 0 then (db.simple_match q).map (fun d => (d, 0))
      else (db.query lg q).map (fun r => (r.1, r.2 * b))
termination_by q => qweight q
decreasing_by
  all_goals simp [qweight, qweightList]
  all_goals first
    | (have h := qweight_le_of_mem x.2; omega)
    | omega

/-! ## Reachable database states -/

/-- Database states produced by a sequence of insert_document and
delete_document operations from a fresh database with some pre-registered
field dictionary. -/
inductive Reachable (lg : ℚ → ℚ) : Database → Prop where
  | start (data_dict : DataDictionary) : Reachable lg (Database.start data_dict)
  | insert {db : Database} (source : DocumentSource) (h : Reachable lg db) :
      Reachable lg (db.insert_document lg source).2
  | delete {db : Database} (document_id : Nat) (h : Reachable lg db) :
      Reachable lg (db.delete_document document_id)

/-- Computable stand-in for the f32 binary logarithm used by concrete
theorems: the floor of log2 on the numerator.  It agrees with the exact
(and the f32) binary logarithm on powers of two, the only points at which
concrete theorems evaluate it. -/
def lg2 : ℚ → ℚ := fun q => (Nat.log 2 q.num.toNat : ℚ)

/-! ## Concrete example states for closed instantiations -/

/-- A one-field dictionary registering "body" with no boost or copy_to. -/
def ddW : DataDictionary := (DataDictionary.empty.insert "body" ⟨1, []⟩).2

/-- A two-token source document for the body field. -/
def srcW : DocumentSource := ⟨[("body", [⟨"hello", 1, 1⟩, ⟨"world", 2, 1⟩])]⟩

/-- A database with one document inserted. -/
def dbW : Database := ((Database.start ddW).insert_document lg2 srcW).2

/-- A database with two documents inserted and the first one deleted. -/
def dbW2 : Database := ((dbW.insert_document lg2 srcW).2).delete_document 0

/-- A database where one document was inserted carrying a registered field
with no tokens at all. -/
def dbE : Database := ((Database.start ddW).insert_document lg2 ⟨[("body", [])]⟩).2

/-- A two-term index: term 0 at position 1 and term 1 at position 2 of
document 0. -/
def idxW : InvertedIndex :=
  ⟨[(0, [⟨0, {1}, 1⟩]), (1, [⟨0, {2}, 1⟩])], 1, 2⟩

/-- The spec's copy_to dictionary: all_text (id 0) plain, title (id 1) with
boost 2 copied to all_text. -/
def ddC : DataDictionary :=
  ((DataDictionary.empty.insert "all_text" ⟨1, []⟩).2.insert "title" ⟨2, [0]⟩).2

/-- The spec's copy_to source document: karl and hobley in the title. -/
def srcC : DocumentSource := ⟨[("title", [⟨"karl", 1, 1⟩, ⟨"hobley", 2, 1⟩])]⟩

/-- The spec's copy_to scenario state after inserting the document. -/
def dbC : Database := ((Database.start ddC).insert_document lg2 srcC).2

/-! ## Association list toolkit

The embedded hash maps are association lists; every updater in the model is
an instance of one generic upsert combinator, characterised once here. -/

/-- Lookup in an association list (`HashMap::get`). -/
def lookupA {β : Type} (l : List (Nat × β)) (k : Nat) : Option β :=
  (l.find? (fun e => e.1 == k)).map (·.2)

/-- Key list of an association list. -/
def keysOf {β : Type} (l : List (Nat × β)) : List Nat := l.map (·.1)

/-- Generic entry update: apply g in place when the key is present,
otherwise append the entry (k, miss). -/
def upsert {β : Type} (l : List (Nat × β)) (k : Nat) (g : β → β) (miss : β) :
    List (Nat × β) :=
  if (l.find? (fun e => e.1 == k)).isSome then
    l.map (fun e => if e.1 == k then (e.1, g e.2) else e)
  else l ++ [(k, miss)]

theorem lookupA_nil {β : Type} (k : Nat) : lookupA ([] : List (Nat × β)) k = none := rfl

theorem lookupA_cons {β : Type} (a : Nat) (b : β) (l : List (Nat × β)) (k : Nat) :
    lookupA ((a, b) :: l) k = if a = k then some b else lookupA l k := by
  by_cases h : a = k <;> simp [lookupA, List.find?_cons, h]

theorem keysOf_nil {β : Type} : keysOf ([] : List (Nat × β)) = [] := rfl

theorem keysOf_cons {β : Type} (a : Nat) (b : β) (l : List (Nat × β)) :
    keysOf ((a, b) :: l) = a :: keysOf l := rfl

theorem keysOf_append {β : Type} (l l2 : List (Nat × β)) :
    keysOf (l ++ l2) = keysOf l ++ keysOf l2 := by
  simp [keysOf]

/-- Presence of a key is membership in the key list. -/
theorem isSome_lookupA {β : Type} (l : List (Nat × β)) (k : Nat) :
    (lookupA l k).isSome ↔ k ∈ keysOf l := by
  induction l with
  | nil => simp [lookupA, keysOf]
  | cons e l ih =>
      rcases e with ⟨a, b⟩
      rw [lookupA_cons, keysOf_cons]
      by_cases h : a = k
      · subst h; simp
      · simp only [h, if_false, List.mem_cons, ih]
        constructor
        · exact Or.inr
        · rintro (rfl | hm)
          · exact absurd rfl h
          · exact hm

theorem find?_isSome_iff_mem_keysOf {β : Type} (l : List (Nat × β)) (k : Nat) :
    (l.find? (fun e => e.1 == k)).isSome ↔ k ∈ keysOf l := by
  have := isSome_lookupA l k
  simpa [lookupA] using this

theorem lookupA_append {β : Type} (l l2 : List (Nat × β)) (k : Nat) :
    lookupA (l ++ l2) k =
      match lookupA l k with
      | some v => some v
      | none => lookupA l2 k := by
  induction l with
  | nil => simp [lookupA_nil]
  | cons e l ih =>
      rcases e with ⟨a, b⟩
      rw [List.cons_append, lookupA_cons, lookupA_cons]
      by_cases h : a = k <;> simp [h, ih]

/-- Lookup after an in-place update of all entries of one key. -/
theorem lookupA_mapUpdate {β : Type} (l : List (Nat × β)) (c : Nat) (g : β → β)
    (k : Nat) :
    lookupA (l.map (fun e => if e.1 == c then (e.1, g e.2) else e)) k =
      if k = c then (lookupA l k).map g else lookupA l k := by
  induction l with
  | nil => by_cases h : k = c <;> simp [lookupA_nil, h]
  | cons e l ih =>
      rcases e with ⟨a, b⟩
      rw [List.map_cons]
      by_cases hac : a = c
      · subst hac
        rw [(by simp : (if ((a, b).1 == a) = true then ((a, b).1, g (a, b).2) else (a, b)) = (a, g b)),
          lookupA_cons, lookupA_cons]
        by_cases hak : a = k
        · subst hak; simp
        · have hka : ¬ k = a := fun hh => hak hh.symm
          rw [ih]
          simp [hak, hka]
      · rw [(by simp [hac] : (if ((a, b).1 == c) = true then ((a, b).1, g (a, b).2) else (a, b)) = (a, b)),
          lookupA_cons, lookupA_cons]
        by_cases hak : a = k
        · subst hak
          have : ¬ a = c := hac
          simp [this]
        · rw [ih]
          simp [hak]

/-- Keys are unchanged by an in-place update. -/
theorem keysOf_mapUpdate {β : Type} (l : List (Nat × β)) (c : Nat) (g : β → β) :
    keysOf (l.map (fun e => if e.1 == c then (e.1, g e.2) else e)) = keysOf l := by
  induction l with
  | nil => rfl
  | cons e l ih =>
      rcases e with ⟨a, b⟩
      by_cases h : a = c
      · subst h
        rw [List.map_cons,
          (by simp : (if ((a, b).1 == a) = true then ((a, b).1, g (a, b).2) else (a, b)) = (a, g b)),
          keysOf_cons, keysOf_cons, ih]
      · rw [List.map_cons,
          (by simp [h] : (if ((a, b).1 == c) = true then ((a, b).1, g (a, b).2) else (a, b)) = (a, b)),
          keysOf_cons, keysOf_cons, ih]

/-- Lookup after upsert. -/
theorem lookupA_upsert {β : Type} (l : List (Nat × β)) (k : Nat) (g : β → β)
    (miss : β) (k2 : Nat) :
    lookupA (upsert l k g miss) k2 =
      if k2 = k then
        match lookupA l k with
        | some v => some (g v)
        | none => some miss
      else lookupA l k2 := by
  unfold upsert
  by_cases h : (l.find? (fun e => e.1 == k)).isSome
  · rw [if_pos h, lookupA_mapUpdate]
    have hsome : (lookupA l k).isSome := by simpa [lookupA] using h
    rcases Option.isSome_iff_exists.mp hsome with ⟨v, hv⟩
    by_cases hk : k2 = k
    · subst hk; simp [hv]
    · simp [hk]
  · rw [if_neg h]
    have hnone : lookupA l k = none := by
      rcases hn : l.find? (fun e => e.1 == k) with _ | e
      · simp [lookupA, hn]
      · rw [hn] at h; simp at h
    rw [lookupA_append]
    by_cases hk : k2 = k
    · subst hk
      rw [hnone, lookupA_cons]
      simp [hnone]
    · have hka : ¬ k = k2 := fun hh => hk hh.symm
      cases hl : lookupA l k2 with
      | none => simp [hl, hk, lookupA_cons, hka, lookupA_nil]
      | some v => simp [hl, hk]

/-- Keys after upsert. -/
theorem keysOf_upsert {β : Type} (l : List (Nat × β)) (k : Nat) (g : β → β)
    (miss : β) :
    keysOf (upsert l k g miss) =
      if k ∈ keysOf l then keysOf l else keysOf l ++ [k] := by
  unfold upsert
  by_cases h : (l.find? (fun e => e.1 == k)).isSome
  · rw [if_pos h, keysOf_mapUpdate, if_pos ((find?_isSome_iff_mem_keysOf l k).mp h)]
  · have : k ∉ keysOf l := fun hm => h ((find?_isSome_iff_mem_keysOf l k).mpr hm)
    rw [if_neg h, if_neg this, keysOf_append]
    rfl

/-- Key distinctness is preserved by upsert. -/
theorem nodup_keysOf_upsert {β : Type} (l : List (Nat × β)) (k : Nat) (g : β → β)
    (miss : β) (h : (keysOf l).Nodup) : (keysOf (upsert l k g miss)).Nodup := by
  rw [keysOf_upsert]
  by_cases hm : k ∈ keysOf l
  · simpa [hm] using h
  · simp only [hm, if_false]
    simpa [List.nodup_append] using ⟨h, hm⟩

/-- Membership in the key list after upsert. -/
theorem mem_keysOf_upsert {β : Type} (l : List (Nat × β)) (k : Nat) (g : β → β)
    (miss : β) (k2 : Nat) :
    k2 ∈ keysOf (upsert l k g miss) ↔ k2 ∈ keysOf l ∨ k2 = k := by
  rw [keysOf_upsert]
  by_cases hm : k ∈ keysOf l
  · simp only [hm, if_true]
    constructor
    · exact fun h => Or.inl h
    · rintro (h | rfl)
      · exact h
      · exact hm
  · simp [hm]

/-! ### The model's updaters as upsert instances -/

theorem pushToken_eq_upsert (terms : List (Nat × TSVectorTerm)) (t pos : Nat) (w : ℚ) :
    pushToken terms t pos w =
      upsert terms t (fun v => ⟨v.positions ++ [pos], v.weight + w⟩) ⟨[pos], w⟩ := rfl

theorem pushPosting_eq_upsert (postings : List (Nat × List Posting)) (t : Nat) (p : Posting) :
    pushPosting postings t p = upsert postings t (fun pl => pl ++ [p]) [p] := rfl

theorem insertAssoc_eq_upsert {β : Type} (l : List (Nat × β)) (k : Nat) (v : β) :
    insertAssoc l k v = upsert l k (fun _ => v) v := rfl

theorem bumpCount_eq_upsert (acc : List (Nat × Nat)) (d : Nat) :
    bumpCount acc d = upsert acc d (fun n => n + 1) 1 := rfl

theorem bumpScore_eq_upsert (acc : List (Nat × ℚ)) (d : Nat) (s : ℚ) :
    bumpScore acc d s = upsert acc d (fun v => v + s) s := rfl

theorem bumpAnd_eq_upsert (acc : List (Nat × ℚ × Nat)) (d : Nat) (s : ℚ) :
    bumpAnd acc d s = upsert acc d (fun v => (v.1 + s, v.2 + 1)) (s, 1) := rfl

theorem bumpFilter_eq_upsert (acc : List (Nat × ℚ × Bool)) (d : Nat) (s : ℚ) :
    bumpFilter acc d s = upsert acc d (fun v => (v.1 + s, v.2)) (s, false) := rfl

/-! ### Generic characterisations of upsert folds -/

/-- A fold of upserts preserves key distinctness. -/
theorem nodup_keysOf_foldl_upsert {α β : Type} (key : α → Nat) (g : α → β → β)
    (miss : α → β) :
    ∀ (l : List α) (acc : List (Nat × β)), (keysOf acc).Nodup →
      (keysOf (l.foldl (fun acc a => upsert acc (key a) (g a) (miss a)) acc)).Nodup := by
  intro l
  induction l with
  | nil => intro acc h; exact h
  | cons a l ih =>
      intro acc h
      exact ih _ (nodup_keysOf_upsert _ _ _ _ h)

/-- Keys present after a fold of upserts: the initial keys plus the keys of
the folded elements. -/
theorem mem_keysOf_foldl_upsert {α β : Type} (key : α → Nat) (g : α → β → β)
    (miss : α → β) :
    ∀ (l : List α) (acc : List (Nat × β)) (k : Nat),
      k ∈ keysOf (l.foldl (fun acc a => upsert acc (key a) (g a) (miss a)) acc) ↔
        k ∈ keysOf acc ∨ k ∈ l.map key := by
  intro l
  induction l with
  | nil => intro acc k; simp
  | cons a l ih =>
      intro acc k
      rw [List.foldl_cons, ih, mem_keysOf_upsert, List.map_cons, List.mem_cons]
      tauto

/-- Counting characterisation of an upsert fold whose update increments a
counter component and whose miss value starts it at one. -/
theorem lookupA_foldl_upsert_count {α β : Type} (key : α → Nat) (g : α → β → β)
    (miss : α → β) (cnt : β → Nat)
    (hg : ∀ a v, cnt (g a v) = cnt v + 1) (hm : ∀ a, cnt (miss a) = 1) :
    ∀ (l : List α) (acc : List (Nat × β)) (k : Nat),
      (lookupA (l.foldl (fun acc a => upsert acc (key a) (g a) (miss a)) acc) k).map cnt =
        match (lookupA acc k).map cnt with
        | some n => some (n + l.countP (fun a => key a == k))
        | none =>
            if k ∈ l.map key then some (l.countP (fun a => key a == k)) else none := by
  intro l
  induction l with
  | nil =>
      intro acc k
      cases h : lookupA acc k <;> simp [h]
  | cons a l ih =>
      intro acc k
      rw [List.foldl_cons, ih, lookupA_upsert, List.countP_cons, List.map_cons]
      by_cases hk : k = key a
      · subst hk
        rw [if_pos rfl]
        cases h : lookupA acc (key a) with
        | none =>
            simp [h, hm, List.countP_cons]
            omega
        | some v =>
            simp [h, hg, List.countP_cons]
            omega
      · rw [if_neg hk]
        have hka : ¬ key a = k := fun hh => hk hh.symm
        cases h : lookupA acc k with
        | none => simp [h, hk, hka]
        | some v => simp [h, hka]

/-- An upsert fold into an accumulator with disjoint keys, over elements
with pairwise distinct keys, just appends the missed entries. -/
theorem foldl_upsert_of_nodup {α β : Type} (key : α → Nat) (g : α → β → β)
    (miss : α → β) :
    ∀ (l : List α) (acc : List (Nat × β)), (l.map key).Nodup →
      (∀ a ∈ l, key a ∉ keysOf acc) →
      l.foldl (fun acc a => upsert acc (key a) (g a) (miss a)) acc =
        acc ++ l.map (fun a => (key a, miss a)) := by
  intro l
  induction l with
  | nil => intro acc _ _; simp
  | cons a l ih =>
      intro acc hnd hdis
      rw [List.foldl_cons]
      have hmiss : (acc.find? (fun e => e.1 == key a)).isSome = false := by
        rcases h : (acc.find? (fun e => e.1 == key a)).isSome with _ | _
        · exact h
        · exact absurd ((find?_isSome_iff_mem_keysOf acc (key a)).mp h)
            (hdis a (by simp))
      have hstep : upsert acc (key a) (g a) (miss a) = acc ++ [(key a, miss a)] := by
        unfold upsert
        rw [hmiss]
        simp
      rw [hstep, ih]
      · simp
      · exact (List.nodup_cons.mp hnd).2
      · intro b hb
        rw [keysOf_append]
        simp only [List.mem_append]
        rintro (h | h)
        · exact hdis b (by simp [hb]) h
        · have : key b = key a := by simpa [keysOf] using h
          exact (List.nodup_cons.mp hnd).1 (this ▸ List.mem_map_of_mem key hb)

/-- markPass only flips the flag of the looked-up entry. -/
theorem lookupA_markPass (acc : List (Nat × ℚ × Bool)) (d k : Nat) :
    lookupA (markPass acc d) k =
      if k = d then (lookupA acc k).map (fun v => (v.1, true)) else lookupA acc k :=
  lookupA_mapUpdate acc d (fun v => (v.1, true)) k

/-- Flag state after folding markPass over a document list. -/
theorem lookupA_foldl_markPass :
    ∀ (l : List Nat) (acc : List (Nat × ℚ × Bool)) (k : Nat),
      lookupA (l.foldl markPass acc) k =
        (lookupA acc k).map (fun v => (v.1, v.2 || decide (k ∈ l))) := by
  intro l
  induction l with
  | nil =>
      intro acc k
      cases h : lookupA acc k <;> simp [h]
  | cons d l ih =>
      intro acc k
      rw [List.foldl_cons, ih, lookupA_markPass]
      by_cases hk : k = d
      · subst hk
        cases h : lookupA acc k <;> simp [h]
      · cases h : lookupA acc k <;> simp [h, hk]

/-- Entry membership implies key membership. -/
theorem mem_keysOf_of_mem {β : Type} {l : List (Nat × β)} {e : Nat × β}
    (h : e ∈ l) : e.1 ∈ keysOf l :=
  List.mem_map_of_mem (·.1) h

/-! ### insertUnique folds (the Or accumulation) -/

theorem mem_insertUnique (acc : List Nat) (d x : Nat) :
    x ∈ insertUnique acc d ↔ x ∈ acc ∨ x = d := by
  unfold insertUnique
  by_cases h : d ∈ acc
  · simp only [h, if_true]
    constructor
    · exact Or.inl
    · rintro (hx | rfl)
      · exact hx
      · exact h
  · simp [h]

theorem nodup_insertUnique (acc : List Nat) (d : Nat) (h : acc.Nodup) :
    (insertUnique acc d).Nodup := by
  unfold insertUnique
  by_cases hm : d ∈ acc
  · simpa [hm] using h
  · simpa [hm, List.nodup_append] using h

theorem mem_foldl_insertUnique :
    ∀ (l acc : List Nat) (x : Nat),
      x ∈ l.foldl insertUnique acc ↔ x ∈ acc ∨ x ∈ l := by
  intro l
  induction l with
  | nil => intro acc x; simp
  | cons d l ih =>
      intro acc x
      rw [List.foldl_cons, ih, mem_insertUnique, List.mem_cons]
      tauto

theorem nodup_foldl_insertUnique :
    ∀ (l acc : List Nat), acc.Nodup → (l.foldl insertUnique acc).Nodup := by
  intro l
  induction l with
  | nil => intro acc h; exact h
  | cons d l ih => intro acc h; exact ih _ (nodup_insertUnique acc d h)

/-! ## Phrase matching characterisation -/

/-- Positions of document d in a posting list (none when d has no posting). -/
def docPositions (pl : List Posting) (d : Nat) : Option (Finset Nat) :=
  lookupA (pl.map (fun p => (p.doc, p.positions))) d

/-- Positions of document d in a posting list, empty when absent. -/
def posOf (pl : List Posting) (d : Nat) : Finset Nat := (docPositions pl d).getD ∅

/-- Positions of document d for term t in an index, empty when the term or
the document is absent. -/
def posOfTerm (idx : InvertedIndex) (t d : Nat) : Finset Nat :=
  match idx.getPostings t with
  | some pl => posOf pl d
  | none => ∅

/-- Advancing a candidate position set through a term occurrence set:
`{q+1 | q ∈ s, q+1 ∈ ps}`. -/
def advancePos (ps : Finset Nat) (s : Finset Nat) : Finset Nat :=
  (s.filter (fun q => q + 1 ∈ ps)).image (fun q => q + 1)

/-- One candidate's transition through one phrase round: advance the
position set through the term's positions and drop the candidate when the
document is missing from the posting list or no position survives. -/
def advStep (o : Option (Finset Nat)) (po : Option (Finset Nat)) :
    Option (Finset Nat) :=
  match o, po with
  | some s, some ps =>
      if (advancePos ps s).Nonempty then some (advancePos ps s) else none
  | _, _ => none

/-- Membership in an optional position set. -/
def omem (x : Nat) : Option (Finset Nat) → Prop
  | some s => x ∈ s
  | none => False

/-- Well-formedness of an inverted index as built by the database: postings
keys are distinct, each posting list holds at most one posting per document,
and every posting has at least one position. -/
def IndexWF (idx : InvertedIndex) : Prop :=
  (keysOf idx.postings).Nodup ∧
    ∀ e ∈ idx.postings,
      ((e.2.map (·.doc)).Nodup ∧ ∀ p ∈ e.2, p.positions.Nonempty)

/-- Projection of a phrase_search state onto a docs_with_phrase state. -/
def projPhrase (res : List (Nat × Finset Nat × ℚ)) : List (Nat × Finset Nat) :=
  res.map (fun e => (e.1, e.2.1))

theorem lookupA_eq_none_of_not_mem {β : Type} {l : List (Nat × β)} {k : Nat}
    (h : k ∉ keysOf l) : lookupA l k = none := by
  rcases hl : lookupA l k with _ | v
  · rfl
  · exact absurd ((isSome_lookupA l k).mp (by simp [hl])) h

/-- Lookup in a filtered association list with distinct keys. -/
theorem lookupA_filter {β : Type} (l : List (Nat × β)) (p : Nat × β → Bool)
    (h : (keysOf l).Nodup) (k : Nat) :
    lookupA (l.filter p) k =
      (lookupA l k).bind (fun v => if p (k, v) then some v else none) := by
  induction l with
  | nil => simp [lookupA_nil]
  | cons e l ih =>
      rcases e with ⟨a, b⟩
      rw [keysOf_cons, List.nodup_cons] at h
      rcases h with ⟨ha, hnd⟩
      rw [List.filter_cons]
      by_cases hp : p (a, b)
      · rw [if_pos hp, lookupA_cons, lookupA_cons]
        by_cases hak : a = k
        · subst hak; simp [hp]
        · simp [hak, ih hnd]
      · rw [if_neg hp, lookupA_cons]
        by_cases hak : a = k
        · subst hak
          rw [lookupA_eq_none_of_not_mem ha, ih hnd, lookupA_eq_none_of_not_mem ha]
          simp [hp]
        · simp [hak, ih hnd]

/-- The keys of a filtered association list stay distinct. -/
theorem nodup_keysOf_filter {β : Type} (l : List (Nat × β)) (p : Nat × β → Bool)
    (h : (keysOf l).Nodup) : (keysOf (l.filter p)).Nodup := by
  unfold keysOf at h ⊢
  exact List.Nodup.sublist (List.Sublist.map (·.1) (List.filter_sublist l)) h

/-- Unfolding equation for one application of phraseStepFold. -/
theorem phraseStepFold_eq (res : List (Nat × Finset Nat)) (seen : List Nat)
    (p : Posting) :
    phraseStepFold (res, seen) p =
      if (res.find? (fun e => e.1 == p.doc)).isSome then
        (res.map (fun e =>
           if e.1 == p.doc then (e.1, advancePos p.positions e.2) else e),
         p.doc :: seen)
      else (res, seen) := rfl

/-- The inner loop of a phrase round does not change the candidate keys. -/
theorem keysOf_foldl_phraseStepFold :
    ∀ (pl : List Posting) (res : List (Nat × Finset Nat)) (seen : List Nat),
      keysOf (pl.foldl phraseStepFold (res, seen)).1 = keysOf res := by
  intro pl
  induction pl with
  | nil => intro res seen; rfl
  | cons p pl ih =>
      intro res seen
      rw [List.foldl_cons, phraseStepFold_eq]
      by_cases h : (res.find? (fun e => e.1 == p.doc)).isSome
      · rw [if_pos h, ih, keysOf_mapUpdate res p.doc (advancePos p.positions)]
      · rw [if_neg h, ih]

/-- Candidate lookup after the inner loop of a phrase round: a candidate
present in the posting list is advanced once (document multiplicity one),
everyone else is untouched. -/
theorem lookupA_foldl_phraseStepFold :
    ∀ (pl : List Posting) (res : List (Nat × Finset Nat)) (seen : List Nat)
      (d : Nat), (pl.map (·.doc)).Nodup →
      lookupA (pl.foldl phraseStepFold (res, seen)).1 d =
        match docPositions pl d with
        | some ps => (lookupA res d).map (advancePos ps)
        | none => lookupA res d := by
  intro pl
  induction pl with
  | nil =>
      intro res seen d _
      simp [docPositions, lookupA_nil]
  | cons p pl ih =>
      intro res seen d hnd
      rw [List.map_cons, List.nodup_cons] at hnd
      rcases hnd with ⟨hpd, hnd⟩
      rw [List.foldl_cons]
      have hdp : docPositions (p :: pl) d =
          if p.doc = d then some p.positions else docPositions pl d := by
        unfold docPositions
        rw [List.map_cons, lookupA_cons]
      rw [phraseStepFold_eq]
      by_cases h : (res.find? (fun e => e.1 == p.doc)).isSome
      · rw [if_pos h, ih _ _ _ hnd]
        by_cases hd : p.doc = d
        · subst hd
          have hnone : docPositions pl p.doc = none := by
            apply lookupA_eq_none_of_not_mem
            simpa [keysOf] using hpd
          rw [hdp, if_pos rfl, hnone,
            lookupA_mapUpdate res p.doc (advancePos p.positions), if_pos rfl]
        · have hd2 : ¬ d = p.doc := fun hh => hd hh.symm
          rw [hdp, if_neg hd,
            lookupA_mapUpdate res p.doc (advancePos p.positions), if_neg hd2]
      · rw [if_neg h, ih _ _ _ hnd]
        by_cases hd : p.doc = d
        · subst hd
          have hnone : docPositions pl p.doc = none := by
            apply lookupA_eq_none_of_not_mem
            simpa [keysOf] using hpd
          have hres : lookupA res p.doc = none := by
            rcases hf : res.find? (fun e => e.1 == p.doc) with _ | e
            · simp [lookupA, hf]
            · rw [hf] at h; simp at h
          rw [hdp, if_pos rfl, hnone, hres]
          simp
        · rw [hdp, if_neg hd]

/-- Seen documents after the inner loop of a phrase round. -/
theorem mem_seen_foldl_phraseStepFold :
    ∀ (pl : List Posting) (res : List (Nat × Finset Nat)) (seen : List Nat)
      (x : Nat),
      x ∈ (pl.foldl phraseStepFold (res, seen)).2 ↔
        x ∈ seen ∨ (x ∈ pl.map (·.doc) ∧ x ∈ keysOf res) := by
  intro pl
  induction pl with
  | nil => intro res seen x; simp
  | cons p pl ih =>
      intro res seen x
      rw [List.foldl_cons, phraseStepFold_eq]
      by_cases h : (res.find? (fun e => e.1 == p.doc)).isSome
      · rw [if_pos h, ih]
        have hk := (find?_isSome_iff_mem_keysOf res p.doc).mp h
        rw [keysOf_mapUpdate res p.doc (advancePos p.positions)]
        simp only [List.map_cons, List.mem_cons]
        constructor
        · rintro ((rfl | h2) | h2)
          · exact Or.inr ⟨Or.inl rfl, hk⟩
          · exact Or.inl h2
          · exact Or.inr ⟨Or.inr h2.1, h2.2⟩
        · rintro (h2 | ⟨rfl | h2, h3⟩)
          · exact Or.inl (Or.inr h2)
          · exact Or.inl (Or.inl rfl)
          · exact Or.inr ⟨h2, h3⟩
      · rw [if_neg h, ih]
        have hk : p.doc ∉ keysOf res :=
          fun hm => h ((find?_isSome_iff_mem_keysOf res p.doc).mpr hm)
        simp only [List.map_cons, List.mem_cons]
        constructor
        · rintro (h2 | h2)
          · exact Or.inl h2
          · exact Or.inr ⟨Or.inr h2.1, h2.2⟩
        · rintro (h2 | ⟨rfl | h2, h3⟩)
          · exact Or.inl h2
          · exact absurd h3 hk
          · exact Or.inr ⟨h2, h3⟩

/-- Keys of the seed candidate map are the posting list's documents. -/
theorem keysOf_map_pair (pl : List Posting) :
    keysOf (pl.map (fun p => (p.doc, p.positions))) = pl.map (·.doc) := by
  simp [keysOf, List.map_map]

/-- A successful seed lookup comes from a posting of that document. -/
theorem docPositions_some (pl : List Posting) (d : Nat) (s : Finset Nat)
    (h : docPositions pl d = some s) : ∃ p ∈ pl, p.doc = d ∧ p.positions = s := by
  unfold docPositions lookupA at h
  rcases hf : (pl.map (fun p => (p.doc, p.positions))).find? (fun e => e.1 == d)
    with _ | e
  · rw [hf] at h; simp at h
  · rw [hf] at h
    simp at h
    have hmem := List.mem_of_find?_eq_some hf
    have hcond := List.find?_some hf
    rcases List.mem_map.mp hmem with ⟨p, hp, hpe⟩
    refine ⟨p, hp, ?_, ?_⟩
    · have : e.1 = d := by simpa using hcond
      rw [← hpe] at this
      exact this
    · rw [← hpe] at h
      exact h

/-- One phrase round acts on each candidate like advStep. -/
theorem lookupA_phraseStep (res : List (Nat × Finset Nat)) (pl : List Posting)
    (hres : (keysOf res).Nodup) (hpl : (pl.map (·.doc)).Nodup) (d : Nat) :
    lookupA (phraseStep res pl) d = advStep (lookupA res d) (docPositions pl d) := by
  unfold phraseStep
  have hkeys := keysOf_foldl_phraseStepFold pl res []
  have hnodup : (keysOf (pl.foldl phraseStepFold (res, [])).1).Nodup := by
    rw [hkeys]; exact hres
  have hseen := mem_seen_foldl_phraseStepFold pl res [] d
  rw [lookupA_filter _ _ hnodup d, lookupA_foldl_phraseStepFold pl res [] d hpl]
  rcases hdp : docPositions pl d with _ | ps <;> rcases hr : lookupA res d with _ | s
  · simp [advStep]
  · have hdoc : d ∉ pl.map (·.doc) := by
      intro hm
      have h2 : (docPositions pl d).isSome := by
        unfold docPositions
        rw [isSome_lookupA, keysOf_map_pair]
        exact hm
      rw [hdp] at h2
      simp at h2
    have hnseen : d ∉ (pl.foldl phraseStepFold (res, [])).2 := by
      intro hcon
      rcases hseen.mp hcon with h2 | ⟨h2, _⟩
      · simp at h2
      · exact hdoc h2
    simp [advStep, hnseen]
  · simp [advStep]
  · have hdoc : d ∈ pl.map (·.doc) := by
      have h2 : (docPositions pl d).isSome := by rw [hdp]; rfl
      unfold docPositions at h2
      rw [isSome_lookupA, keysOf_map_pair] at h2
      exact h2
    have hkey : d ∈ keysOf res := by
      rw [← isSome_lookupA, hr]
      rfl
    have hin : d ∈ (pl.foldl phraseStepFold (res, [])).2 :=
      hseen.mpr (Or.inr ⟨hdoc, hkey⟩)
    simp [advStep, hin]

/-- One phrase round keeps candidate keys distinct. -/
theorem nodup_keysOf_phraseStep (res : List (Nat × Finset Nat))
    (pl : List Posting) (h : (keysOf res).Nodup) :
    (keysOf (phraseStep res pl)).Nodup := by
  unfold phraseStep
  apply nodup_keysOf_filter
  rw [keysOf_foldl_phraseStepFold]
  exact h

/-- Candidate lookup through all subsequent phrase rounds is the pointwise
advStep fold. -/
theorem lookupA_foldl_phraseStep :
    ∀ (rest : List (List Posting)) (res : List (Nat × Finset Nat)),
      (keysOf res).Nodup → (∀ pl ∈ rest, (pl.map (·.doc)).Nodup) → ∀ d,
      lookupA (rest.foldl phraseStep res) d =
        rest.foldl (fun o pl => advStep o (docPositions pl d)) (lookupA res d) := by
  intro rest
  induction rest with
  | nil => intro res _ _ d; rfl
  | cons pl rest ih =>
      intro res hres hall d
      rw [List.foldl_cons, List.foldl_cons,
        ih (phraseStep res pl) (nodup_keysOf_phraseStep res pl hres)
          (fun pl2 h2 => hall pl2 (List.mem_cons_of_mem _ h2)) d,
        lookupA_phraseStep res pl hres (hall pl (List.mem_cons_self _ _)) d]

/-- Membership transition through one advStep. -/
theorem omem_advStep (o po : Option (Finset Nat)) (x : Nat) :
    omem x (advStep o po) ↔
      ∃ y, omem y o ∧ y + 1 ∈ po.getD ∅ ∧ x = y + 1 := by
  cases o with
  | none => simp [advStep, omem]
  | some s =>
      cases po with
      | none => simp [advStep, omem]
      | some ps =>
          have hmem : ∀ z, z ∈ advancePos ps s ↔
              ∃ y, y ∈ s ∧ y + 1 ∈ ps ∧ z = y + 1 := by
            intro z
            unfold advancePos
            simp [Finset.mem_image, Finset.mem_filter]
            constructor
            · rintro ⟨y, ⟨hy, hy1⟩, rfl⟩
              exact ⟨y, hy, hy1, rfl⟩
            · rintro ⟨y, hy, hy1, rfl⟩
              exact ⟨y, ⟨hy, hy1⟩, rfl⟩
          have hadv : advStep (some s) (some ps) =
              if (advancePos ps s).Nonempty then some (advancePos ps s) else none := rfl
          rw [hadv]
          by_cases hne : (advancePos ps s).Nonempty
          · rw [if_pos hne]
            simp only [omem, Option.getD_some]
            exact hmem x
          · rw [if_neg hne]
            simp only [omem, Option.getD_some, false_iff]
            rintro ⟨y, hy, hy1, rfl⟩
            exact hne ⟨y + 1, (hmem (y + 1)).mpr ⟨y, hy, hy1, rfl⟩⟩

/-- advStep never produces an empty candidate set. -/
theorem advStep_nonempty (o po : Option (Finset Nat)) (s : Finset Nat)
    (h : advStep o po = some s) : s.Nonempty := by
  cases o with
  | none => simp [advStep] at h
  | some s0 =>
      cases po with
      | none => simp [advStep] at h
      | some ps =>
          have hadv : advStep (some s0) (some ps) =
              if (advancePos ps s0).Nonempty then some (advancePos ps s0) else none := rfl
          rw [hadv] at h
          by_cases hne : (advancePos ps s0).Nonempty
          · rw [if_pos hne] at h
            cases h
            exact hne
          · rw [if_neg hne] at h
            cases h

/-- The advStep fold never produces an empty candidate set either. -/
theorem foldl_advStep_nonempty (d : Nat) :
    ∀ (rest : List (List Posting)) (o : Option (Finset Nat)),
      (∀ s, o = some s → s.Nonempty) →
      ∀ s, rest.foldl (fun o pl => advStep o (docPositions pl d)) o = some s →
        s.Nonempty := by
  intro rest
  induction rest with
  | nil => intro o h s hs; exact h s hs
  | cons pl rest ih =>
      intro o h s hs
      exact ih _ (fun s2 hs2 => advStep_nonempty _ _ _ hs2) s hs

/-- Membership view of an optional set. -/
theorem omem_iff_mem_getD (o : Option (Finset Nat)) (x : Nat) :
    omem x o ↔ x ∈ o.getD ∅ := by
  cases o <;> simp [omem]

/-- An optional candidate set that cannot be empty is present iff it has a
member. -/
theorem isSome_iff_exists_omem (o : Option (Finset Nat))
    (h : ∀ s, o = some s → s.Nonempty) : o.isSome ↔ ∃ x, omem x o := by
  cases o with
  | none => simp [omem]
  | some s =>
      simp only [Option.isSome_some, true_iff]
      rcases h s rfl with ⟨x, hx⟩
      exact ⟨x, hx⟩

/-- Chain characterisation of the advStep fold: a position survives all
rounds iff it extends a start position that is adjacent through every
posting list. -/
theorem omem_foldl_advStep (d : Nat) :
    ∀ (rest : List (List Posting)) (o : Option (Finset Nat)) (x : Nat),
      omem x (rest.foldl (fun o pl => advStep o (docPositions pl d)) o) ↔
        ∃ p, x = p + rest.length ∧ omem p o ∧
          ∀ i (h : i < rest.length), p + i + 1 ∈ posOf (rest.get ⟨i, h⟩) d := by
  intro rest
  induction rest with
  | nil =>
      intro o x
      simp only [List.foldl_nil, List.length_nil]
      constructor
      · intro h
        exact ⟨x, by omega, h, fun i hi => absurd hi (by omega)⟩
      · rintro ⟨p, hp, ho, _⟩
        have : x = p := by omega
        rw [this]
        exact ho
  | cons pl rest ih =>
      intro o x
      rw [List.foldl_cons, ih]
      constructor
      · rintro ⟨p, hx, hstep, hchain⟩
        rcases (omem_advStep o (docPositions pl d) p).mp hstep with ⟨y, hy, hy1, rfl⟩
        refine ⟨y, by simp [List.length_cons]; omega, hy, ?_⟩
        intro i hi
        cases i with
        | zero => simpa [posOf] using hy1
        | succ j =>
            have hj : j < rest.length := by
              simp [List.length_cons] at hi
              omega
            have := hchain j hj
            have harith : y + 1 + j + 1 = y + (j + 1) + 1 := by omega
            rw [harith] at this
            exact this
      · rintro ⟨p, hx, ho, hchain⟩
        refine ⟨p + 1, by simp [List.length_cons] at hx; omega, ?_, ?_⟩
        · rw [omem_advStep]
          refine ⟨p, ho, ?_, rfl⟩
          have := hchain 0 (by simp)
          simpa [posOf] using this
        · intro j hj
          have := hchain (j + 1) (by simp [List.length_cons]; omega)
          have harith : p + (j + 1) + 1 = p + 1 + j + 1 := by omega
          rw [harith] at this
          exact this

/-! ### Collecting posting lists (the mapM step of phrase queries) -/

theorem mapM_cons_option {α β : Type} (f : α → Option β) (a : α) (l : List α) :
    (a :: l).mapM f =
      (f a).bind (fun b => (l.mapM f).bind (fun bs => some (b :: bs))) := by
  rw [List.mapM_cons]
  rfl

theorem mapM_nil_option {α β : Type} (f : α → Option β) :
    ([] : List α).mapM f = some [] := rfl

theorem mapM_some_length {α β : Type} (f : α → Option β) :
    ∀ (ts : List α) (ls : List β), ts.mapM f = some ls → ls.length = ts.length := by
  intro ts
  induction ts with
  | nil =>
      intro ls h
      rw [mapM_nil_option] at h
      cases h
      rfl
  | cons a ts ih =>
      intro ls h
      rw [mapM_cons_option] at h
      rcases ha : f a with _ | b
      · rw [ha] at h; simp at h
      · rw [ha] at h
        rcases hts : ts.mapM f with _ | bs
        · rw [hts] at h; simp at h
        · rw [hts] at h
          simp at h
          rw [← h]
          simp [ih bs hts]

theorem mapM_some_get {α β : Type} (f : α → Option β) :
    ∀ (ts : List α) (ls : List β), ts.mapM f = some ls →
      ∀ (i : Nat) (h : i < ts.length) (h2 : i < ls.length),
        f (ts.get ⟨i, h⟩) = some (ls.get ⟨i, h2⟩) := by
  intro ts
  induction ts with
  | nil => intro ls _ i h; exact absurd h (by simp)
  | cons a ts ih =>
      intro ls h i hi h2
      rw [mapM_cons_option] at h
      rcases ha : f a with _ | b
      · rw [ha] at h; simp at h
      · rw [ha] at h
        rcases hts : ts.mapM f with _ | bs
        · rw [hts] at h; simp at h
        · rw [hts] at h
          simp at h
          subst h
          cases i with
          | zero => simpa using ha
          | succ j =>
              exact ih bs hts j (by simpa using hi) (by simpa using h2)

theorem mapM_none_iff {α β : Type} (f : α → Option β) :
    ∀ (ts : List α), ts.mapM f = none ↔ ∃ t ∈ ts, f t = none := by
  intro ts
  induction ts with
  | nil =>
      rw [mapM_nil_option]
      simp
  | cons a ts ih =>
      rw [mapM_cons_option]
      rcases ha : f a with _ | b
      · simp only [Option.none_bind, true_iff]
        exact ⟨a, List.mem_cons_self _ _, ha⟩
      · rcases hts : ts.mapM f with _ | bs
        · simp only [Option.some_bind, Option.none_bind, true_iff]
          rcases ih.mp hts with ⟨t, ht, h⟩
          exact ⟨t, List.mem_cons_of_mem _ ht, h⟩
        · simp only [Option.some_bind]
          constructor
          · intro h
            simp at h
          · rintro ⟨t, ht, hnone⟩
            rcases List.mem_cons.mp ht with rfl | ht2
            · rw [ha] at hnone; cases hnone
            · have h2 : ts.mapM f = none := ih.mpr ⟨t, ht2, hnone⟩
              rw [hts] at h2
              cases h2

theorem mapM_some_mem {α β : Type} (f : α → Option β) :
    ∀ (ts : List α) (ls : List β), ts.mapM f = some ls →
      ∀ l ∈ ls, ∃ t ∈ ts, f t = some l := by
  intro ts
  induction ts with
  | nil =>
      intro ls h l hl
      rw [mapM_nil_option] at h
      cases h
      simp at hl
  | cons a ts ih =>
      intro ls h l hl
      rw [mapM_cons_option] at h
      rcases ha : f a with _ | b
      · rw [ha] at h; simp at h
      · rw [ha] at h
        rcases hts : ts.mapM f with _ | bs
        · rw [hts] at h; simp at h
        · rw [hts] at h
          simp at h
          subst h
          rcases List.mem_cons.mp hl with rfl | hl2
          · exact ⟨a, List.mem_cons_self _ _, ha⟩
          · rcases ih bs hts l hl2 with ⟨t, ht, hft⟩
            exact ⟨t, List.mem_cons_of_mem _ ht, hft⟩

/-- Posting lists of a well-formed index have distinct documents and
non-empty position sets. -/
theorem getPostings_wf (idx : InvertedIndex) (hwf : IndexWF idx) (t : Nat)
    (pl : List Posting) (h : idx.getPostings t = some pl) :
    (pl.map (·.doc)).Nodup ∧ ∀ p ∈ pl, p.positions.Nonempty := by
  unfold InvertedIndex.getPostings at h
  rcases hf : idx.postings.find? (fun e => e.1 == t) with _ | e
  · rw [hf] at h; simp at h
  · rw [hf] at h
    simp at h
    have hmem := List.mem_of_find?_eq_some hf
    rcases hwf.2 e hmem with ⟨h1, h2⟩
    rw [h] at h1 h2
    exact ⟨h1, h2⟩

/-- Membership characterisation of docs_with_phrase on a well-formed index:
for a non-empty term list, a document is returned iff some start position p
has term i at position p + i for every i. -/
theorem mem_docs_with_phrase (idx : InvertedIndex) (hwf : IndexWF idx)
    (terms : List Nat) (hne : terms ≠ []) (d : Nat) :
    d ∈ idx.docs_with_phrase terms ↔
      ∃ p, ∀ (i : Nat) (h : i < terms.length),
        p + i ∈ posOfTerm idx (terms.get ⟨i, h⟩) d := by
  rcases hm : terms.mapM idx.getPostings with _ | pls
  · have hdwp : idx.docs_with_phrase terms = [] := by
      unfold InvertedIndex.docs_with_phrase
      rw [hm]
    rcases (mapM_none_iff idx.getPostings terms).mp hm with ⟨t, ht, hnone⟩
    rcases List.mem_iff_get.mp ht with ⟨⟨i, hi⟩, rfl⟩
    rw [hdwp]
    simp only [List.not_mem_nil, false_iff]
    rintro ⟨p, hp⟩
    have h2 := hp i hi
    rw [posOfTerm, hnone] at h2
    simp at h2
  · cases pls with
    | nil =>
        have h0 : terms.length = 0 := by
          simpa using (mapM_some_length idx.getPostings terms [] hm).symm
        exact absurd (List.length_eq_zero.mp h0) hne
    | cons first rest =>
        have hlen : terms.length = rest.length + 1 := by
          have := mapM_some_length idx.getPostings terms (first :: rest) hm
          simpa using this.symm
        have hfirst : idx.getPostings (terms.get ⟨0, by omega⟩) = some first :=
          mapM_some_get idx.getPostings terms (first :: rest) hm 0 (by omega) (by simp)
        have hrest : ∀ (j : Nat) (hj : j < rest.length),
            idx.getPostings (terms.get ⟨j + 1, by omega⟩) = some (rest.get ⟨j, hj⟩) := by
          intro j hj
          exact mapM_some_get idx.getPostings terms (first :: rest) hm (j + 1)
            (by omega) (by simpa using hj)
        have hwf_first := getPostings_wf idx hwf _ first hfirst
        have hwf_rest : ∀ pl ∈ rest, (pl.map (·.doc)).Nodup := by
          intro pl hpl
          rcases mapM_some_mem idx.getPostings terms (first :: rest) hm pl
            (List.mem_cons_of_mem _ hpl) with ⟨t, _, hft⟩
          exact (getPostings_wf idx hwf t pl hft).1
        have hseed : ∀ s, docPositions first d = some s → s.Nonempty := by
          intro s hs
          rcases docPositions_some first d s hs with ⟨p, hp, _, hps⟩
          rw [← hps]
          exact hwf_first.2 p hp
        have hres0 : lookupA (first.map (fun p => (p.doc, p.positions))) d =
            docPositions first d := rfl
        have hnodup0 : (keysOf (first.map (fun p => (p.doc, p.positions)))).Nodup := by
          rw [keysOf_map_pair]
          exact hwf_first.1
        have hdwp : idx.docs_with_phrase terms =
            keysOf (rest.foldl phraseStep (first.map (fun p => (p.doc, p.positions)))) := by
          unfold InvertedIndex.docs_with_phrase
          rw [hm]
          rfl
        rw [hdwp, ← isSome_lookupA,
          lookupA_foldl_phraseStep rest _ hnodup0 hwf_rest d, hres0,
          isSome_iff_exists_omem _
            (foldl_advStep_nonempty d rest (docPositions first d) hseed)]
        constructor
        · rintro ⟨x, hx⟩
          rcases (omem_foldl_advStep d rest (docPositions first d) x).mp hx
            with ⟨p, _, hp0, hpchain⟩
          refine ⟨p, ?_⟩
          intro i hi
          cases i with
          | zero =>
              rw [posOfTerm, hfirst]
              have h2 := (omem_iff_mem_getD _ p).mp hp0
              simpa [posOf] using h2
          | succ j =>
              have hj : j < rest.length := by omega
              rw [posOfTerm, hrest j hj]
              have h2 := hpchain j hj
              have harith : p + j + 1 = p + (j + 1) := by omega
              rw [harith] at h2
              exact h2
        · rintro ⟨p, hp⟩
          refine ⟨p + rest.length, ?_⟩
          rw [omem_foldl_advStep]
          refine ⟨p, rfl, ?_, ?_⟩
          · have h2 := hp 0 (by omega)
            rw [posOfTerm, hfirst] at h2
            rw [omem_iff_mem_getD]
            simpa [posOf] using h2
          · intro j hj
            have h2 := hp (j + 1) (by omega)
            rw [posOfTerm, hrest j hj] at h2
            have harith : p + (j + 1) = p + j + 1 := by omega
            rw [harith] at h2
            exact h2

/-- docs_with_phrase is empty when some term has no posting list. -/
theorem docs_with_phrase_absent (idx : InvertedIndex) (terms : List Nat)
    (h : ∃ t ∈ terms, idx.getPostings t = none) :
    idx.docs_with_phrase terms = [] := by
  unfold InvertedIndex.docs_with_phrase
  rw [(mapM_none_iff idx.getPostings terms).mpr h]

/-! ### phrase_search returns the same documents as docs_with_phrase -/

theorem keysOf_projPhrase (res : List (Nat × Finset Nat × ℚ)) :
    keysOf (projPhrase res) = keysOf res := by
  unfold projPhrase keysOf
  rw [List.map_map]
  rfl

/-- Unfolding equation for one application of phraseScoreStepFold. -/
theorem phraseScoreStepFold_eq (n : ℚ) (res : List (Nat × Finset Nat × ℚ))
    (seen : List Nat) (p : Posting) :
    phraseScoreStepFold n (res, seen) p =
      if (res.find? (fun e => e.1 == p.doc)).isSome then
        (res.map (fun e =>
           if e.1 == p.doc then
             (e.1, advancePos p.positions e.2.1, e.2.2 + p.weight * n)
           else e),
         p.doc :: seen)
      else (res, seen) := rfl

/-- The scored inner loop projects onto the unscored inner loop. -/
theorem proj_foldl_phraseScoreStepFold (n : ℚ) :
    ∀ (pl : List Posting) (res : List (Nat × Finset Nat × ℚ)) (seen : List Nat),
      projPhrase (pl.foldl (phraseScoreStepFold n) (res, seen)).1 =
          (pl.foldl phraseStepFold (projPhrase res, seen)).1
        ∧ (pl.foldl (phraseScoreStepFold n) (res, seen)).2 =
          (pl.foldl phraseStepFold (projPhrase res, seen)).2 := by
  intro pl
  induction pl with
  | nil => intro res seen; exact ⟨rfl, rfl⟩
  | cons p pl ih =>
      intro res seen
      rw [List.foldl_cons, List.foldl_cons, phraseScoreStepFold_eq, phraseStepFold_eq]
      by_cases h : (res.find? (fun e => e.1 == p.doc)).isSome
      · have h2 : ((projPhrase res).find? (fun e => e.1 == p.doc)).isSome := by
          rw [find?_isSome_iff_mem_keysOf, keysOf_projPhrase,
            ← find?_isSome_iff_mem_keysOf]
          exact h
        rw [if_pos h, if_pos h2]
        have hproj : projPhrase (res.map (fun e =>
            if e.1 == p.doc then
              (e.1, advancePos p.positions e.2.1, e.2.2 + p.weight * n)
            else e)) =
            (projPhrase res).map (fun e =>
              if e.1 == p.doc then (e.1, advancePos p.positions e.2) else e) := by
          unfold projPhrase
          rw [List.map_map, List.map_map]
          apply List.map_congr_left
          intro e _
          by_cases he : e.1 = p.doc <;> simp [he]
        have h3 := ih (res.map (fun e =>
            if e.1 == p.doc then
              (e.1, advancePos p.positions e.2.1, e.2.2 + p.weight * n)
            else e)) (p.doc :: seen)
        rw [hproj] at h3
        exact h3
      · have h2 : ¬ ((projPhrase res).find? (fun e => e.1 == p.doc)).isSome := by
          rw [find?_isSome_iff_mem_keysOf, keysOf_projPhrase,
            ← find?_isSome_iff_mem_keysOf]
          exact h
        rw [if_neg h, if_neg h2]
        exact ih res seen

/-- One scored phrase round projects onto one unscored phrase round. -/
theorem projPhrase_phraseScoreStep (res : List (Nat × Finset Nat × ℚ)) (n : ℚ)
    (pl : List Posting) :
    projPhrase (phraseScoreStep res n pl) = phraseStep (projPhrase res) pl := by
  rcases proj_foldl_phraseScoreStepFold n pl res [] with ⟨h1, h2⟩
  simp only [phraseScoreStep, phraseStep]
  unfold projPhrase at h1 h2 ⊢
  rw [← h1, ← h2, List.filter_map]
  congr 1

/-- The whole scored phrase fold projects onto the unscored fold. -/
theorem projPhrase_foldl_phraseScoreStep (nrm : Nat → ℚ) :
    ∀ (pairs : List (Nat × List Posting)) (res : List (Nat × Finset Nat × ℚ)),
      projPhrase (pairs.foldl (fun res e => phraseScoreStep res (nrm e.1) e.2) res) =
        (pairs.map (·.2)).foldl phraseStep (projPhrase res) := by
  intro pairs
  induction pairs with
  | nil => intro res; rfl
  | cons e pairs ih =>
      intro res
      rw [List.foldl_cons, List.map_cons, List.foldl_cons, ih,
        projPhrase_phraseScoreStep]

theorem mapM_pair {α β : Type} (f : α → Option β) :
    ∀ (ts : List α),
      ts.mapM (fun t => (f t).map (fun b => (t, b))) =
        (ts.mapM f).map (fun ls => ts.zip ls) := by
  intro ts
  induction ts with
  | nil => rfl
  | cons a ts ih =>
      rw [mapM_cons_option, mapM_cons_option]
      rcases ha : f a with _ | b
      · simp
      · rcases hts : ts.mapM f with _ | bs
        · rw [hts] at ih
          rw [ih]
          simp
        · rw [hts] at ih
          rw [ih]
          simp [List.zip_cons_cons]

/-- phrase_search finds exactly the documents of docs_with_phrase (with the
same multiplicity and order in this model). -/
theorem phrase_search_fst (lg : ℚ → ℚ) (idx : InvertedIndex) (terms : List Nat) :
    (idx.phrase_search lg terms).map (·.1) = idx.docs_with_phrase terms := by
  unfold InvertedIndex.phrase_search InvertedIndex.docs_with_phrase
  rw [mapM_pair]
  rcases hm : terms.mapM idx.getPostings with _ | pls
  · rfl
  · cases pls with
    | nil =>
        have h0 : terms.length = 0 := by
          simpa using (mapM_some_length idx.getPostings terms [] hm).symm
        rcases List.length_eq_zero.mp h0 with rfl
        rfl
    | cons first rest =>
        have hlen : terms.length = rest.length + 1 := by
          have := mapM_some_length idx.getPostings terms (first :: rest) hm
          simpa using this.symm
        cases terms with
        | nil => simp at hlen
        | cons t0 ts =>
            have hzlen : rest.length ≤ ts.length := by
              simp at hlen
              omega
            have hsnd : (ts.zip rest).map (·.2) = rest := by
              apply List.map_snd_zip
              exact hzlen
            have hproj0 : projPhrase (first.map (fun p =>
                (p.doc, p.positions, p.weight * idx.calculate_normalizer lg t0))) =
                first.map (fun p => (p.doc, p.positions)) := by
              unfold projPhrase
              rw [List.map_map]
              rfl
            have hps := projPhrase_foldl_phraseScoreStep
              (fun t => idx.calculate_normalizer lg t) (ts.zip rest)
              (first.map (fun p =>
                (p.doc, p.positions, p.weight * idx.calculate_normalizer lg t0)))
            rw [hproj0, hsnd] at hps
            have hmain : (List.map (fun e => (e.1, e.2.2))
                  ((ts.zip rest).foldl
                    (fun res e => phraseScoreStep res (idx.calculate_normalizer lg e.1) e.2)
                    (first.map (fun p =>
                      (p.doc, p.positions, p.weight * idx.calculate_normalizer lg t0))))).map
                  (fun x => x.1)
                = List.map (fun x => x.1)
                    (rest.foldl phraseStep (first.map (fun p => (p.doc, p.positions)))) := by
              rw [List.map_map]
              rw [(rfl : ((fun (x : Nat × ℚ) => x.1) ∘ (fun (e : Nat × Finset Nat × ℚ) => (e.1, e.2.2)))
                = (fun (e : Nat × Finset Nat × ℚ) => e.1))]
              show keysOf ((ts.zip rest).foldl
                  (fun res e => phraseScoreStep res (idx.calculate_normalizer lg e.1) e.2)
                  (first.map (fun p =>
                    (p.doc, p.positions, p.weight * idx.calculate_normalizer lg t0)))) = _
              rw [← keysOf_projPhrase, hps]
              rfl
            exact hmain

/-- search finds exactly the documents of docs_with_term. -/
theorem search_fst (lg : ℚ → ℚ) (idx : InvertedIndex) (t : Nat) :
    (idx.search lg t).map (·.1) = idx.docs_with_term t := by
  unfold InvertedIndex.search InvertedIndex.docs_with_term
  cases h : idx.getPostings t <;> simp [List.map_map]

/-! ## Executor characterisation: simple_match -/

/-- Entry membership is lookup success when keys are distinct. -/
theorem mem_iff_lookupA {β : Type} (l : List (Nat × β)) (h : (keysOf l).Nodup)
    (k : Nat) (v : β) : (k, v) ∈ l ↔ lookupA l k = some v := by
  induction l with
  | nil => simp [lookupA_nil]
  | cons e l ih =>
      rcases e with ⟨a, b⟩
      rw [keysOf_cons, List.nodup_cons] at h
      rw [lookupA_cons, List.mem_cons]
      by_cases hak : a = k
      · subst hak
        rw [if_pos rfl]
        constructor
        · rintro (h2 | h2)
          · rw [Prod.mk.injEq] at h2
            rw [h2.2]
          · exact absurd (mem_keysOf_of_mem h2) h.1
        · intro h2
          rw [Option.some_inj] at h2
          exact Or.inl (by rw [h2])
      · rw [if_neg hak, ← ih h.2]
        constructor
        · rintro (h2 | h2)
          · rw [Prod.mk.injEq] at h2
            exact absurd h2.1.symm hak
          · exact h2
        · exact Or.inr

/-- Keys are unchanged by a map that keeps first components. -/
theorem keysOf_map_pair2 {β γ : Type} (l : List (Nat × β)) (h : Nat × β → γ) :
    keysOf (l.map (fun e => (e.1, h e))) = keysOf l := by
  unfold keysOf
  rw [List.map_map]
  rfl

/-- A list of values bounded by one sums to at most its length. -/
theorem sum_le_length (l : List Nat) (h : ∀ x ∈ l, x ≤ 1) : l.sum ≤ l.length := by
  induction l with
  | nil => simp
  | cons a l ih =>
      have h1 := h a (by simp)
      have h2 := ih (fun x hx => h x (by simp [hx]))
      simp only [List.sum_cons, List.length_cons]
      omega

/-- A list of values each at most one sums to its length iff all are one. -/
theorem sum_eq_length_iff (l : List Nat) (h : ∀ x ∈ l, x ≤ 1) :
    l.sum = l.length ↔ ∀ x ∈ l, x = 1 := by
  induction l with
  | nil => simp
  | cons a l ih =>
      have ha := h a (by simp)
      have ih2 := ih (fun x hx => h x (by simp [hx]))
      have hsum : l.sum ≤ l.length := sum_le_length l (fun x hx => h x (by simp [hx]))
      simp only [List.sum_cons, List.length_cons, List.mem_cons]
      constructor
      · intro heq
        have ha1 : a = 1 := by omega
        have hl : l.sum = l.length := by omega
        intro x hx
        rcases hx with rfl | hx
        · exact ha1
        · exact ih2.mp hl x hx
      · intro hall
        have ha1 : a = 1 := hall a (Or.inl rfl)
        have hl : l.sum = l.length := ih2.mpr (fun x hx => hall x (Or.inr hx))
        omega

/-- The Or accumulation over children is the union of their results. -/
theorem mem_or_fold (db : Database) :
    ∀ (qs : List Query) (acc : List Nat) (d : Nat),
      d ∈ qs.foldl (fun acc q => (db.simple_match q).foldl insertUnique acc) acc ↔
        d ∈ acc ∨ ∃ q ∈ qs, d ∈ db.simple_match q := by
  intro qs
  induction qs with
  | nil => intro acc d; simp
  | cons q qs ih =>
      intro acc d
      rw [List.foldl_cons, ih, mem_foldl_insertUnique]
      constructor
      · rintro ((h | h) | ⟨r, hr, h⟩)
        · exact Or.inl h
        · exact Or.inr ⟨q, by simp, h⟩
        · exact Or.inr ⟨r, by simp [hr], h⟩
      · rintro (h | ⟨r, hr, h⟩)
        · exact Or.inl (Or.inl h)
        · rcases List.mem_cons.mp hr with rfl | hr2
          · exact Or.inl (Or.inr h)
          · exact Or.inr ⟨r, hr2, h⟩

/-- simple_match of an Or is the union of the children's matches. -/
theorem mem_simple_match_or (db : Database) (qs : List Query) (d : Nat) :
    d ∈ db.simple_match (.Or qs) ↔ ∃ q ∈ qs, d ∈ db.simple_match q := by
  have h : db.simple_match (.Or qs) =
      qs.foldl (fun acc q => (db.simple_match q).foldl insertUnique acc) [] := by
    simp [Database.simple_match]
  rw [h, mem_or_fold]
  simp

/-- Count accumulated by the And fold: the total number of occurrences of
the document across the children's result lists. -/
theorem lookupA_and_fold (db : Database) :
    ∀ (qs : List Query) (acc : List (Nat × Nat)) (d : Nat),
      lookupA (qs.foldl (fun acc q => (db.simple_match q).foldl bumpCount acc) acc) d =
        match lookupA acc d with
        | some n => some (n + (qs.map (fun q => (db.simple_match q).count d)).sum)
        | none =>
            if ∃ q ∈ qs, d ∈ db.simple_match q then
              some ((qs.map (fun q => (db.simple_match q).count d)).sum)
            else none := by
  intro qs
  induction qs with
  | nil =>
      intro acc d
      cases h : lookupA acc d <;> simp [h]
  | cons q qs ih =>
      intro acc d
      rw [List.foldl_cons, ih]
      have hinner := lookupA_foldl_upsert_count (fun a : Nat => a)
        (fun _ (v : Nat) => v + 1) (fun _ => 1) (fun v => v)
        (fun _ _ => rfl) (fun _ => rfl) (db.simple_match q) acc d
      have hcnt : ∀ (o : Option Nat), o.map (fun v => v) = o := by
        intro o; cases o <;> rfl
      rw [hcnt, hcnt] at hinner
      have hcount : (db.simple_match q).countP (fun a => a == d) =
          (db.simple_match q).count d := rfl
      have hmapid : (db.simple_match q).map (fun a : Nat => a) = db.simple_match q :=
        List.map_id _
      rw [hcount, hmapid] at hinner
      have hinner2 : lookupA ((db.simple_match q).foldl bumpCount acc) d =
          match lookupA acc d with
          | some n => some (n + (db.simple_match q).count d)
          | none =>
              if d ∈ db.simple_match q then some ((db.simple_match q).count d)
              else none := hinner
      rw [hinner2]
      rcases ha : lookupA acc d with _ | n
      · by_cases hq : d ∈ db.simple_match q
        · rw [if_pos hq]
          have hex : ∃ r ∈ q :: qs, d ∈ db.simple_match r := ⟨q, by simp, hq⟩
          rw [if_pos hex]
          simp only [List.map_cons, List.sum_cons]
        · rw [if_neg hq]
          have hc0 : (db.simple_match q).count d = 0 := by
            rw [List.count_eq_zero]
            exact hq
          by_cases hex : ∃ r ∈ qs, d ∈ db.simple_match r
          · have hex2 : ∃ r ∈ q :: qs, d ∈ db.simple_match r := by
              rcases hex with ⟨r, hr, h2⟩
              exact ⟨r, by simp [hr], h2⟩
            rw [if_pos hex, if_pos hex2]
            simp [hc0]
          · have hex2 : ¬ ∃ r ∈ q :: qs, d ∈ db.simple_match r := by
              rintro ⟨r, hr, h2⟩
              rcases List.mem_cons.mp hr with rfl | hr2
              · exact hq h2
              · exact hex ⟨r, hr2, h2⟩
            rw [if_neg hex, if_neg hex2]
      · simp only [List.map_cons, List.sum_cons]
        congr 1
        omega

/-- The And count accumulator has distinct keys. -/
theorem nodup_and_fold (db : Database) :
    ∀ (qs : List Query) (acc : List (Nat × Nat)), (keysOf acc).Nodup →
      (keysOf (qs.foldl (fun acc q => (db.simple_match q).foldl bumpCount acc) acc)).Nodup := by
  intro qs
  induction qs with
  | nil => intro acc h; exact h
  | cons q qs ih =>
      intro acc h
      rw [List.foldl_cons]
      exact ih _ (nodup_keysOf_foldl_upsert (fun a : Nat => a)
        (fun _ (v : Nat) => v + 1) (fun _ => 1) (db.simple_match q) acc h)

/-- simple_match of an And with duplicate-free children results is the
intersection of the children's matches (empty when there are no children). -/
theorem mem_simple_match_and (db : Database) (qs : List Query) (d : Nat)
    (hnd : ∀ q ∈ qs, (db.simple_match q).Nodup) :
    d ∈ db.simple_match (.And qs) ↔ qs ≠ [] ∧ ∀ q ∈ qs, d ∈ db.simple_match q := by
  have heq : db.simple_match (.And qs) =
      ((qs.foldl (fun acc q => (db.simple_match q).foldl bumpCount acc) []).filter
        (fun e => e.2 == qs.length)).map (·.1) := by
    simp [Database.simple_match]
  rw [heq]
  have hnodupk := nodup_and_fold db qs [] (by simp [keysOf])
  have hlook := lookupA_and_fold db qs [] d
  rw [lookupA_nil] at hlook
  constructor
  · intro hmem
    rcases List.mem_map.mp hmem with ⟨e, he, hed⟩
    have hef := List.mem_filter.mp he
    rcases e with ⟨k, n⟩
    obtain rfl : d = k := hed.symm
    have hlk : lookupA (qs.foldl (fun acc q => (db.simple_match q).foldl bumpCount acc) []) d
        = some n := (mem_iff_lookupA _ hnodupk d n).mp hef.1
    rw [hlook] at hlk
    by_cases hex : ∃ q ∈ qs, d ∈ db.simple_match q
    · rw [if_pos hex] at hlk
      have hn : n = (qs.map (fun q => (db.simple_match q).count d)).sum := by
        rw [Option.some_inj] at hlk
        exact hlk.symm
      have hlen : n = qs.length := by simpa using hef.2
      have hones : ∀ x ∈ qs.map (fun q => (db.simple_match q).count d), x = 1 := by
        apply (sum_eq_length_iff _ ?_).mp
        · rw [← hn, hlen]
          simp
        · intro x hx
          rcases List.mem_map.mp hx with ⟨q, hq, rfl⟩
          by_cases hdq : d ∈ db.simple_match q
          · rw [List.count_eq_one_of_mem (hnd q hq) hdq]
          · rw [List.count_eq_zero.mpr hdq]
            omega
      have hne : qs ≠ [] := by
        rcases hex with ⟨q, hq, _⟩
        intro hcon
        rw [hcon] at hq
        simp at hq
      refine ⟨hne, ?_⟩
      intro q hq
      have h1 := hones ((db.simple_match q).count d) (List.mem_map_of_mem _ hq)
      by_contra hdq
      rw [List.count_eq_zero.mpr hdq] at h1
      simp at h1
    · rw [if_neg hex] at hlk
      cases hlk
  · rintro ⟨hne, hall⟩
    have hex : ∃ q ∈ qs, d ∈ db.simple_match q := by
      cases qs with
      | nil => exact absurd rfl hne
      | cons q qs => exact ⟨q, by simp, hall q (by simp)⟩
    have hsum : (qs.map (fun q => (db.simple_match q).count d)).sum = qs.length := by
      have : ∀ x ∈ qs.map (fun q => (db.simple_match q).count d), x = 1 := by
        intro x hx
        rcases List.mem_map.mp hx with ⟨q, hq, rfl⟩
        exact List.count_eq_one_of_mem (hnd q hq) (hall q hq)
      calc (qs.map (fun q => (db.simple_match q).count d)).sum
          = (qs.map (fun q => (db.simple_match q).count d)).length := by
            rw [sum_eq_length_iff _ (fun x hx => by rw [this x hx])]
            exact this
        _ = qs.length := by simp
    apply List.mem_map.mpr
    refine ⟨(d, qs.length), ?_, rfl⟩
    apply List.mem_filter.mpr
    constructor
    · apply (mem_iff_lookupA _ hnodupk d qs.length).mpr
      rw [hlook, if_pos hex, hsum]
    · simp

/-- simple_match routes Filter through a two-child And. -/
theorem simple_match_filter_eq (db : Database) (q f : Query) :
    db.simple_match (.Filter q f) = db.simple_match (.And [q, f]) := by
  simp [Database.simple_match]

/-- simple_match of the spec-modelled Exclude is set difference. -/
theorem mem_simple_match_exclude (db : Database) (q f : Query) (d : Nat) :
    d ∈ db.simple_match (.Exclude q f) ↔
      d ∈ db.simple_match q ∧ d ∉ db.simple_match f := by
  have heq : db.simple_match (.Exclude q f) =
      (db.simple_match q).filter (fun d => decide (d ∉ db.simple_match f)) := by
    simp [Database.simple_match]
  rw [heq, List.mem_filter]
  simp

/-- simple_match ignores Boost. -/
theorem simple_match_boost_eq (db : Database) (q : Query) (b : ℚ) :
    db.simple_match (.Boost q b) = db.simple_match q := by
  simp [Database.simple_match]

/-- Well-formedness of a database as maintained by ingestion: every field
index is well-formed and all posting documents have allocated ids. -/
def DbWF (db : Database) : Prop :=
  ∀ e ∈ db.fields, IndexWF e.2 ∧
    ∀ te ∈ e.2.postings, ∀ p ∈ te.2, p.doc < db.next_document_id

/-- Strong recursion on the executor measure. -/
theorem qweight_rec (P : Query → Prop)
    (H : ∀ q, (∀ r, qweight r < qweight q → P r) → P q) : ∀ q, P q
  | q => H q (fun r _ => qweight_rec P H r)
termination_by q => qweight q
decreasing_by assumption

/-- Members of a list are lighter than the And or Or carrying them. -/
theorem qweight_lt_of_mem {q : Query} {qs : List Query} (h : q ∈ qs) :
    qweight q < 2 + qweightList qs := by
  have := qweight_le_of_mem h
  omega

/-- Membership in docs_with_term. -/
theorem mem_docs_with_term (idx : InvertedIndex) (t d : Nat) :
    d ∈ idx.docs_with_term t ↔
      ∃ pl, idx.getPostings t = some pl ∧ d ∈ pl.map (·.doc) := by
  unfold InvertedIndex.docs_with_term
  cases h : idx.getPostings t <;> simp [h]

/-- docs_with_term of a well-formed index has no duplicates. -/
theorem docs_with_term_nodup (idx : InvertedIndex) (hwf : IndexWF idx) (t : Nat) :
    (idx.docs_with_term t).Nodup := by
  unfold InvertedIndex.docs_with_term
  cases h : idx.getPostings t with
  | none => simp
  | some pl => exact (getPostings_wf idx hwf t pl h).1

/-- Candidate keys stay distinct through all phrase rounds. -/
theorem nodup_keysOf_foldl_phraseStep :
    ∀ (rest : List (List Posting)) (res : List (Nat × Finset Nat)),
      (keysOf res).Nodup → (keysOf (rest.foldl phraseStep res)).Nodup := by
  intro rest
  induction rest with
  | nil => intro res h; exact h
  | cons pl rest ih =>
      intro res h
      rw [List.foldl_cons]
      exact ih _ (nodup_keysOf_phraseStep res pl h)

/-- docs_with_phrase of a well-formed index has no duplicates. -/
theorem docs_with_phrase_nodup (idx : InvertedIndex) (hwf : IndexWF idx)
    (terms : List Nat) : (idx.docs_with_phrase terms).Nodup := by
  unfold InvertedIndex.docs_with_phrase
  rcases hm : terms.mapM idx.getPostings with _ | pls
  · simp
  · cases pls with
    | nil => simp
    | cons first rest =>
        have hfirst : ∃ t ∈ terms, idx.getPostings t = some first :=
          mapM_some_mem idx.getPostings terms (first :: rest) hm first (by simp)
        rcases hfirst with ⟨t, _, hft⟩
        have hnodup0 : (keysOf (first.map (fun p => (p.doc, p.positions)))).Nodup := by
          rw [keysOf_map_pair]
          exact (getPostings_wf idx hwf t first hft).1
        exact nodup_keysOf_foldl_phraseStep rest _ hnodup0

/-- The Or accumulation stays duplicate-free. -/
theorem nodup_or_fold (db : Database) :
    ∀ (qs : List Query) (acc : List Nat), acc.Nodup →
      (qs.foldl (fun acc q => (db.simple_match q).foldl insertUnique acc) acc).Nodup := by
  intro qs
  induction qs with
  | nil => intro acc h; exact h
  | cons q qs ih =>
      intro acc h
      rw [List.foldl_cons]
      exact ih _ (nodup_foldl_insertUnique _ acc h)

/-- simple_match never returns a document twice on a well-formed database. -/
theorem simple_match_nodup (db : Database) (hwf : DbWF db) :
    ∀ q, (db.simple_match q).Nodup := by
  apply qweight_rec
  intro q ih
  cases q with
  | MatchAll =>
      have h : db.simple_match .MatchAll =
          (List.range db.next_document_id).filter (fun d => decide (d ∉ db.deleted_docs)) := by
        simp [Database.simple_match]
      rw [h]
      exact (List.nodup_range _).filter _
  | MatchNone =>
      have h : db.simple_match .MatchNone = [] := by simp [Database.simple_match]
      rw [h]
      exact List.nodup_nil
  | Term f t =>
      have h : db.simple_match (.Term f t) =
          match db.fields.find? (fun e => e.1 == f) with
          | some e => (e.2.docs_with_term t).filter (fun d => decide (d ∉ db.deleted_docs))
          | none => [] := by
        simp [Database.simple_match]
      rw [h]
      cases hf : db.fields.find? (fun e => e.1 == f) with
      | none => exact List.nodup_nil
      | some e =>
          have hm := List.mem_of_find?_eq_some hf
          exact (docs_with_term_nodup e.2 (hwf e hm).1 t).filter _
  | Phrase f ts =>
      have h : db.simple_match (.Phrase f ts) =
          match db.fields.find? (fun e => e.1 == f) with
          | some e => (e.2.docs_with_phrase ts).filter (fun d => decide (d ∉ db.deleted_docs))
          | none => [] := by
        simp [Database.simple_match]
      rw [h]
      cases hf : db.fields.find? (fun e => e.1 == f) with
      | none => exact List.nodup_nil
      | some e =>
          have hm := List.mem_of_find?_eq_some hf
          exact (docs_with_phrase_nodup e.2 (hwf e hm).1 ts).filter _
  | Or qs =>
      have h : db.simple_match (.Or qs) =
          qs.foldl (fun acc q => (db.simple_match q).foldl insertUnique acc) [] := by
        simp [Database.simple_match]
      rw [h]
      exact nodup_or_fold db qs [] List.nodup_nil
  | And qs =>
      have h : db.simple_match (.And qs) =
          ((qs.foldl (fun acc q => (db.simple_match q).foldl bumpCount acc) []).filter
            (fun e => e.2 == qs.length)).map (·.1) := by
        simp [Database.simple_match]
      rw [h]
      exact nodup_keysOf_filter _ _ (nodup_and_fold db qs [] (by simp [keysOf]))
  | Filter q f =>
      rw [simple_match_filter_eq]
      apply ih
      simp [qweight, qweightList]
      omega
  | Exclude q f =>
      have h : db.simple_match (.Exclude q f) =
          (db.simple_match q).filter (fun d => decide (d ∉ db.simple_match f)) := by
        simp [Database.simple_match]
      rw [h]
      exact (ih q (by simp [qweight]; omega)).filter _
  | Boost q b =>
      rw [simple_match_boost_eq]
      exact ih q (by simp [qweight])

/-! ## Executor characterisation: query (scored) -/

/-- Values surviving an upsert fold satisfy any invariant preserved by the
update and established by the miss value. -/
theorem lookupA_foldl_upsert_inv {α β : Type} (key : α → Nat) (g : α → β → β)
    (miss : α → β) (P : β → Prop) (hg : ∀ a v, P v → P (g a v))
    (hm : ∀ a, P (miss a)) :
    ∀ (l : List α) (acc : List (Nat × β)),
      (∀ k v, lookupA acc k = some v → P v) →
      ∀ k v,
        lookupA (l.foldl (fun acc a => upsert acc (key a) (g a) (miss a)) acc) k = some v →
        P v := by
  intro l
  induction l with
  | nil => intro acc h k v hv; exact h k v hv
  | cons a l ih =>
      intro acc h k v hv
      refine ih _ ?_ k v hv
      intro k2 v2 hv2
      rw [lookupA_upsert] at hv2
      by_cases hk : k2 = key a
      · rw [if_pos hk] at hv2
        cases hl : lookupA acc (key a) with
        | none =>
            rw [hl] at hv2
            rw [Option.some_inj] at hv2
            rw [← hv2]
            exact hm a
        | some v0 =>
            rw [hl] at hv2
            rw [Option.some_inj] at hv2
            rw [← hv2]
            exact hg a v0 (h (key a) v0 hl)
      · rw [if_neg hk] at hv2
        exact h k2 v2 hv2

/-- Keys of the markPass fold are unchanged. -/
theorem keysOf_foldl_markPass :
    ∀ (l : List Nat) (acc : List (Nat × ℚ × Bool)),
      keysOf (l.foldl markPass acc) = keysOf acc := by
  intro l
  induction l with
  | nil => intro acc; rfl
  | cons d l ih =>
      intro acc
      rw [List.foldl_cons, ih]
      exact keysOf_mapUpdate acc d (fun v => (v.1, true))

/-- Filtering by a predicate on keys commutes with taking keys. -/
theorem keysOf_filter_fst {β : Type} (p : Nat → Bool) (l : List (Nat × β)) :
    keysOf (l.filter (fun e => p e.1)) = (keysOf l).filter p := by
  unfold keysOf
  induction l with
  | nil => rfl
  | cons e l ih =>
      rw [List.filter_cons, List.map_cons, List.filter_cons]
      by_cases h : p e.1
      · rw [if_pos h, if_pos h, List.map_cons, ih]
      · rw [if_neg h, if_neg h, ih]

/-- Keys returned by the scored MatchAll arm. -/
theorem keys_query_matchall (lg : ℚ → ℚ) (db : Database) :
    keysOf (db.query lg .MatchAll) = db.simple_match .MatchAll := by
  have h1 : db.query lg .MatchAll =
      ((List.range db.next_document_id).filter
        (fun d => decide (d ∉ db.deleted_docs))).map (fun d => (d, 0)) := by
    simp [Database.query]
  have h2 : db.simple_match .MatchAll =
      (List.range db.next_document_id).filter (fun d => decide (d ∉ db.deleted_docs)) := by
    simp [Database.simple_match]
  rw [h1, h2]
  unfold keysOf
  rw [List.map_map]
  exact List.map_id _

/-- Keys returned by the scored Term arm. -/
theorem keys_query_term (lg : ℚ → ℚ) (db : Database) (f t : Nat) :
    keysOf (db.query lg (.Term f t)) = db.simple_match (.Term f t) := by
  have h1 : db.query lg (.Term f t) =
      match db.fields.find? (fun e => e.1 == f) with
      | some e => (e.2.search lg t).filter (fun r => decide (r.1 ∉ db.deleted_docs))
      | none => [] := by
    simp [Database.query]
  have h2 : db.simple_match (.Term f t) =
      match db.fields.find? (fun e => e.1 == f) with
      | some e => (e.2.docs_with_term t).filter (fun d => decide (d ∉ db.deleted_docs))
      | none => [] := by
    simp [Database.simple_match]
  rw [h1, h2]
  cases hf : db.fields.find? (fun e => e.1 == f) with
  | none => rfl
  | some e =>
      have h3 : keysOf ((e.2.search lg t).filter (fun r => decide (r.1 ∉ db.deleted_docs))) =
          (keysOf (e.2.search lg t)).filter (fun d => decide (d ∉ db.deleted_docs)) :=
        keysOf_filter_fst (fun d => decide (d ∉ db.deleted_docs)) (e.2.search lg t)
      rw [h3]
      have h4 : keysOf (e.2.search lg t) = e.2.docs_with_term t := search_fst lg e.2 t
      rw [h4]

/-- Keys returned by the scored Phrase arm. -/
theorem keys_query_phrase (lg : ℚ → ℚ) (db : Database) (f : Nat) (ts : List Nat) :
    keysOf (db.query lg (.Phrase f ts)) = db.simple_match (.Phrase f ts) := by
  have h1 : db.query lg (.Phrase f ts) =
      match db.fields.find? (fun e => e.1 == f) with
      | some e => (e.2.phrase_search lg ts).filter (fun r => decide (r.1 ∉ db.deleted_docs))
      | none => [] := by
    simp [Database.query]
  have h2 : db.simple_match (.Phrase f ts) =
      match db.fields.find? (fun e => e.1 == f) with
      | some e => (e.2.docs_with_phrase ts).filter (fun d => decide (d ∉ db.deleted_docs))
      | none => [] := by
    simp [Database.simple_match]
  rw [h1, h2]
  cases hf : db.fields.find? (fun e => e.1 == f) with
  | none => rfl
  | some e =>
      have h3 : keysOf ((e.2.phrase_search lg ts).filter
            (fun r => decide (r.1 ∉ db.deleted_docs))) =
          (keysOf (e.2.phrase_search lg ts)).filter (fun d => decide (d ∉ db.deleted_docs)) :=
        keysOf_filter_fst (fun d => decide (d ∉ db.deleted_docs)) (e.2.phrase_search lg ts)
      rw [h3]
      have h4 : keysOf (e.2.phrase_search lg ts) = e.2.docs_with_phrase ts :=
        phrase_search_fst lg e.2 ts
      rw [h4]

/-- Unfolding equation for the scored MatchNone arm. -/
theorem query_matchnone_eq (lg : ℚ → ℚ) (db : Database) :
    db.query lg .MatchNone = [] := by
  simp [Database.query]

/-- Unfolding equation for the scored Or arm. -/
theorem query_or_eq (lg : ℚ → ℚ) (db : Database) (qs : List Query) :
    db.query lg (.Or qs) =
      qs.foldl
        (fun acc q => (db.query lg q).foldl (fun acc r => bumpScore acc r.1 r.2) acc) [] := by
  simp [Database.query]

/-- Unfolding equation for the scored And arm. -/
theorem query_and_eq (lg : ℚ → ℚ) (db : Database) (qs : List Query) :
    db.query lg (.And qs) =
      ((qs.foldl
          (fun acc q => (db.query lg q).foldl (fun acc r => bumpAnd acc r.1 r.2) acc)
          []).filter (fun e => e.2.2 == qs.length)).map (fun e => (e.1, e.2.1)) := by
  simp [Database.query]

/-- Unfolding equation for the scored Filter arm. -/
theorem query_filter_raw (lg : ℚ → ℚ) (db : Database) (q f : Query) :
    db.query lg (.Filter q f) =
      (((db.simple_match f).foldl markPass
          ((db.query lg q).foldl (fun acc r => bumpFilter acc r.1 r.2) [])).filter
        (fun e => e.2.2)).map (fun e => (e.1, e.2.1)) := by
  simp [Database.query]

/-- Unfolding equation for the scored (spec-modelled) Exclude arm. -/
theorem query_exclude_raw (lg : ℚ → ℚ) (db : Database) (q f : Query) :
    db.query lg (.Exclude q f) =
      (((db.simple_match f).foldl markPass
          ((db.query lg q).foldl (fun acc r => bumpFilter acc r.1 r.2) [])).filter
        (fun e => !e.2.2)).map (fun e => (e.1, e.2.1)) := by
  simp [Database.query]

/-- A zero boost routes through simple_match and emits zero scores. -/
theorem query_boost_zero (lg : ℚ → ℚ) (db : Database) (q : Query) :
    db.query lg (.Boost q 0) = (db.simple_match q).map (fun d => (d, 0)) := by
  simp [Database.query]

/-- A non-zero boost multiplies the child's scores. -/
theorem query_boost_ne (lg : ℚ → ℚ) (db : Database) (q : Query) (b : ℚ) (hb : b ≠ 0) :
    db.query lg (.Boost q b) = (db.query lg q).map (fun r => (r.1, r.2 * b)) := by
  simp [Database.query, hb]

/-- countP on first components is the key count. -/
theorem countP_fst {β : Type} (l : List (Nat × β)) (d : Nat) :
    l.countP (fun e => e.1 == d) = (keysOf l).count d := by
  induction l with
  | nil => rfl
  | cons e l ih =>
      rw [List.countP_cons]
      have h : keysOf (e :: l) = e.1 :: keysOf l := rfl
      rw [h, List.count_cons, ih]

/-- Keys of the zero-score map are the underlying documents. -/
theorem keysOf_map_zero (l : List Nat) :
    keysOf (l.map (fun d => (d, (0 : ℚ)))) = l := by
  unfold keysOf
  rw [List.map_map]
  exact List.map_id _

/-- A key of a filtered association list is a key of the original. -/
theorem mem_keysOf_filter {β : Type} {l : List (Nat × β)} {p : Nat × β → Bool} {k : Nat}
    (h : k ∈ keysOf (l.filter p)) : k ∈ keysOf l := by
  rcases List.mem_map.mp h with ⟨e, he, rfl⟩
  exact mem_keysOf_of_mem (List.mem_filter.mp he).1

/-- Keys present after the scored Or accumulation. -/
theorem mem_keys_score_fold (lg : ℚ → ℚ) (db : Database) :
    ∀ (qs : List Query) (acc : List (Nat × ℚ)) (d : Nat),
      d ∈ keysOf (qs.foldl
          (fun acc q => (db.query lg q).foldl (fun acc r => bumpScore acc r.1 r.2) acc)
          acc) ↔
        d ∈ keysOf acc ∨ ∃ q ∈ qs, d ∈ keysOf (db.query lg q) := by
  intro qs
  induction qs with
  | nil => intro acc d; simp
  | cons q qs ih =>
      intro acc d
      rw [List.foldl_cons, ih]
      have hin : d ∈ keysOf ((db.query lg q).foldl
            (fun acc r => bumpScore acc r.1 r.2) acc) ↔
          d ∈ keysOf acc ∨ d ∈ keysOf (db.query lg q) :=
        mem_keysOf_foldl_upsert (fun r : Nat × ℚ => r.1) (fun r v => v + r.2)
          (fun r : Nat × ℚ => r.2) (db.query lg q) acc d
      rw [hin]
      constructor
      · rintro ((h | h) | ⟨r, hr, hd⟩)
        · exact Or.inl h
        · exact Or.inr ⟨q, by simp, h⟩
        · exact Or.inr ⟨r, by simp [hr], hd⟩
      · rintro (h | ⟨r, hr, hd⟩)
        · exact Or.inl (Or.inl h)
        · rcases List.mem_cons.mp hr with rfl | hr2
          · exact Or.inl (Or.inr hd)
          · exact Or.inr ⟨r, hr2, hd⟩

/-- Keys present after the scored And accumulation. -/
theorem mem_keys_and_fold (lg : ℚ → ℚ) (db : Database) :
    ∀ (qs : List Query) (acc : List (Nat × ℚ × Nat)) (d : Nat),
      d ∈ keysOf (qs.foldl
          (fun acc q => (db.query lg q).foldl (fun acc r => bumpAnd acc r.1 r.2) acc)
          acc) ↔
        d ∈ keysOf acc ∨ ∃ q ∈ qs, d ∈ keysOf (db.query lg q) := by
  intro qs
  induction qs with
  | nil => intro acc d; simp
  | cons q qs ih =>
      intro acc d
      rw [List.foldl_cons, ih]
      have hin : d ∈ keysOf ((db.query lg q).foldl
            (fun acc r => bumpAnd acc r.1 r.2) acc) ↔
          d ∈ keysOf acc ∨ d ∈ keysOf (db.query lg q) :=
        mem_keysOf_foldl_upsert (fun r : Nat × ℚ => r.1)
          (fun r (v : ℚ × Nat) => (v.1 + r.2, v.2 + 1)) (fun r => (r.2, 1))
          (db.query lg q) acc d
      rw [hin]
      constructor
      · rintro ((h | h) | ⟨r, hr, hd⟩)
        · exact Or.inl h
        · exact Or.inr ⟨q, by simp, h⟩
        · exact Or.inr ⟨r, by simp [hr], hd⟩
      · rintro (h | ⟨r, hr, hd⟩)
        · exact Or.inl (Or.inl h)
        · rcases List.mem_cons.mp hr with rfl | hr2
          · exact Or.inl (Or.inr hd)
          · exact Or.inr ⟨r, hr2, hd⟩

/-- Keys present after the unscored And accumulation. -/
theorem mem_count_fold (db : Database) :
    ∀ (qs : List Query) (acc : List (Nat × Nat)) (d : Nat),
      d ∈ keysOf (qs.foldl
          (fun acc q => (db.simple_match q).foldl bumpCount acc) acc) ↔
        d ∈ keysOf acc ∨ ∃ q ∈ qs, d ∈ db.simple_match q := by
  intro qs
  induction qs with
  | nil => intro acc d; simp
  | cons q qs ih =>
      intro acc d
      rw [List.foldl_cons, ih]
      have hin : d ∈ keysOf ((db.simple_match q).foldl bumpCount acc) ↔
          d ∈ keysOf acc ∨ d ∈ (db.simple_match q).map (fun a : Nat => a) :=
        mem_keysOf_foldl_upsert (fun a : Nat => a) (fun _ v => v + 1) (fun _ => 1)
          (db.simple_match q) acc d
      have hmapid : (db.simple_match q).map (fun a : Nat => a) = db.simple_match q :=
        List.map_id _
      rw [hmapid] at hin
      rw [hin]
      constructor
      · rintro ((h | h) | ⟨r, hr, hd⟩)
        · exact Or.inl h
        · exact Or.inr ⟨q, by simp, h⟩
        · exact Or.inr ⟨r, by simp [hr], hd⟩
      · rintro (h | ⟨r, hr, hd⟩)
        · exact Or.inl (Or.inl h)
        · rcases List.mem_cons.mp hr with rfl | hr2
          · exact Or.inl (Or.inr hd)
          · exact Or.inr ⟨r, hr2, hd⟩

/-- The scored Or accumulator has distinct keys. -/
theorem nodup_score_fold (lg : ℚ → ℚ) (db : Database) :
    ∀ (qs : List Query) (acc : List (Nat × ℚ)), (keysOf acc).Nodup →
      (keysOf (qs.foldl
        (fun acc q => (db.query lg q).foldl (fun acc r => bumpScore acc r.1 r.2) acc)
        acc)).Nodup := by
  intro qs
  induction qs with
  | nil => intro acc h; exact h
  | cons q qs ih =>
      intro acc h
      rw [List.foldl_cons]
      exact ih _ (nodup_keysOf_foldl_upsert (fun r : Nat × ℚ => r.1)
        (fun r v => v + r.2) (fun r : Nat × ℚ => r.2) (db.query lg q) acc h)

/-- The scored And accumulator has distinct keys. -/
theorem nodup_and_score_fold (lg : ℚ → ℚ) (db : Database) :
    ∀ (qs : List Query) (acc : List (Nat × ℚ × Nat)), (keysOf acc).Nodup →
      (keysOf (qs.foldl
        (fun acc q => (db.query lg q).foldl (fun acc r => bumpAnd acc r.1 r.2) acc)
        acc)).Nodup := by
  intro qs
  induction qs with
  | nil => intro acc h; exact h
  | cons q qs ih =>
      intro acc h
      rw [List.foldl_cons]
      exact ih _ (nodup_keysOf_foldl_upsert (fun r : Nat × ℚ => r.1)
        (fun r (v : ℚ × Nat) => (v.1 + r.2, v.2 + 1)) (fun r => (r.2, 1))
        (db.query lg q) acc h)

/-- Count component accumulated by the scored And fold: the number of child
result lists mentioning the document (counted with key multiplicity). -/
theorem lookupA_and_score_fold (lg : ℚ → ℚ) (db : Database) :
    ∀ (qs : List Query) (acc : List (Nat × ℚ × Nat)) (d : Nat),
      (lookupA (qs.foldl
          (fun acc q => (db.query lg q).foldl (fun acc r => bumpAnd acc r.1 r.2) acc)
          acc) d).map (fun v => v.2) =
        match (lookupA acc d).map (fun v => v.2) with
        | some n => some (n + (qs.map (fun q => (keysOf (db.query lg q)).count d)).sum)
        | none =>
            if ∃ q ∈ qs, d ∈ keysOf (db.query lg q) then
              some ((qs.map (fun q => (keysOf (db.query lg q)).count d)).sum)
            else none := by
  intro qs
  induction qs with
  | nil =>
      intro acc d
      cases h : (lookupA acc d).map (fun v => v.2) <;> simp [h]
  | cons q qs ih =>
      intro acc d
      rw [List.foldl_cons, ih]
      have hinner := lookupA_foldl_upsert_count (fun r : Nat × ℚ => r.1)
        (fun r (v : ℚ × Nat) => (v.1 + r.2, v.2 + 1)) (fun r => (r.2, 1))
        (fun v : ℚ × Nat => v.2) (fun _ _ => rfl) (fun _ => rfl) (db.query lg q) acc d
      have hcount : (db.query lg q).countP (fun r => r.1 == d) =
          (keysOf (db.query lg q)).count d := countP_fst _ _
      rw [hcount] at hinner
      have hinner2 : (lookupA ((db.query lg q).foldl
            (fun acc r => bumpAnd acc r.1 r.2) acc) d).map (fun v => v.2) =
          match (lookupA acc d).map (fun v => v.2) with
          | some n => some (n + (keysOf (db.query lg q)).count d)
          | none =>
              if d ∈ keysOf (db.query lg q) then
                some ((keysOf (db.query lg q)).count d)
              else none := hinner
      rw [hinner2]
      rcases ha : lookupA acc d with _ | v
      · by_cases hq : d ∈ keysOf (db.query lg q)
        · have hex : ∃ r ∈ q :: qs, d ∈ keysOf (db.query lg r) := ⟨q, by simp, hq⟩
          simp [hq, hex]
        · have hc0 : (keysOf (db.query lg q)).count d = 0 := by
            rw [List.count_eq_zero]
            exact hq
          by_cases hex : ∃ r ∈ qs, d ∈ keysOf (db.query lg r)
          · have hex2 : ∃ r ∈ q :: qs, d ∈ keysOf (db.query lg r) := by
              rcases hex with ⟨r, hr, h2⟩
              exact ⟨r, by simp [hr], h2⟩
            simp [hq, hex, hex2, hc0]
          · have hex2 : ¬ ∃ r ∈ q :: qs, d ∈ keysOf (db.query lg r) := by
              rintro ⟨r, hr, h2⟩
              rcases List.mem_cons.mp hr with rfl | hr2
              · exact hq h2
              · exact hex ⟨r, hr2, h2⟩
            simp [hq, hex, hex2]
      · simp [Nat.add_assoc]

/-- The markPass fold sets the flag of exactly the keys in the list. -/
theorem foldl_markPass_eq_map :
    ∀ (l : List Nat) (acc : List (Nat × ℚ × Bool)),
      l.foldl markPass acc =
        acc.map (fun e => (e.1, e.2.1, e.2.2 || decide (e.1 ∈ l))) := by
  intro l
  induction l with
  | nil => intro acc; simp
  | cons x l ih =>
      intro acc
      rw [List.foldl_cons, ih]
      unfold markPass
      rw [List.map_map]
      apply List.map_congr_left
      intro e _
      by_cases he : e.1 = x
      · simp [Function.comp, he]
      · simp [Function.comp, he]

/-- Folding bumpFilter over a list with distinct keys tags each entry with a
false flag. -/
theorem bumpFilter_fold_eq_map (l : List (Nat × ℚ)) (h : (keysOf l).Nodup) :
    l.foldl (fun acc r => bumpFilter acc r.1 r.2) [] =
      l.map (fun r => (r.1, r.2, false)) := by
  have h2 := foldl_upsert_of_nodup (fun r : Nat × ℚ => r.1)
    (fun r (v : ℚ × Bool) => (v.1 + r.2, v.2)) (fun r => (r.2, false)) l [] h
    (by simp [keysOf])
  have h3 : l.foldl (fun acc r => bumpFilter acc r.1 r.2) [] =
      [] ++ l.map (fun r => (r.1, r.2, false)) := h2
  rw [h3]
  simp

/-- Composite simplification of the Filter arm's pipeline. -/
theorem filterArm_simp (l : List (Nat × ℚ)) (S : List Nat) :
    ((((l.map (fun r => (r.1, r.2, false))).map
        (fun e => (e.1, e.2.1, e.2.2 || decide (e.1 ∈ S)))).filter
      (fun e => e.2.2)).map (fun e => (e.1, e.2.1))) =
      l.filter (fun r => decide (r.1 ∈ S)) := by
  induction l with
  | nil => rfl
  | cons r l ih =>
      simp only [List.map_cons, List.filter_cons]
      by_cases hr : r.1 ∈ S
      · rw [if_pos (by simp [hr]), if_pos (by simp [hr]), List.map_cons, ih]
      · rw [if_neg (by simp [hr]), if_neg (by simp [hr])]
        exact ih

/-- Composite simplification of the Exclude arm's pipeline. -/
theorem excludeArm_simp (l : List (Nat × ℚ)) (S : List Nat) :
    ((((l.map (fun r => (r.1, r.2, false))).map
        (fun e => (e.1, e.2.1, e.2.2 || decide (e.1 ∈ S)))).filter
      (fun e => !e.2.2)).map (fun e => (e.1, e.2.1))) =
      l.filter (fun r => decide (r.1 ∉ S)) := by
  induction l with
  | nil => rfl
  | cons r l ih =>
      simp only [List.map_cons, List.filter_cons]
      by_cases hr : r.1 ∈ S
      · rw [if_neg (by simp [hr]), if_neg (by simp [hr])]
        exact ih
      · rw [if_pos (by simp [hr]), if_pos (by simp [hr]), List.map_cons, ih]

/-- The scored Filter arm keeps the child's scored entries whose document
is in the filter set, scores untouched, when the child has distinct keys. -/
theorem query_filter_eq (lg : ℚ → ℚ) (db : Database) (q f : Query)
    (h : (keysOf (db.query lg q)).Nodup) :
    db.query lg (.Filter q f) =
      (db.query lg q).filter (fun r => decide (r.1 ∈ db.simple_match f)) := by
  rw [query_filter_raw lg db q f, bumpFilter_fold_eq_map _ h, foldl_markPass_eq_map]
  exact filterArm_simp _ _

/-- The scored Exclude arm keeps the child's scored entries whose document
is not in the filter set, scores untouched, when the child has distinct
keys. -/
theorem query_exclude_eq (lg : ℚ → ℚ) (db : Database) (q f : Query)
    (h : (keysOf (db.query lg q)).Nodup) :
    db.query lg (.Exclude q f) =
      (db.query lg q).filter (fun r => decide (r.1 ∉ db.simple_match f)) := by
  rw [query_exclude_raw lg db q f, bumpFilter_fold_eq_map _ h, foldl_markPass_eq_map]
  exact excludeArm_simp _ _

/-- Documents returned by the scored Or arm. -/
theorem mem_keys_query_or (lg : ℚ → ℚ) (db : Database) (qs : List Query) (d : Nat) :
    d ∈ keysOf (db.query lg (.Or qs)) ↔ ∃ q ∈ qs, d ∈ keysOf (db.query lg q) := by
  rw [query_or_eq, mem_keys_score_fold]
  simp [keysOf]

/-- Documents returned by the scored And arm over children with distinct
result keys. -/
theorem mem_keys_query_and (lg : ℚ → ℚ) (db : Database) (qs : List Query) (d : Nat)
    (hnd : ∀ q ∈ qs, (keysOf (db.query lg q)).Nodup) :
    d ∈ keysOf (db.query lg (.And qs)) ↔
      qs ≠ [] ∧ ∀ q ∈ qs, d ∈ keysOf (db.query lg q) := by
  rw [query_and_eq]
  have h2 := keysOf_map_pair2
    ((qs.foldl (fun acc q => (db.query lg q).foldl (fun acc r => bumpAnd acc r.1 r.2) acc)
      []).filter (fun e => e.2.2 == qs.length)) (fun e => e.2.1)
  rw [h2]
  have hnodupk := nodup_and_score_fold lg db qs [] (by simp [keysOf])
  have hlook := lookupA_and_score_fold lg db qs [] d
  rw [lookupA_nil] at hlook
  simp only [Option.map_none'] at hlook
  constructor
  · intro hmem
    rcases List.mem_map.mp hmem with ⟨e, he, hed⟩
    have hef := List.mem_filter.mp he
    rcases e with ⟨k, v⟩
    obtain rfl : d = k := hed.symm
    have hlk : lookupA (qs.foldl
        (fun acc q => (db.query lg q).foldl (fun acc r => bumpAnd acc r.1 r.2) acc) []) d
        = some v := (mem_iff_lookupA _ hnodupk d v).mp hef.1
    rw [hlk] at hlook
    simp only [Option.map_some'] at hlook
    by_cases hex : ∃ q ∈ qs, d ∈ keysOf (db.query lg q)
    · rw [if_pos hex] at hlook
      have hn : v.2 = (qs.map (fun q => (keysOf (db.query lg q)).count d)).sum := by
        rw [Option.some_inj] at hlook
        exact hlook
      have hlen : v.2 = qs.length := by simpa using hef.2
      have hones : ∀ x ∈ qs.map (fun q => (keysOf (db.query lg q)).count d), x = 1 := by
        apply (sum_eq_length_iff _ ?_).mp
        · rw [← hn, hlen]
          simp
        · intro x hx
          rcases List.mem_map.mp hx with ⟨q, hq, rfl⟩
          by_cases hdq : d ∈ keysOf (db.query lg q)
          · rw [List.count_eq_one_of_mem (hnd q hq) hdq]
          · rw [List.count_eq_zero.mpr hdq]
            omega
      have hne : qs ≠ [] := by
        rcases hex with ⟨q, hq, _⟩
        intro hcon
        rw [hcon] at hq
        simp at hq
      refine ⟨hne, ?_⟩
      intro q hq
      have h1 := hones ((keysOf (db.query lg q)).count d) (List.mem_map_of_mem _ hq)
      by_contra hdq
      rw [List.count_eq_zero.mpr hdq] at h1
      simp at h1
    · rw [if_neg hex] at hlook
      cases hlook
  · rintro ⟨hne, hall⟩
    have hex : ∃ q ∈ qs, d ∈ keysOf (db.query lg q) := by
      cases qs with
      | nil => exact absurd rfl hne
      | cons q qs => exact ⟨q, by simp, hall q (by simp)⟩
    have hsum : (qs.map (fun q => (keysOf (db.query lg q)).count d)).sum = qs.length := by
      have hones : ∀ x ∈ qs.map (fun q => (keysOf (db.query lg q)).count d), x = 1 := by
        intro x hx
        rcases List.mem_map.mp hx with ⟨q, hq, rfl⟩
        exact List.count_eq_one_of_mem (hnd q hq) (hall q hq)
      calc (qs.map (fun q => (keysOf (db.query lg q)).count d)).sum
          = (qs.map (fun q => (keysOf (db.query lg q)).count d)).length := by
            rw [sum_eq_length_iff _ (fun x hx => by rw [hones x hx])]
            exact hones
        _ = qs.length := by simp
    rw [if_pos hex] at hlook
    cases hl : lookupA (qs.foldl
        (fun acc q => (db.query lg q).foldl (fun acc r => bumpAnd acc r.1 r.2) acc) []) d with
    | none => rw [hl] at hlook; simp at hlook
    | some v =>
        have hv2 : v.2 = qs.length := by
          rw [hl] at hlook
          simp only [Option.map_some', Option.some_inj] at hlook
          rw [hlook, hsum]
        apply List.mem_map.mpr
        refine ⟨(d, v), ?_, rfl⟩
        apply List.mem_filter.mpr
        refine ⟨(mem_iff_lookupA _ hnodupk d v).mpr hl, ?_⟩
        simp [hv2]

/-- Documents returned by the scored Filter arm. -/
theorem mem_keys_query_filter (lg : ℚ → ℚ) (db : Database) (q f : Query) (d : Nat)
    (h : (keysOf (db.query lg q)).Nodup) :
    d ∈ keysOf (db.query lg (.Filter q f)) ↔
      d ∈ keysOf (db.query lg q) ∧ d ∈ db.simple_match f := by
  rw [query_filter_eq lg db q f h]
  have h2 : keysOf ((db.query lg q).filter (fun r => decide (r.1 ∈ db.simple_match f))) =
      (keysOf (db.query lg q)).filter (fun x => decide (x ∈ db.simple_match f)) :=
    keysOf_filter_fst (fun x => decide (x ∈ db.simple_match f)) (db.query lg q)
  rw [h2, List.mem_filter]
  simp

/-- Documents returned by the scored (spec-modelled) Exclude arm. -/
theorem mem_keys_query_exclude (lg : ℚ → ℚ) (db : Database) (q f : Query) (d : Nat)
    (h : (keysOf (db.query lg q)).Nodup) :
    d ∈ keysOf (db.query lg (.Exclude q f)) ↔
      d ∈ keysOf (db.query lg q) ∧ d ∉ db.simple_match f := by
  rw [query_exclude_eq lg db q f h]
  have h2 : keysOf ((db.query lg q).filter (fun r => decide (r.1 ∉ db.simple_match f))) =
      (keysOf (db.query lg q)).filter (fun x => decide (x ∉ db.simple_match f)) :=
    keysOf_filter_fst (fun x => decide (x ∉ db.simple_match f)) (db.query lg q)
  rw [h2, List.mem_filter]
  simp

/-- On a well-formed database the scored executor returns each document at
most once. -/
theorem query_keys_nodup (lg : ℚ → ℚ) (db : Database) (hwf : DbWF db) :
    ∀ q, (keysOf (db.query lg q)).Nodup := by
  apply qweight_rec
  intro q ih
  cases q with
  | MatchAll =>
      rw [keys_query_matchall]
      exact simple_match_nodup db hwf _
  | MatchNone =>
      rw [query_matchnone_eq]
      exact List.nodup_nil
  | Term f t =>
      rw [keys_query_term]
      exact simple_match_nodup db hwf _
  | Phrase f ts =>
      rw [keys_query_phrase]
      exact simple_match_nodup db hwf _
  | Or qs =>
      rw [query_or_eq]
      exact nodup_score_fold lg db qs [] (by simp [keysOf])
  | And qs =>
      rw [query_and_eq]
      have h2 := keysOf_map_pair2
        ((qs.foldl (fun acc q => (db.query lg q).foldl (fun acc r => bumpAnd acc r.1 r.2) acc)
          []).filter (fun e => e.2.2 == qs.length)) (fun e => e.2.1)
      rw [h2]
      exact nodup_keysOf_filter _ _ (nodup_and_score_fold lg db qs [] (by simp [keysOf]))
  | Filter q f =>
      have hq : (keysOf (db.query lg q)).Nodup := ih q (by simp [qweight]; omega)
      rw [query_filter_eq lg db q f hq]
      have h2 : keysOf ((db.query lg q).filter (fun r => decide (r.1 ∈ db.simple_match f))) =
          (keysOf (db.query lg q)).filter (fun x => decide (x ∈ db.simple_match f)) :=
        keysOf_filter_fst (fun x => decide (x ∈ db.simple_match f)) (db.query lg q)
      rw [h2]
      exact hq.filter _
  | Exclude q f =>
      have hq : (keysOf (db.query lg q)).Nodup := ih q (by simp [qweight]; omega)
      rw [query_exclude_eq lg db q f hq]
      have h2 : keysOf ((db.query lg q).filter (fun r => decide (r.1 ∉ db.simple_match f))) =
          (keysOf (db.query lg q)).filter (fun x => decide (x ∉ db.simple_match f)) :=
        keysOf_filter_fst (fun x => decide (x ∉ db.simple_match f)) (db.query lg q)
      rw [h2]
      exact hq.filter _
  | Boost q b =>
      by_cases hb : b = 0
      · subst hb
        rw [query_boost_zero, keysOf_map_zero]
        exact simple_match_nodup db hwf q
      · rw [query_boost_ne lg db q b hb]
        have h2 := keysOf_map_pair2 (db.query lg q) (fun e => e.2 * b)
        rw [h2]
        exact ih q (by simp [qweight])

/-- On a well-formed database the scored and unscored executors return the
same documents. -/
theorem mem_keys_query (lg : ℚ → ℚ) (db : Database) (hwf : DbWF db) :
    ∀ q, ∀ d, d ∈ keysOf (db.query lg q) ↔ d ∈ db.simple_match q := by
  apply qweight_rec
  intro q ih
  cases q with
  | MatchAll =>
      intro d
      rw [keys_query_matchall]
  | MatchNone =>
      intro d
      rw [query_matchnone_eq]
      have h : db.simple_match .MatchNone = [] := by simp [Database.simple_match]
      rw [h]
      simp [keysOf]
  | Term f t =>
      intro d
      rw [keys_query_term]
  | Phrase f ts =>
      intro d
      rw [keys_query_phrase]
  | Or qs =>
      intro d
      rw [mem_keys_query_or, mem_simple_match_or]
      constructor
      · rintro ⟨q, hq, hd⟩
        have hlt : qweight q < qweight (.Or qs) := by
          have := qweight_lt_of_mem hq
          simpa [qweight] using this
        exact ⟨q, hq, (ih q hlt d).mp hd⟩
      · rintro ⟨q, hq, hd⟩
        have hlt : qweight q < qweight (.Or qs) := by
          have := qweight_lt_of_mem hq
          simpa [qweight] using this
        exact ⟨q, hq, (ih q hlt d).mpr hd⟩
  | And qs =>
      intro d
      have hndq : ∀ q ∈ qs, (keysOf (db.query lg q)).Nodup :=
        fun q _ => query_keys_nodup lg db hwf q
      have hnds : ∀ q ∈ qs, (db.simple_match q).Nodup :=
        fun q _ => simple_match_nodup db hwf q
      rw [mem_keys_query_and lg db qs d hndq, mem_simple_match_and db qs d hnds]
      constructor
      · rintro ⟨hne, hall⟩
        refine ⟨hne, ?_⟩
        intro q hq
        have hlt : qweight q < qweight (.And qs) := by
          have := qweight_lt_of_mem hq
          simpa [qweight] using this
        exact (ih q hlt d).mp (hall q hq)
      · rintro ⟨hne, hall⟩
        refine ⟨hne, ?_⟩
        intro q hq
        have hlt : qweight q < qweight (.And qs) := by
          have := qweight_lt_of_mem hq
          simpa [qweight] using this
        exact (ih q hlt d).mpr (hall q hq)
  | Filter q f =>
      intro d
      have hndq := query_keys_nodup lg db hwf q
      rw [mem_keys_query_filter lg db q f d hndq, simple_match_filter_eq]
      have hnds : ∀ r ∈ [q, f], (db.simple_match r).Nodup :=
        fun r _ => simple_match_nodup db hwf r
      rw [mem_simple_match_and db [q, f] d hnds]
      have hltq : qweight q < qweight (.Filter q f) := by
        simp [qweight]
        omega
      rw [ih q hltq d]
      constructor
      · rintro ⟨hd, hf⟩
        refine ⟨by simp, ?_⟩
        intro r hr
        rcases List.mem_cons.mp hr with rfl | hr2
        · exact hd
        · rcases List.mem_cons.mp hr2 with rfl | hr3
          · exact hf
          · simp at hr3
      · rintro ⟨-, hall⟩
        exact ⟨hall q (by simp), hall f (by simp)⟩
  | Exclude q f =>
      intro d
      have hndq := query_keys_nodup lg db hwf q
      rw [mem_keys_query_exclude lg db q f d hndq, mem_simple_match_exclude]
      have hltq : qweight q < qweight (.Exclude q f) := by
        simp [qweight]
        omega
      rw [ih q hltq d]
  | Boost q b =>
      intro d
      have hsb : db.simple_match (.Boost q b) = db.simple_match q :=
        simple_match_boost_eq db q b
      by_cases hb : b = 0
      · subst hb
        rw [query_boost_zero, keysOf_map_zero, hsb]
      · rw [query_boost_ne lg db q b hb]
        have h2 := keysOf_map_pair2 (db.query lg q) (fun e => e.2 * b)
        rw [h2, hsb]
        exact ih q (by simp [qweight]) d

/-- A tombstoned document is absent from every executor result: both the
unscored match list and the key list of the scored result. -/
theorem tombstone_aux (lg : ℚ → ℚ) (db : Database) (d : Nat)
    (hd : d ∈ db.deleted_docs) :
    ∀ q, d ∉ db.simple_match q ∧ d ∉ keysOf (db.query lg q) := by
  apply qweight_rec
  intro q ih
  cases q with
  | MatchAll =>
      have hsm : d ∉ db.simple_match .MatchAll := by
        intro hmem
        have h : db.simple_match .MatchAll =
            (List.range db.next_document_id).filter
              (fun x => decide (x ∉ db.deleted_docs)) := by
          simp [Database.simple_match]
        rw [h] at hmem
        have h2 := (List.mem_filter.mp hmem).2
        simp at h2
        exact h2 hd
      refine ⟨hsm, ?_⟩
      rw [keys_query_matchall]
      exact hsm
  | MatchNone =>
      constructor
      · intro hmem
        have h : db.simple_match .MatchNone = [] := by simp [Database.simple_match]
        rw [h] at hmem
        simp at hmem
      · intro hmem
        rw [query_matchnone_eq] at hmem
        simp [keysOf] at hmem
  | Term f t =>
      have hsm : d ∉ db.simple_match (.Term f t) := by
        intro hmem
        have h : db.simple_match (.Term f t) =
            match db.fields.find? (fun e => e.1 == f) with
            | some e =>
                (e.2.docs_with_term t).filter (fun x => decide (x ∉ db.deleted_docs))
            | none => [] := by
          simp [Database.simple_match]
        rw [h] at hmem
        cases hf : db.fields.find? (fun e => e.1 == f) with
        | none => rw [hf] at hmem; simp at hmem
        | some e =>
            rw [hf] at hmem
            simp at hmem
            exact hmem.2 hd
      refine ⟨hsm, ?_⟩
      rw [keys_query_term]
      exact hsm
  | Phrase f ts =>
      have hsm : d ∉ db.simple_match (.Phrase f ts) := by
        intro hmem
        have h : db.simple_match (.Phrase f ts) =
            match db.fields.find? (fun e => e.1 == f) with
            | some e =>
                (e.2.docs_with_phrase ts).filter (fun x => decide (x ∉ db.deleted_docs))
            | none => [] := by
          simp [Database.simple_match]
        rw [h] at hmem
        cases hf : db.fields.find? (fun e => e.1 == f) with
        | none => rw [hf] at hmem; simp at hmem
        | some e =>
            rw [hf] at hmem
            simp at hmem
            exact hmem.2 hd
      refine ⟨hsm, ?_⟩
      rw [keys_query_phrase]
      exact hsm
  | Or qs =>
      constructor
      · intro hmem
        rcases (mem_simple_match_or db qs d).mp hmem with ⟨q, hq, hdq⟩
        have hlt : qweight q < qweight (.Or qs) := by
          have := qweight_lt_of_mem hq
          simpa [qweight] using this
        exact (ih q hlt).1 hdq
      · intro hmem
        rcases (mem_keys_query_or lg db qs d).mp hmem with ⟨q, hq, hdq⟩
        have hlt : qweight q < qweight (.Or qs) := by
          have := qweight_lt_of_mem hq
          simpa [qweight] using this
        exact (ih q hlt).2 hdq
  | And qs =>
      constructor
      · intro hmem
        have h : db.simple_match (.And qs) =
            ((qs.foldl (fun acc q => (db.simple_match q).foldl bumpCount acc) []).filter
              (fun e => e.2 == qs.length)).map (·.1) := by
          simp [Database.simple_match]
        rw [h] at hmem
        have h2 : d ∈ keysOf
            ((qs.foldl (fun acc q => (db.simple_match q).foldl bumpCount acc) []).filter
              (fun e => e.2 == qs.length)) := hmem
        have h3 := mem_keysOf_filter h2
        rcases (mem_count_fold db qs [] d).mp h3 with h4 | ⟨q, hq, hdq⟩
        · simp [keysOf] at h4
        · have hlt : qweight q < qweight (.And qs) := by
            have := qweight_lt_of_mem hq
            simpa [qweight] using this
          exact (ih q hlt).1 hdq
      · intro hmem
        rw [query_and_eq] at hmem
        have h2 := keysOf_map_pair2
          ((qs.foldl
            (fun acc q => (db.query lg q).foldl (fun acc r => bumpAnd acc r.1 r.2) acc)
            []).filter (fun e => e.2.2 == qs.length)) (fun e => e.2.1)
        rw [h2] at hmem
        have h3 := mem_keysOf_filter hmem
        rcases (mem_keys_and_fold lg db qs [] d).mp h3 with h4 | ⟨q, hq, hdq⟩
        · simp [keysOf] at h4
        · have hlt : qweight q < qweight (.And qs) := by
            have := qweight_lt_of_mem hq
            simpa [qweight] using this
          exact (ih q hlt).2 hdq
  | Filter q f =>
      constructor
      · intro hmem
        rw [simple_match_filter_eq] at hmem
        have hlt : qweight (.And [q, f]) < qweight (.Filter q f) := by
          simp [qweight, qweightList]
          omega
        exact (ih _ hlt).1 hmem
      · intro hmem
        rw [query_filter_raw] at hmem
        have h2 := keysOf_map_pair2
          (((db.simple_match f).foldl markPass
            ((db.query lg q).foldl (fun acc r => bumpFilter acc r.1 r.2) [])).filter
            (fun e => e.2.2)) (fun e => e.2.1)
        rw [h2] at hmem
        have h3 := mem_keysOf_filter hmem
        rw [keysOf_foldl_markPass] at h3
        have h4 : d ∈ keysOf ((db.query lg q).foldl
              (fun acc r => bumpFilter acc r.1 r.2) []) ↔
            d ∈ keysOf ([] : List (Nat × ℚ × Bool)) ∨ d ∈ keysOf (db.query lg q) :=
          mem_keysOf_foldl_upsert (fun r : Nat × ℚ => r.1)
            (fun r (v : ℚ × Bool) => (v.1 + r.2, v.2)) (fun r => (r.2, false))
            (db.query lg q) [] d
        rcases h4.mp h3 with h5 | h5
        · simp [keysOf] at h5
        · exact (ih q (by simp [qweight]; omega)).2 h5
  | Exclude q f =>
      constructor
      · intro hmem
        have h2 := (mem_simple_match_exclude db q f d).mp hmem
        exact (ih q (by simp [qweight]; omega)).1 h2.1
      · intro hmem
        rw [query_exclude_raw] at hmem
        have h2 := keysOf_map_pair2
          (((db.simple_match f).foldl markPass
            ((db.query lg q).foldl (fun acc r => bumpFilter acc r.1 r.2) [])).filter
            (fun e => !e.2.2)) (fun e => e.2.1)
        rw [h2] at hmem
        have h3 := mem_keysOf_filter hmem
        rw [keysOf_foldl_markPass] at h3
        have h4 : d ∈ keysOf ((db.query lg q).foldl
              (fun acc r => bumpFilter acc r.1 r.2) []) ↔
            d ∈ keysOf ([] : List (Nat × ℚ × Bool)) ∨ d ∈ keysOf (db.query lg q) :=
          mem_keysOf_foldl_upsert (fun r : Nat × ℚ => r.1)
            (fun r (v : ℚ × Bool) => (v.1 + r.2, v.2)) (fun r => (r.2, false))
            (db.query lg q) [] d
        rcases h4.mp h3 with h5 | h5
        · simp [keysOf] at h5
        · exact (ih q (by simp [qweight]; omega)).2 h5
  | Boost q b =>
      constructor
      · intro hmem
        rw [simple_match_boost_eq] at hmem
        exact (ih q (by simp [qweight])).1 hmem
      · intro hmem
        by_cases hb : b = 0
        · subst hb
          rw [query_boost_zero, keysOf_map_zero] at hmem
          exact (ih q (by simp [qweight])).1 hmem
        · rw [query_boost_ne lg db q b hb] at hmem
          have h2 := keysOf_map_pair2 (db.query lg q) (fun e => e.2 * b)
          rw [h2] at hmem
          exact (ih q (by simp [qweight])).2 hmem

/-! ## Smart constructor set semantics (support for the double-negation law) -/

/-- A present posting list is one of the index's entries. -/
theorem getPostings_mem (idx : InvertedIndex) (t : Nat) (pl : List Posting)
    (h : idx.getPostings t = some pl) : ∃ a ∈ idx.postings, a.2 = pl := by
  unfold InvertedIndex.getPostings at h
  rcases hf : idx.postings.find? (fun e => e.1 == t) with _ | a
  · rw [hf] at h
    simp at h
  · rw [hf] at h
    simp at h
    exact ⟨a, List.mem_of_find?_eq_some hf, h⟩

/-- Membership in the MatchAll result: allocated and not deleted. -/
theorem mem_sm_matchall (db : Database) (d : Nat) :
    d ∈ db.simple_match .MatchAll ↔
      d < db.next_document_id ∧ d ∉ db.deleted_docs := by
  have h : db.simple_match .MatchAll =
      (List.range db.next_document_id).filter (fun x => decide (x ∉ db.deleted_docs)) := by
    simp [Database.simple_match]
  rw [h, List.mem_filter, List.mem_range]
  simp

/-- Two-child And membership on a well-formed database. -/
theorem mem_sm_and_pair (db : Database) (hwf : DbWF db) (q f : Query) (d : Nat) :
    d ∈ db.simple_match (.And [q, f]) ↔
      d ∈ db.simple_match q ∧ d ∈ db.simple_match f := by
  rw [mem_simple_match_and db [q, f] d (fun r _ => simple_match_nodup db hwf r)]
  constructor
  · rintro ⟨-, hall⟩
    exact ⟨hall q (by simp), hall f (by simp)⟩
  · rintro ⟨h1, h2⟩
    refine ⟨by simp, ?_⟩
    intro r hr
    rcases List.mem_cons.mp hr with rfl | hr2
    · exact h1
    · rcases List.mem_cons.mp hr2 with rfl | hr3
      · exact h2
      · simp at hr3

/-- Filter node membership on a well-formed database. -/
theorem mem_sm_filter_node (db : Database) (hwf : DbWF db) (q f : Query) (d : Nat) :
    d ∈ db.simple_match (.Filter q f) ↔
      d ∈ db.simple_match q ∧ d ∈ db.simple_match f := by
  rw [simple_match_filter_eq]
  exact mem_sm_and_pair db hwf q f d

/-- Every simple_match result is allocated and not deleted (a subset of the
MatchAll result) on a well-formed database. -/
theorem sm_subset_matchall (db : Database) (hwf : DbWF db) :
    ∀ q, ∀ d, d ∈ db.simple_match q → d ∈ db.simple_match .MatchAll := by
  apply qweight_rec
  intro q ih
  cases q with
  | MatchAll => exact fun d h => h
  | MatchNone =>
      intro d hmem
      have h : db.simple_match .MatchNone = [] := by simp [Database.simple_match]
      rw [h] at hmem
      simp at hmem
  | Term f t =>
      intro d hmem
      have h : db.simple_match (.Term f t) =
          match db.fields.find? (fun e => e.1 == f) with
          | some e =>
              (e.2.docs_with_term t).filter (fun x => decide (x ∉ db.deleted_docs))
          | none => [] := by
        simp [Database.simple_match]
      rw [h] at hmem
      cases hf : db.fields.find? (fun e => e.1 == f) with
      | none => rw [hf] at hmem; simp at hmem
      | some e =>
          rw [hf] at hmem
          simp at hmem
          rcases (mem_docs_with_term e.2 t d).mp hmem.1 with ⟨pl, hpl, hdoc⟩
          rcases getPostings_mem e.2 t pl hpl with ⟨a, ha, rfl⟩
          rcases List.mem_map.mp hdoc with ⟨p, hp, rfl⟩
          have hlt := (hwf e (List.mem_of_find?_eq_some hf)).2 a ha p hp
          rw [mem_sm_matchall]
          exact ⟨hlt, hmem.2⟩
  | Phrase f ts =>
      intro d hmem
      have h : db.simple_match (.Phrase f ts) =
          match db.fields.find? (fun e => e.1 == f) with
          | some e =>
              (e.2.docs_with_phrase ts).filter (fun x => decide (x ∉ db.deleted_docs))
          | none => [] := by
        simp [Database.simple_match]
      rw [h] at hmem
      cases hf : db.fields.find? (fun e => e.1 == f) with
      | none => rw [hf] at hmem; simp at hmem
      | some e =>
          rw [hf] at hmem
          simp at hmem
          rcases hmem with ⟨hdp, hdel⟩
          have hiwf : IndexWF e.2 := (hwf e (List.mem_of_find?_eq_some hf)).1
          cases ts with
          | nil =>
              rw [show e.2.docs_with_phrase [] = [] from rfl] at hdp
              simp at hdp
          | cons t ts2 =>
              rcases (mem_docs_with_phrase e.2 hiwf (t :: ts2)
                  (List.cons_ne_nil _ _) d).mp hdp with ⟨p, hp⟩
              have h0 : p + 0 ∈ posOfTerm e.2 t d := hp 0 (by simp)
              cases hgp : e.2.getPostings t with
              | none =>
                  have hz : posOfTerm e.2 t d = ∅ := by
                    unfold posOfTerm
                    rw [hgp]
                  rw [hz] at h0
                  simp at h0
              | some pl =>
                  have hpt : posOfTerm e.2 t d = posOf pl d := by
                    unfold posOfTerm
                    rw [hgp]
                  rw [hpt] at h0
                  cases hdp2 : docPositions pl d with
                  | none =>
                      have hz : posOf pl d = ∅ := by
                        unfold posOf
                        rw [hdp2]
                        rfl
                      rw [hz] at h0
                      simp at h0
                  | some s =>
                      rcases docPositions_some pl d s hdp2 with ⟨pp, hppmem, hppdoc, -⟩
                      rcases getPostings_mem e.2 t pl hgp with ⟨a, ha, rfl⟩
                      have hlt := (hwf e (List.mem_of_find?_eq_some hf)).2 a ha pp hppmem
                      rw [mem_sm_matchall]
                      exact ⟨hppdoc ▸ hlt, hdel⟩
  | Or qs =>
      intro d hmem
      rcases (mem_simple_match_or db qs d).mp hmem with ⟨q, hq, hdq⟩
      have hlt : qweight q < qweight (.Or qs) := by
        have := qweight_lt_of_mem hq
        simpa [qweight] using this
      exact ih q hlt d hdq
  | And qs =>
      intro d hmem
      have h : db.simple_match (.And qs) =
          ((qs.foldl (fun acc q => (db.simple_match q).foldl bumpCount acc) []).filter
            (fun e => e.2 == qs.length)).map (·.1) := by
        simp [Database.simple_match]
      rw [h] at hmem
      have h2 : d ∈ keysOf
          ((qs.foldl (fun acc q => (db.simple_match q).foldl bumpCount acc) []).filter
            (fun e => e.2 == qs.length)) := hmem
      have h3 := mem_keysOf_filter h2
      rcases (mem_count_fold db qs [] d).mp h3 with h4 | ⟨q, hq, hdq⟩
      · simp [keysOf] at h4
      · have hlt : qweight q < qweight (.And qs) := by
          have := qweight_lt_of_mem hq
          simpa [qweight] using this
        exact ih q hlt d hdq
  | Filter q f =>
      intro d hmem
      rw [simple_match_filter_eq] at hmem
      have hlt : qweight (.And [q, f]) < qweight (.Filter q f) := by
        simp [qweight, qweightList]
        omega
      exact ih _ hlt d hmem
  | Exclude q f =>
      intro d hmem
      exact ih q (by simp [qweight]; omega) d
        ((mem_simple_match_exclude db q f d).mp hmem).1
  | Boost q b =>
      intro d hmem
      rw [simple_match_boost_eq] at hmem
      exact ih q (by simp [qweight]) d hmem

/-- Set semantics of the smart constructors exclude and filter applied with
a MatchAll first argument, jointly by strong induction on the size of the
second argument. -/
theorem sm_smartnot_aux (db : Database) (hwf : DbWF db) :
    ∀ (n : Nat) (q : Query), sizeOf q < n → ∀ d,
      (d ∈ db.simple_match (Query.exclude .MatchAll q) ↔
        d ∈ db.simple_match .MatchAll ∧ d ∉ db.simple_match q) ∧
      (d ∈ db.simple_match (Query.filter .MatchAll q) ↔
        d ∈ db.simple_match .MatchAll ∧ d ∈ db.simple_match q) := by
  intro n
  induction n with
  | zero => exact fun q hq d => absurd hq (Nat.not_lt_zero _)
  | succ n ihn =>
      intro q hq d
      have hMN : db.simple_match .MatchNone = [] := by simp [Database.simple_match]
      cases q with
      | MatchAll =>
          constructor
          · show d ∈ db.simple_match .MatchNone ↔
              d ∈ db.simple_match .MatchAll ∧ d ∉ db.simple_match .MatchAll
            rw [hMN]
            simp
          · show d ∈ db.simple_match .MatchAll ↔
              d ∈ db.simple_match .MatchAll ∧ d ∈ db.simple_match .MatchAll
            simp
      | MatchNone =>
          constructor
          · show d ∈ db.simple_match .MatchAll ↔
              d ∈ db.simple_match .MatchAll ∧ d ∉ db.simple_match .MatchNone
            rw [hMN]
            simp
          · show d ∈ db.simple_match .MatchNone ↔
              d ∈ db.simple_match .MatchAll ∧ d ∈ db.simple_match .MatchNone
            rw [hMN]
            simp
      | Filter q1 f =>
          cases q1
          case MatchAll =>
              have hf : sizeOf f < n := by
                simp at hq
                omega
              constructor
              · show d ∈ db.simple_match (Query.exclude .MatchAll f) ↔
                  d ∈ db.simple_match .MatchAll ∧
                    d ∉ db.simple_match (.Filter .MatchAll f)
                rw [(ihn f hf d).1, mem_sm_filter_node db hwf .MatchAll f d]
                tauto
              · show d ∈ db.simple_match (Query.filter .MatchAll f) ↔
                  d ∈ db.simple_match .MatchAll ∧
                    d ∈ db.simple_match (.Filter .MatchAll f)
                rw [(ihn f hf d).2, mem_sm_filter_node db hwf .MatchAll f d]
                tauto
          all_goals exact ⟨mem_simple_match_exclude db .MatchAll _ d,
            mem_sm_filter_node db hwf .MatchAll _ d⟩
      | Exclude q1 f =>
          cases q1
          case MatchAll =>
              have hf : sizeOf f < n := by
                simp at hq
                omega
              constructor
              · show d ∈ db.simple_match (Query.filter .MatchAll f) ↔
                  d ∈ db.simple_match .MatchAll ∧
                    d ∉ db.simple_match (.Exclude .MatchAll f)
                rw [(ihn f hf d).2, mem_simple_match_exclude db .MatchAll f d]
                tauto
              · show d ∈ db.simple_match (Query.exclude .MatchAll f) ↔
                  d ∈ db.simple_match .MatchAll ∧
                    d ∈ db.simple_match (.Exclude .MatchAll f)
                rw [(ihn f hf d).1, mem_simple_match_exclude db .MatchAll f d]
                tauto
          all_goals exact ⟨mem_simple_match_exclude db .MatchAll _ d,
            mem_sm_filter_node db hwf .MatchAll _ d⟩
      | Term a b =>
          exact ⟨mem_simple_match_exclude db .MatchAll _ d,
            mem_sm_filter_node db hwf .MatchAll _ d⟩
      | Phrase a ts =>
          exact ⟨mem_simple_match_exclude db .MatchAll _ d,
            mem_sm_filter_node db hwf .MatchAll _ d⟩
      | Or qs =>
          exact ⟨mem_simple_match_exclude db .MatchAll _ d,
            mem_sm_filter_node db hwf .MatchAll _ d⟩
      | And qs =>
          exact ⟨mem_simple_match_exclude db .MatchAll _ d,
            mem_sm_filter_node db hwf .MatchAll _ d⟩
      | Boost q1 b =>
          exact ⟨mem_simple_match_exclude db .MatchAll _ d,
            mem_sm_filter_node db hwf .MatchAll _ d⟩

/-- Set semantics of the smart not: complement against MatchAll. -/
theorem mem_sm_smart_not (db : Database) (hwf : DbWF db) (q : Query) (d : Nat) :
    d ∈ db.simple_match (Query.not q) ↔
      d ∈ db.simple_match .MatchAll ∧ d ∉ db.simple_match q :=
  (sm_smartnot_aux db hwf (sizeOf q + 1) q (Nat.lt_succ_self _) d).1

/-! ## Simplifier idempotence on MatchAll-free queries -/

/-- maFreeList is the universal closure of maFree. -/
theorem maFreeList_iff : ∀ qs, maFreeList qs = true ↔ ∀ q ∈ qs, maFree q = true := by
  intro qs
  induction qs with
  | nil => simp [maFreeList]
  | cons q qs ih => simp [maFreeList, ih]

/-- nfList is the universal closure of nfB. -/
theorem nfList_iff : ∀ qs, nfList qs = true ↔ ∀ q ∈ qs, nfB q = true := by
  intro qs
  induction qs with
  | nil => simp [nfList]
  | cons q qs ih => simp [nfList, ih]

/-- Unfolded normal form condition of an Or node. -/
theorem nfB_or_iff (qs : List Query) :
    nfB (.Or qs) = true ↔
      2 ≤ qs.length ∧ (∀ q ∈ qs, orChildOk q = true) ∧ ∀ q ∈ qs, nfB q = true := by
  rw [show nfB (.Or qs) = (decide (2 ≤ qs.length) && qs.all orChildOk && nfList qs)
    from rfl]
  simp [List.all_eq_true, nfList_iff, and_assoc]

/-- Unfolded normal form condition of an And node. -/
theorem nfB_and_iff (qs : List Query) :
    nfB (.And qs) = true ↔
      2 ≤ qs.length ∧ (∀ q ∈ qs, andChildOk q = true) ∧ ∀ q ∈ qs, nfB q = true := by
  rw [show nfB (.And qs) = (decide (2 ≤ qs.length) && qs.all andChildOk && nfList qs)
    from rfl]
  simp [List.all_eq_true, nfList_iff, and_assoc]

/-- A MatchAll-free query is not MatchAll. -/
theorem maFree_ne_matchall (b : Query) (h : maFree b = true) : b ≠ .MatchAll := by
  rintro rfl
  simp [maFree] at h

/-- A MatchAll-free query is not a filter on MatchAll. -/
theorem maFree_ne_filter_ma (b : Query) (h : maFree b = true) :
    ∀ g, b ≠ .Filter .MatchAll g := by
  rintro g rfl
  rw [show maFree (.Filter .MatchAll g) = (maFree .MatchAll && maFree g) from rfl] at h
  simp [maFree] at h

/-- A MatchAll-free query is not an exclude on MatchAll. -/
theorem maFree_ne_exclude_ma (b : Query) (h : maFree b = true) :
    ∀ g, b ≠ .Exclude .MatchAll g := by
  rintro g rfl
  rw [show maFree (.Exclude .MatchAll g) = (maFree .MatchAll && maFree g) from rfl] at h
  simp [maFree] at h

/-- The filter smart constructor short-circuits a MatchNone subject. -/
theorem filter_matchnone_left (f : Query) : Query.filter .MatchNone f = .MatchNone := by
  cases f
  case Filter q1 g => cases q1 <;> rfl
  case Exclude q1 g => cases q1 <;> rfl
  all_goals rfl

/-- The filter smart constructor short-circuits a MatchNone filter. -/
theorem filter_matchnone_right (q : Query) (hq : q ≠ .MatchNone) :
    Query.filter q .MatchNone = .MatchNone := by
  cases q
  case MatchNone => exact absurd rfl hq
  all_goals rfl

/-- The exclude smart constructor short-circuits a MatchNone subject. -/
theorem exclude_matchnone_left (f : Query) :
    Query.exclude .MatchNone f = .MatchNone := by
  cases f
  case Filter q1 g => cases q1 <;> rfl
  case Exclude q1 g => cases q1 <;> rfl
  all_goals rfl

/-- The exclude smart constructor drops a MatchNone filter. -/
theorem exclude_matchnone_right (q : Query) (hq : q ≠ .MatchNone) :
    Query.exclude q .MatchNone = q := by
  cases q
  case MatchNone => exact absurd rfl hq
  all_goals rfl

/-- The filter smart constructor builds a Filter node outside its rewrite
shapes. -/
theorem filter_default (q f : Query) (hq : q ≠ .MatchNone) (hfa : f ≠ .MatchAll)
    (hfn : f ≠ .MatchNone) (hff : ∀ g, f ≠ .Filter .MatchAll g)
    (hfe : ∀ g, f ≠ .Exclude .MatchAll g) : Query.filter q f = .Filter q f := by
  cases q
  case MatchNone => exact absurd rfl hq
  all_goals
    cases f
    case MatchAll => exact absurd rfl hfa
    case MatchNone => exact absurd rfl hfn
    case Filter q1 g =>
      cases q1
      case MatchAll => exact absurd rfl (hff g)
      all_goals rfl
    case Exclude q1 g =>
      cases q1
      case MatchAll => exact absurd rfl (hfe g)
      all_goals rfl
    all_goals rfl

/-- The exclude smart constructor builds an Exclude node outside its
rewrite shapes. -/
theorem exclude_default (q f : Query) (hq : q ≠ .MatchNone) (hfa : f ≠ .MatchAll)
    (hfn : f ≠ .MatchNone) (hff : ∀ g, f ≠ .Filter .MatchAll g)
    (hfe : ∀ g, f ≠ .Exclude .MatchAll g) : Query.exclude q f = .Exclude q f := by
  cases q
  case MatchNone => exact absurd rfl hq
  all_goals
    cases f
    case MatchAll => exact absurd rfl hfa
    case MatchNone => exact absurd rfl hfn
    case Filter q1 g =>
      cases q1
      case MatchAll => exact absurd rfl (hff g)
      all_goals rfl
    case Exclude q1 g =>
      cases q1
      case MatchAll => exact absurd rfl (hfe g)
      all_goals rfl
    all_goals rfl

/-- Case analysis of one or-loop step on a MatchAll-free child. -/
theorem Query.orStep_cases (acc : List Query × Bool) (q : Query) (hma : maFree q = true) :
    (q = .MatchNone ∧ Query.orStep acc q = acc) ∨
    (∃ qs, q = .Or qs ∧ Query.orStep acc q = (acc.1 ++ qs, acc.2)) ∨
    (orChildOk q = true ∧ Query.orStep acc q = (acc.1 ++ [q], acc.2)) := by
  cases q with
  | MatchAll => simp [maFree] at hma
  | MatchNone => exact Or.inl ⟨rfl, rfl⟩
  | Or qs => exact Or.inr (Or.inl ⟨qs, rfl, rfl⟩)
  | Term a b => exact Or.inr (Or.inr ⟨rfl, rfl⟩)
  | Phrase a ts => exact Or.inr (Or.inr ⟨rfl, rfl⟩)
  | And qs => exact Or.inr (Or.inr ⟨rfl, rfl⟩)
  | Filter a b => exact Or.inr (Or.inr ⟨rfl, rfl⟩)
  | Exclude a b => exact Or.inr (Or.inr ⟨rfl, rfl⟩)
  | Boost a b => exact Or.inr (Or.inr ⟨rfl, rfl⟩)

/-- The or loop keeps its flag on MatchAll-free input and accumulates only
simplified pass-through children. -/
theorem foldl_orStep_ok :
    ∀ (l : List Query) (acc : List Query × Bool),
      (∀ q ∈ l, maFree q = true ∧ nfB q = true) →
      (l.foldl Query.orStep acc).2 = acc.2 ∧
      ∀ r ∈ (l.foldl Query.orStep acc).1, r ∈ acc.1 ∨
        (maFree r = true ∧ nfB r = true ∧ orChildOk r = true) := by
  intro l
  induction l with
  | nil => exact fun acc _ => ⟨rfl, fun r hr => Or.inl hr⟩
  | cons q l ih =>
      intro acc h
      have hq := h q (by simp)
      have hrest : ∀ r ∈ l, maFree r = true ∧ nfB r = true :=
        fun r hr => h r (by simp [hr])
      rw [List.foldl_cons]
      rcases Query.orStep_cases acc q hq.1 with ⟨-, hstep⟩ | ⟨qs, rfl, hstep⟩ | ⟨hok, hstep⟩
      · rw [hstep]
        exact ih acc hrest
      · rw [hstep]
        have h2 := ih (acc.1 ++ qs, acc.2) hrest
        refine ⟨h2.1, ?_⟩
        intro r hr
        rcases h2.2 r hr with hmem | hok2
        · rcases List.mem_append.mp hmem with h3 | h3
          · exact Or.inl h3
          · right
            have hmf : maFree r = true := by
              have hq1 : maFreeList qs = true := hq.1
              exact (maFreeList_iff qs).mp hq1 r h3
            obtain ⟨-, hcok, hnf⟩ := (nfB_or_iff qs).mp hq.2
            exact ⟨hmf, hnf r h3, hcok r h3⟩
        · exact Or.inr hok2
      · rw [hstep]
        have h2 := ih (acc.1 ++ [q], acc.2) hrest
        refine ⟨h2.1, ?_⟩
        intro r hr
        rcases h2.2 r hr with hmem | hok2
        · rcases List.mem_append.mp hmem with h3 | h3
          · exact Or.inl h3
          · right
            have hrq : r = q := by simpa using h3
            subst hrq
            exact ⟨hq.1, hq.2, hok⟩
        · exact Or.inr hok2

/-- The or loop on pass-through children is a plain append. -/
theorem orFold_id :
    ∀ (l : List Query) (acc : List Query × Bool),
      (∀ q ∈ l, orChildOk q = true) → l.foldl Query.orStep acc = (acc.1 ++ l, acc.2) := by
  intro l
  induction l with
  | nil => intro acc _; simp
  | cons q l ih =>
      intro acc h
      have hq := h q (by simp)
      rw [List.foldl_cons]
      have hstep : Query.orStep acc q = (acc.1 ++ [q], acc.2) := by
        cases q
        case Or qs => simp [orChildOk] at hq
        case MatchNone => simp [orChildOk] at hq
        case MatchAll => simp [orChildOk] at hq
        all_goals rfl
      rw [hstep, ih _ (fun r hr => h r (by simp [hr]))]
      simp

/-- Case analysis of one and-loop step on a MatchAll-free child. -/
theorem andLoop_cons_cases (q : Query) (rest : List Query) (acc : List Query × Bool)
    (hma : maFree q = true) :
    (q = .MatchNone ∧ Query.andLoop (q :: rest) acc = none) ∨
    (∃ qs, q = .And qs ∧
      Query.andLoop (q :: rest) acc = Query.andLoop rest (acc.1 ++ qs, acc.2)) ∨
    (andChildOk q = true ∧
      Query.andLoop (q :: rest) acc = Query.andLoop rest (acc.1 ++ [q], acc.2)) := by
  cases q with
  | MatchAll => simp [maFree] at hma
  | MatchNone => exact Or.inl ⟨rfl, rfl⟩
  | And qs => exact Or.inr (Or.inl ⟨qs, rfl, rfl⟩)
  | Term a b => exact Or.inr (Or.inr ⟨rfl, rfl⟩)
  | Phrase a ts => exact Or.inr (Or.inr ⟨rfl, rfl⟩)
  | Or qs => exact Or.inr (Or.inr ⟨rfl, rfl⟩)
  | Filter a b => exact Or.inr (Or.inr ⟨rfl, rfl⟩)
  | Exclude a b => exact Or.inr (Or.inr ⟨rfl, rfl⟩)
  | Boost a b => exact Or.inr (Or.inr ⟨rfl, rfl⟩)

/-- The and loop on MatchAll-free input either fails on a MatchNone or
keeps its flag, accumulating only pass-through children. -/
theorem andLoop_ok :
    ∀ (l : List Query) (acc : List Query × Bool),
      (∀ q ∈ l, maFree q = true ∧ nfB q = true) →
      Query.andLoop l acc = none ∨
      ∃ rl, Query.andLoop l acc = some (rl, acc.2) ∧
        ∀ r ∈ rl, r ∈ acc.1 ∨
          (maFree r = true ∧ nfB r = true ∧ andChildOk r = true) := by
  intro l
  induction l with
  | nil =>
      intro acc _
      exact Or.inr ⟨acc.1, rfl, fun r hr => Or.inl hr⟩
  | cons q l ih =>
      intro acc h
      have hq := h q (by simp)
      have hrest : ∀ r ∈ l, maFree r = true ∧ nfB r = true :=
        fun r hr => h r (by simp [hr])
      rcases andLoop_cons_cases q l acc hq.1 with
        ⟨-, hstep⟩ | ⟨qs, rfl, hstep⟩ | ⟨hok, hstep⟩
      · exact Or.inl hstep
      · rw [hstep]
        rcases ih (acc.1 ++ qs, acc.2) hrest with hn | ⟨rl, heq, helems⟩
        · exact Or.inl hn
        · refine Or.inr ⟨rl, heq, ?_⟩
          intro r hr
          rcases helems r hr with hmem | hok2
          · rcases List.mem_append.mp hmem with h3 | h3
            · exact Or.inl h3
            · right
              have hmf : maFree r = true := by
                have hq1 : maFreeList qs = true := hq.1
                exact (maFreeList_iff qs).mp hq1 r h3
              obtain ⟨-, hcok, hnf⟩ := (nfB_and_iff qs).mp hq.2
              exact ⟨hmf, hnf r h3, hcok r h3⟩
          · exact Or.inr hok2
      · rw [hstep]
        rcases ih (acc.1 ++ [q], acc.2) hrest with hn | ⟨rl, heq, helems⟩
        · exact Or.inl hn
        · refine Or.inr ⟨rl, heq, ?_⟩
          intro r hr
          rcases helems r hr with hmem | hok2
          · rcases List.mem_append.mp hmem with h3 | h3
            · exact Or.inl h3
            · right
              have hrq : r = q := by simpa using h3
              subst hrq
              exact ⟨hq.1, hq.2, hok⟩
          · exact Or.inr hok2

/-- The and loop on pass-through children is a plain append. -/
theorem andLoop_id :
    ∀ (l : List Query) (acc : List Query × Bool),
      (∀ q ∈ l, andChildOk q = true) →
      Query.andLoop l acc = some (acc.1 ++ l, acc.2) := by
  intro l
  induction l with
  | nil => intro acc _; simp [Query.andLoop]
  | cons q l ih =>
      intro acc h
      have hq := h q (by simp)
      have hstep : Query.andLoop (q :: l) acc = Query.andLoop l (acc.1 ++ [q], acc.2) := by
        cases q
        case And qs => simp [andChildOk] at hq
        case MatchNone => simp [andChildOk] at hq
        case MatchAll => simp [andChildOk] at hq
        all_goals rfl
      rw [hstep, ih _ (fun r hr => h r (by simp [hr]))]
      simp

/-- The or smart constructor preserves MatchAll-freeness and produces a
normal form from MatchAll-free normal children. -/
theorem or_nf (l : List Query) (h : ∀ q ∈ l, maFree q = true ∧ nfB q = true) :
    maFree (Query.or l) = true ∧ nfB (Query.or l) = true := by
  rcases hflag : l.foldl Query.orStep ([], false) with ⟨rl, flag⟩
  have h2 := foldl_orStep_ok l ([], false) h
  rw [hflag] at h2
  have hf : flag = false := h2.1
  subst hf
  have helems : ∀ r ∈ rl, maFree r = true ∧ nfB r = true ∧ orChildOk r = true := by
    intro r hr
    rcases h2.2 r hr with hmem | hok
    · simp at hmem
    · exact hok
  rcases rl with _ | ⟨a, _ | ⟨b, rl3⟩⟩
  · have hor : Query.or l = .MatchNone := by
      rw [show Query.or l = (fun acc : List Query × Bool =>
          match (if acc.2 then acc.1 ++ [Query.MatchAll] else acc.1) with
          | [] => Query.MatchNone
          | [q] => q
          | processed => Query.Or processed) (l.foldl Query.orStep ([], false))
        from rfl, hflag]
      rfl
    rw [hor]
    exact ⟨rfl, rfl⟩
  · have hor : Query.or l = a := by
      rw [show Query.or l = (fun acc : List Query × Bool =>
          match (if acc.2 then acc.1 ++ [Query.MatchAll] else acc.1) with
          | [] => Query.MatchNone
          | [q] => q
          | processed => Query.Or processed) (l.foldl Query.orStep ([], false))
        from rfl, hflag]
      rfl
    rw [hor]
    have ha := helems a (by simp)
    exact ⟨ha.1, ha.2.1⟩
  · have hor : Query.or l = .Or (a :: b :: rl3) := by
      rw [show Query.or l = (fun acc : List Query × Bool =>
          match (if acc.2 then acc.1 ++ [Query.MatchAll] else acc.1) with
          | [] => Query.MatchNone
          | [q] => q
          | processed => Query.Or processed) (l.foldl Query.orStep ([], false))
        from rfl, hflag]
      rfl
    rw [hor]
    constructor
    · rw [show maFree (.Or (a :: b :: rl3)) = maFreeList (a :: b :: rl3) from rfl,
        maFreeList_iff]
      exact fun q hq => (helems q hq).1
    · rw [nfB_or_iff]
      exact ⟨by simp, fun q hq => (helems q hq).2.2, fun q hq => (helems q hq).2.1⟩

/-- The and smart constructor preserves MatchAll-freeness and produces a
normal form from MatchAll-free normal children. -/
theorem and_nf (l : List Query) (h : ∀ q ∈ l, maFree q = true ∧ nfB q = true) :
    maFree (Query.and l) = true ∧ nfB (Query.and l) = true := by
  have hdef : Query.and l = (match Query.andLoop l ([], false) with
      | none => Query.MatchNone
      | some acc =>
          match acc.1 with
          | [] => if acc.2 then Query.MatchAll else Query.MatchNone
          | [q] => q
          | processed => Query.And processed) := rfl
  rcases andLoop_ok l ([], false) h with hn | ⟨rl, heq, helems0⟩
  · rw [hdef, hn]
    exact ⟨rfl, rfl⟩
  · have helems : ∀ r ∈ rl, maFree r = true ∧ nfB r = true ∧ andChildOk r = true := by
      intro r hr
      rcases helems0 r hr with hmem | hok
      · simp at hmem
      · exact hok
    rcases rl with _ | ⟨a, _ | ⟨b, rl3⟩⟩
    · rw [hdef, heq]
      exact ⟨rfl, rfl⟩
    · have ha := helems a (by simp)
      rw [hdef, heq]
      exact ⟨ha.1, ha.2.1⟩
    · rw [hdef, heq]
      show maFree (.And (a :: b :: rl3)) = true ∧ nfB (.And (a :: b :: rl3)) = true
      constructor
      · rw [show maFree (.And (a :: b :: rl3)) = maFreeList (a :: b :: rl3) from rfl,
          maFreeList_iff]
        exact fun q hq => (helems q hq).1
      · rw [nfB_and_iff]
        exact ⟨by simp, fun q hq => (helems q hq).2.2, fun q hq => (helems q hq).2.1⟩

/-- The filter smart constructor preserves MatchAll-freeness and normal
form. -/
theorem filter_nf (a b : Query) (ha : maFree a = true ∧ nfB a = true)
    (hb : maFree b = true ∧ nfB b = true) :
    maFree (Query.filter a b) = true ∧ nfB (Query.filter a b) = true := by
  by_cases han : a = .MatchNone
  · subst han
    rw [filter_matchnone_left]
    exact ⟨rfl, rfl⟩
  · by_cases hbn : b = .MatchNone
    · subst hbn
      rw [filter_matchnone_right a han]
      exact ⟨rfl, rfl⟩
    · rw [filter_default a b han (maFree_ne_matchall b hb.1) hbn
        (maFree_ne_filter_ma b hb.1) (maFree_ne_exclude_ma b hb.1)]
      constructor
      · rw [show maFree (.Filter a b) = (maFree a && maFree b) from rfl]
        simp [ha.1, hb.1]
      · rw [show nfB (.Filter a b) =
          (nfB a && nfB b && !(a == .MatchNone) && !(b == .MatchNone)) from rfl]
        simp [ha.2, hb.2, han, hbn]

/-- The exclude smart constructor preserves MatchAll-freeness and normal
form. -/
theorem exclude_nf (a b : Query) (ha : maFree a = true ∧ nfB a = true)
    (hb : maFree b = true ∧ nfB b = true) :
    maFree (Query.exclude a b) = true ∧ nfB (Query.exclude a b) = true := by
  by_cases han : a = .MatchNone
  · subst han
    rw [exclude_matchnone_left]
    exact ⟨rfl, rfl⟩
  · by_cases hbn : b = .MatchNone
    · subst hbn
      rw [exclude_matchnone_right a han]
      exact ⟨ha.1, ha.2⟩
    · rw [exclude_default a b han (maFree_ne_matchall b hb.1) hbn
        (maFree_ne_filter_ma b hb.1) (maFree_ne_exclude_ma b hb.1)]
      constructor
      · rw [show maFree (.Exclude a b) = (maFree a && maFree b) from rfl]
        simp [ha.1, hb.1]
      · rw [show nfB (.Exclude a b) =
          (nfB a && nfB b && !(a == .MatchNone) && !(b == .MatchNone)) from rfl]
        simp [ha.2, hb.2, han, hbn]

/-- simplify preserves MatchAll-freeness and normalises. -/
theorem simplify_preserves :
    ∀ q, maFree q = true → maFree (simplify q) = true ∧ nfB (simplify q) = true := by
  intro q
  induction q using Query.recAll with
  | hma => intro h; simp [maFree] at h
  | hmn => intro _; exact ⟨rfl, rfl⟩
  | ht f t => intro _; exact ⟨rfl, rfl⟩
  | hp f ts => intro _; exact ⟨rfl, rfl⟩
  | hor qs ih =>
      intro h
      have hch : ∀ q ∈ qs, maFree q = true := (maFreeList_iff qs).mp h
      have hs : ∀ r ∈ simplifyList qs, maFree r = true ∧ nfB r = true := by
        rw [simplifyList_eq_map]
        intro r hr
        rcases List.mem_map.mp hr with ⟨q, hq, rfl⟩
        exact ih q hq (hch q hq)
      exact or_nf (simplifyList qs) hs
  | hand qs ih =>
      intro h
      have hch : ∀ q ∈ qs, maFree q = true := (maFreeList_iff qs).mp h
      have hs : ∀ r ∈ simplifyList qs, maFree r = true ∧ nfB r = true := by
        rw [simplifyList_eq_map]
        intro r hr
        rcases List.mem_map.mp hr with ⟨q, hq, rfl⟩
        exact ih q hq (hch q hq)
      exact and_nf (simplifyList qs) hs
  | hf q f ihq ihf =>
      intro h
      rw [show maFree (.Filter q f) = (maFree q && maFree f) from rfl] at h
      rw [Bool.and_eq_true] at h
      exact filter_nf _ _ (ihq h.1) (ihf h.2)
  | he q f ihq ihf =>
      intro h
      rw [show maFree (.Exclude q f) = (maFree q && maFree f) from rfl] at h
      rw [Bool.and_eq_true] at h
      exact exclude_nf _ _ (ihq h.1) (ihf h.2)
  | hb q b ihq =>
      intro h
      have hq := ihq h
      exact ⟨hq.1, hq.2⟩

/-- simplify is the identity on MatchAll-free normal forms. -/
theorem simplify_fix : ∀ q, maFree q = true → nfB q = true → simplify q = q := by
  intro q
  induction q using Query.recAll with
  | hma => intro h _; simp [maFree] at h
  | hmn => intro _ _; rfl
  | ht f t => intro _ _; rfl
  | hp f ts => intro _ _; rfl
  | hor qs ih =>
      intro hm hn
      have hch := (maFreeList_iff qs).mp hm
      obtain ⟨hlen, hok, hnf⟩ := (nfB_or_iff qs).mp hn
      have hmap : simplifyList qs = qs := by
        rw [simplifyList_eq_map]
        calc qs.map simplify
            = qs.map id := List.map_congr_left (fun q hq => ih q hq (hch q hq) (hnf q hq))
          _ = qs := List.map_id qs
      show Query.or (simplifyList qs) = .Or qs
      rw [hmap]
      rcases qs with _ | ⟨a, _ | ⟨b, rest⟩⟩
      · simp at hlen
      · simp at hlen
      · have hfold := orFold_id (a :: b :: rest) ([], false) (fun q hq => hok q hq)
        rw [show Query.or (a :: b :: rest) = (fun acc : List Query × Bool =>
            match (if acc.2 then acc.1 ++ [Query.MatchAll] else acc.1) with
            | [] => Query.MatchNone
            | [q] => q
            | processed => Query.Or processed)
          ((a :: b :: rest).foldl Query.orStep ([], false)) from rfl, hfold]
        rfl
  | hand qs ih =>
      intro hm hn
      have hch := (maFreeList_iff qs).mp hm
      obtain ⟨hlen, hok, hnf⟩ := (nfB_and_iff qs).mp hn
      have hmap : simplifyList qs = qs := by
        rw [simplifyList_eq_map]
        calc qs.map simplify
            = qs.map id := List.map_congr_left (fun q hq => ih q hq (hch q hq) (hnf q hq))
          _ = qs := List.map_id qs
      show Query.and (simplifyList qs) = .And qs
      rw [hmap]
      rcases qs with _ | ⟨a, _ | ⟨b, rest⟩⟩
      · simp at hlen
      · simp at hlen
      · have hfold := andLoop_id (a :: b :: rest) ([], false) (fun q hq => hok q hq)
        rw [show Query.and (a :: b :: rest) = (match
            Query.andLoop (a :: b :: rest) ([], false) with
          | none => Query.MatchNone
          | some acc =>
              match acc.1 with
              | [] => if acc.2 then Query.MatchAll else Query.MatchNone
              | [q] => q
              | processed => Query.And processed) from rfl, hfold]
        rfl
  | hf q f ihq ihf =>
      intro hm hn
      rw [show maFree (.Filter q f) = (maFree q && maFree f) from rfl,
        Bool.and_eq_true] at hm
      rw [show nfB (.Filter q f) =
        (nfB q && nfB f && !(q == .MatchNone) && !(f == .MatchNone)) from rfl] at hn
      simp only [Bool.and_eq_true, Bool.not_eq_true', beq_eq_false_iff_ne] at hn
      obtain ⟨⟨⟨hnq, hnf2⟩, hqmn⟩, hfmn⟩ := hn
      show Query.filter (simplify q) (simplify f) = .Filter q f
      rw [ihq hm.1 hnq, ihf hm.2 hnf2]
      exact filter_default q f hqmn (maFree_ne_matchall f hm.2) hfmn
        (maFree_ne_filter_ma f hm.2) (maFree_ne_exclude_ma f hm.2)
  | he q f ihq ihf =>
      intro hm hn
      rw [show maFree (.Exclude q f) = (maFree q && maFree f) from rfl,
        Bool.and_eq_true] at hm
      rw [show nfB (.Exclude q f) =
        (nfB q && nfB f && !(q == .MatchNone) && !(f == .MatchNone)) from rfl] at hn
      simp only [Bool.and_eq_true, Bool.not_eq_true', beq_eq_false_iff_ne] at hn
      obtain ⟨⟨⟨hnq, hnf2⟩, hqmn⟩, hfmn⟩ := hn
      show Query.exclude (simplify q) (simplify f) = .Exclude q f
      rw [ihq hm.1 hnq, ihf hm.2 hnf2]
      exact exclude_default q f hqmn (maFree_ne_matchall f hm.2) hfmn
        (maFree_ne_filter_ma f hm.2) (maFree_ne_exclude_ma f hm.2)
  | hb q b ihq =>
      intro hm hn
      show Query.boost (simplify q) b = .Boost q b
      rw [ihq hm hn]
      rfl

/-! ## Term interning and from_tokens -/

/-- Well-formedness of a term dictionary: distinct names, distinct ids, all
ids allocated below next_id. -/
def DictWF (dict : TermDictionary) : Prop :=
  (dict.terms.map (·.1)).Nodup ∧ (dict.terms.map (·.2)).Nodup ∧
    ∀ e ∈ dict.terms, e.2 < dict.next_id

/-- A successful lookup corresponds to an entry. -/
theorem lookup_mem_terms {dict : TermDictionary} {s : String} {k : Nat}
    (h : dict.lookup s = some k) : (s, k) ∈ dict.terms := by
  unfold TermDictionary.lookup at h
  rcases hf : dict.terms.find? (fun e => e.1 == s) with _ | e
  · rw [hf] at h
    simp at h
  · rw [hf] at h
    simp at h
    have hm := List.mem_of_find?_eq_some hf
    have he : e.1 = s := by
      have := List.find?_some hf
      simpa using this
    rcases e with ⟨e1, e2⟩
    simp at he h
    rw [← he, ← h]
    exact hm

/-- With distinct ids, lookup is injective on names. -/
theorem lookup_inj {dict : TermDictionary} (hw : DictWF dict) {s s' : String} {k : Nat}
    (h1 : dict.lookup s = some k) (h2 : dict.lookup s' = some k) : s = s' := by
  have m1 := lookup_mem_terms h1
  have m2 := lookup_mem_terms h2
  have := List.inj_on_of_nodup_map hw.2.1 m1 m2 rfl
  exact congrArg Prod.fst this

/-- Allocated ids are below next_id. -/
theorem lookup_lt {dict : TermDictionary} (hw : DictWF dict) {s : String} {k : Nat}
    (h : dict.lookup s = some k) : k < dict.next_id :=
  hw.2.2 (s, k) (lookup_mem_terms h)

/-- A failed lookup means no entry has the name. -/
theorem lookup_none_not_mem {dict : TermDictionary} {s : String}
    (h : dict.lookup s = none) : ∀ k, (s, k) ∉ dict.terms := by
  intro k hk
  unfold TermDictionary.lookup at h
  rcases hf : dict.terms.find? (fun e => e.1 == s) with _ | e
  · have := List.find?_eq_none.mp hf (s, k) hk
    simp at this
  · rw [hf] at h
    simp at h

/-- get_or_insert either returns an existing binding unchanged or appends a
fresh one. -/
theorem get_or_insert_cases (dict : TermDictionary) (s : String) :
    (∃ k, dict.lookup s = some k ∧ dict.get_or_insert s = (k, dict)) ∨
    (dict.lookup s = none ∧
      dict.get_or_insert s =
        (dict.next_id,
         ⟨dict.next_id + 1, dict.terms ++ [(s, dict.next_id)]⟩)) := by
  unfold TermDictionary.get_or_insert
  rcases h : dict.lookup s with _ | k
  · exact Or.inr ⟨rfl, rfl⟩
  · exact Or.inl ⟨k, rfl, rfl⟩

/-- Interning preserves dictionary well-formedness. -/
theorem get_or_insert_wf (dict : TermDictionary) (s : String) (hw : DictWF dict) :
    DictWF (dict.get_or_insert s).2 := by
  rcases get_or_insert_cases dict s with ⟨k, -, heq⟩ | ⟨hnone, heq⟩
  · rw [heq]
    exact hw
  · rw [heq]
    refine ⟨?_, ?_, ?_⟩
    · rw [List.map_append]
      rw [List.nodup_append]
      refine ⟨hw.1, by simp, ?_⟩
      intro x hx
      rcases List.mem_map.mp hx with ⟨e, he, rfl⟩
      simp only [List.map_cons, List.map_nil, List.mem_singleton]
      intro hes
      exact lookup_none_not_mem hnone e.2 (by rw [← hes]; exact he)
    · rw [List.map_append]
      rw [List.nodup_append]
      refine ⟨hw.2.1, by simp, ?_⟩
      intro x hx
      rcases List.mem_map.mp hx with ⟨e, he, rfl⟩
      simp only [List.map_cons, List.map_nil, List.mem_singleton]
      intro hes
      have := hw.2.2 e he
      omega
    · intro e he
      rcases List.mem_append.mp he with h2 | h2
      · have := hw.2.2 e h2
        simp only []
        omega
      · simp at h2
        simp [h2]

/-- Interning makes the name resolvable to the returned id. -/
theorem get_or_insert_lookup_self (dict : TermDictionary) (s : String) :
    (dict.get_or_insert s).2.lookup s = some (dict.get_or_insert s).1 := by
  rcases get_or_insert_cases dict s with ⟨k, hlook, heq⟩ | ⟨hnone, heq⟩
  · rw [heq]
    exact hlook
  · rw [heq]
    unfold TermDictionary.lookup at hnone ⊢
    rw [List.find?_append]
    rcases hf : dict.terms.find? (fun e => e.1 == s) with _ | e
    · rw [hf]
      simp
    · rw [hf] at hnone
      simp at hnone

/-- Interning preserves existing bindings. -/
theorem get_or_insert_lookup_mono (dict : TermDictionary) (s0 : String)
    {s : String} {k : Nat} (h : dict.lookup s = some k) :
    (dict.get_or_insert s0).2.lookup s = some k := by
  rcases get_or_insert_cases dict s0 with ⟨k2, -, heq⟩ | ⟨hnone, heq⟩
  · rw [heq]
    exact h
  · rw [heq]
    unfold TermDictionary.lookup at h ⊢
    rw [List.find?_append]
    rcases hf : dict.terms.find? (fun e => e.1 == s) with _ | e
    · rw [hf] at h
      simp at h
    · rw [hf] at h
      rw [hf]
      simp at h ⊢
      exact h

/-- One from_tokens loop iteration (the body of the fold in
TSVector::from_tokens). -/
def tokStep (acc : List (Nat × TSVectorTerm) × TermDictionary) (token : Token) :
    List (Nat × TSVectorTerm) × TermDictionary :=
  (pushToken acc.1 (acc.2.get_or_insert token.term).1 token.position token.weight,
   (acc.2.get_or_insert token.term).2)

/-- from_tokens as a tokStep fold followed by the weight rescale. -/
theorem from_tokens_eq (lg : ℚ → ℚ) (tokens : List Token) (dict : TermDictionary) :
    TSVector.from_tokens lg tokens dict =
      (⟨tokens.length,
        (tokens.foldl tokStep ([], dict)).1.map
          (fun e => (e.1, ⟨e.2.positions, lg (e.2.weight + 1) / (tokens.length : ℚ)⟩))⟩,
       (tokens.foldl tokStep ([], dict)).2) := rfl

/-- Value-mapping commutes with association lookup. -/
theorem lookupA_map_val {β γ : Type} (g : β → γ) (l : List (Nat × β)) (k : Nat) :
    lookupA (l.map (fun e => (e.1, g e.2))) k = (lookupA l k).map g := by
  induction l with
  | nil => rfl
  | cons e l ih =>
      rw [List.map_cons, lookupA_cons, lookupA_cons]
      by_cases h : e.1 = k
      · simp [h]
      · simp [h, ih]

/-- Invariant of the from_tokens fold: the dictionary stays well-formed and
monotone, accumulated term ids stay allocated, and the accumulated entry of
each resolvable name collects the positions and summed weights of its
tokens. -/
theorem foldl_tokStep_spec :
    ∀ (tokens : List Token) (terms : List (Nat × TSVectorTerm)) (dict : TermDictionary),
      DictWF dict →
      (∀ k, k ∈ keysOf terms → ∃ s, dict.lookup s = some k) →
      DictWF (tokens.foldl tokStep (terms, dict)).2 ∧
      (∀ s k, dict.lookup s = some k →
        (tokens.foldl tokStep (terms, dict)).2.lookup s = some k) ∧
      (∀ k, k ∈ keysOf (tokens.foldl tokStep (terms, dict)).1 →
        ∃ s, (tokens.foldl tokStep (terms, dict)).2.lookup s = some k) ∧
      (∀ s k, (tokens.foldl tokStep (terms, dict)).2.lookup s = some k →
        lookupA (tokens.foldl tokStep (terms, dict)).1 k =
          match lookupA terms k, tokens.filter (fun tok => tok.term == s) with
          | none, [] => none
          | none, l => some ⟨l.map (·.position), (l.map (·.weight)).sum⟩
          | some e, l =>
              some ⟨e.positions ++ l.map (·.position),
                e.weight + (l.map (·.weight)).sum⟩) := by
  intro tokens
  induction tokens with
  | nil =>
      intro terms dict hw halloc
      refine ⟨hw, fun s k h => h, halloc, ?_⟩
      intro s k hlook
      rcases h2 : lookupA terms k with _ | e
      · simp
        exact h2
      · simp
        rw [h2]
  | cons tok tokens ih =>
      intro terms dict hw halloc
      rw [List.foldl_cons]
      have hw2 : DictWF (dict.get_or_insert tok.term).2 :=
        get_or_insert_wf dict tok.term hw
      have hself := get_or_insert_lookup_self dict tok.term
      have hterms' : (tokStep (terms, dict) tok).1 =
          pushToken terms (dict.get_or_insert tok.term).1 tok.position tok.weight := rfl
      have hdict' : (tokStep (terms, dict) tok).2 = (dict.get_or_insert tok.term).2 := rfl
      have halloc2 : ∀ k, k ∈ keysOf (tokStep (terms, dict) tok).1 →
          ∃ s, (tokStep (terms, dict) tok).2.lookup s = some k := by
        intro k hk
        rw [hterms'] at hk
        rw [pushToken_eq_upsert] at hk
        rcases (mem_keysOf_upsert terms (dict.get_or_insert tok.term).1 _ _ k).mp hk
          with hk2 | hk2
        · rcases halloc k hk2 with ⟨s, hs⟩
          exact ⟨s, by rw [hdict']; exact get_or_insert_lookup_mono dict tok.term hs⟩
        · subst hk2
          exact ⟨tok.term, by rw [hdict']; exact hself⟩
      have ihres := ih (tokStep (terms, dict) tok).1 (tokStep (terms, dict) tok).2
        (by rw [hdict']; exact hw2) halloc2
      have hfold : tokens.foldl tokStep (tokStep (terms, dict) tok) =
          tokens.foldl tokStep
            ((tokStep (terms, dict) tok).1, (tokStep (terms, dict) tok).2) := rfl
      rw [hfold]
      refine ⟨ihres.1, ?_, ihres.2.2.1, ?_⟩
      · intro s k h
        exact ihres.2.1 s k (by rw [hdict']; exact get_or_insert_lookup_mono dict tok.term h)
      · intro s k hfin
        have hchar := ihres.2.2.2 s k hfin
        by_cases hs : tok.term = s
        · -- the processed token's own term
          have hid : k = (dict.get_or_insert tok.term).1 := by
            have h1 : (tokens.foldl tokStep
                ((tokStep (terms, dict) tok).1, (tokStep (terms, dict) tok).2)).2.lookup s =
                some (dict.get_or_insert tok.term).1 := by
              apply ihres.2.1
              rw [hdict', ← hs]
              exact hself
            rw [hfin] at h1
            exact Option.some_inj.mp h1
          subst hid
          have hfilter : (tok :: tokens).filter (fun t => t.term == s) =
              tok :: tokens.filter (fun t => t.term == s) := by
            rw [List.filter_cons]
            simp [hs]
          rw [hchar, hfilter]
          rw [hterms', pushToken_eq_upsert, lookupA_upsert, if_pos rfl]
          rcases h2 : lookupA terms ((dict.get_or_insert tok.term).1) with _ | e
          · rcases h3 : tokens.filter (fun t => t.term == s) with _ | ⟨t2, l2⟩
            · simp
            · simp
          · rcases h3 : tokens.filter (fun t => t.term == s) with _ | ⟨t2, l2⟩
            · simp [add_assoc]
            · simp [List.append_assoc, add_assoc]
        · -- a different term: the push does not touch its entry
          have hid : k ≠ (dict.get_or_insert tok.term).1 := by
            intro hk
            have h1 : (tokens.foldl tokStep
                ((tokStep (terms, dict) tok).1, (tokStep (terms, dict) tok).2)).2.lookup
                  tok.term = some (dict.get_or_insert tok.term).1 := by
              apply ihres.2.1
              rw [hdict']
              exact hself
            rw [← hk] at h1
            exact hs (lookup_inj ihres.1 h1 hfin)
          have hfilter : (tok :: tokens).filter (fun t => t.term == s) =
              tokens.filter (fun t => t.term == s) := by
            rw [List.filter_cons]
            simp [hs]
          rw [hchar, hfilter]
          rw [hterms', pushToken_eq_upsert, lookupA_upsert, if_neg hid]

/-! ## Index counters under ingestion -/

/-- One step of the field-build pass of DocumentSource::as_document. -/
def buildStep (lg : ℚ → ℚ) (data_dict : DataDictionary)
    (acc : List (Nat × TSVector) × List (Nat × List Nat) × TermDictionary)
    (e : String × List Token) :
    List (Nat × TSVector) × List (Nat × List Nat) × TermDictionary :=
  match data_dict.get_by_name e.1 with
  | some fc =>
      (insertAssoc acc.1 fc.1
        ((TSVector.from_tokens lg e.2 acc.2.2).1.boost
          (fc.2.boost / ((TSVector.from_tokens lg e.2 acc.2.2).1.length : ℚ))),
       if fc.2.copy_to ≠ [] then insertAssoc acc.2.1 fc.1 fc.2.copy_to else acc.2.1,
       (TSVector.from_tokens lg e.2 acc.2.2).2)
  | none => acc

/-- One step of the copy_to pass of DocumentSource::as_document. -/
def copyFold (fields : List (Nat × TSVector)) (e : Nat × List Nat) :
    List (Nat × TSVector) :=
  match fields.find? (fun f => f.1 == e.1) with
  | some src =>
      e.2.foldl
        (fun (fields : List (Nat × TSVector)) (dest : Nat) =>
          let destination := (((fields.find? (fun f => f.1 == dest)).map (·.2)).getD default)
          insertAssoc fields dest (destination.append src.2))
        fields
  | none => fields

/-- as_document as the build pass followed by the copy pass. -/
theorem as_document_eq (lg : ℚ → ℚ) (source : DocumentSource)
    (td : TermDictionary) (dd : DataDictionary) :
    source.as_document lg td dd =
      (⟨((source.fields.foldl (buildStep lg dd) ([], [], td)).2.1).foldl copyFold
          (source.fields.foldl (buildStep lg dd) ([], [], td)).1⟩,
       (source.fields.foldl (buildStep lg dd) ([], [], td)).2.2) := by
  unfold DocumentSource.as_document buildStep copyFold
  rfl

/-- One step of the per-field ingest fold of Database::insert_document. -/
def ingestStep (id : Nat) (fs : List (Nat × InvertedIndex)) (e : Nat × TSVector) :
    List (Nat × InvertedIndex) :=
  let field := (((fs.find? (fun f => f.1 == e.1)).map (·.2)).getD default)
  insertAssoc fs e.1 (field.insert_tsvector id e.2)

/-- insert_document in terms of as_document and the ingest fold. -/
theorem insert_document_eq (lg : ℚ → ℚ) (db : Database) (source : DocumentSource) :
    db.insert_document lg source =
      (db.next_document_id,
       { next_document_id := db.next_document_id + 1
         term_dictionary := (source.as_document lg db.term_dictionary db.data_dictionary).2
         data_dictionary := db.data_dictionary
         fields :=
           (source.as_document lg db.term_dictionary db.data_dictionary).1.fields.foldl
             (ingestStep db.next_document_id) db.fields
         docs :=
           insertAssoc db.docs db.next_document_id
             (source.as_document lg db.term_dictionary db.data_dictionary).1
         deleted_docs := db.deleted_docs }) := by
  unfold Database.insert_document ingestStep
  rfl

/-- Lookup after a HashMap-style insert. -/
theorem lookupA_insertAssoc {β : Type} (l : List (Nat × β)) (k : Nat) (v : β)
    (k' : Nat) :
    lookupA (insertAssoc l k v) k' = if k' = k then some v else lookupA l k' := by
  rw [insertAssoc_eq_upsert, lookupA_upsert]
  by_cases h : k' = k
  · rw [if_pos h, if_pos h]
    cases lookupA l k <;> rfl
  · rw [if_neg h, if_neg h]

/-- A HashMap-style insert with a fresh key is an append. -/
theorem insertAssoc_fresh {β : Type} (l : List (Nat × β)) (k : Nat) (v : β)
    (h : k ∉ keysOf l) : insertAssoc l k v = l ++ [(k, v)] := by
  unfold insertAssoc
  have hfind : (l.find? (fun e => e.1 == k)).isSome = false := by
    rcases h2 : (l.find? (fun e => e.1 == k)).isSome with _ | _
    · exact h2
    · exact absurd ((find?_isSome_iff_mem_keysOf l k).mp h2) h
  rw [hfind]
  simp

/-- HashMap-style insert preserves key distinctness. -/
theorem nodup_keysOf_insertAssoc {β : Type} (l : List (Nat × β)) (k : Nat) (v : β)
    (h : (keysOf l).Nodup) : (keysOf (insertAssoc l k v)).Nodup := by
  rw [insertAssoc_eq_upsert]
  exact nodup_keysOf_upsert l k _ _ h

/-- Keys present after a HashMap-style insert. -/
theorem mem_keysOf_insertAssoc {β : Type} (l : List (Nat × β)) (k : Nat) (v : β)
    (k' : Nat) : k' ∈ keysOf (insertAssoc l k v) ↔ k' ∈ keysOf l ∨ k' = k := by
  rw [insertAssoc_eq_upsert]
  exact mem_keysOf_upsert l k _ _ k'

/-- The build pass keeps field keys distinct. -/
theorem nodup_buildFold (lg : ℚ → ℚ) (dd : DataDictionary) :
    ∀ (l : List (String × List Token))
      (acc : List (Nat × TSVector) × List (Nat × List Nat) × TermDictionary),
      (keysOf acc.1).Nodup → (keysOf (l.foldl (buildStep lg dd) acc).1).Nodup := by
  intro l
  induction l with
  | nil => exact fun acc h => h
  | cons e l ih =>
      intro acc h
      rw [List.foldl_cons]
      apply ih
      unfold buildStep
      rcases dd.get_by_name e.1 with _ | fc
      · exact h
      · exact nodup_keysOf_insertAssoc _ _ _ h

/-- The copy pass keeps field keys distinct. -/
theorem nodup_copyFoldList :
    ∀ (cl : List (Nat × List Nat)) (fields : List (Nat × TSVector)),
      (keysOf fields).Nodup → (keysOf (cl.foldl copyFold fields)).Nodup := by
  intro cl
  induction cl with
  | nil => exact fun fields h => h
  | cons c cl ih =>
      intro fields h
      rw [List.foldl_cons]
      apply ih
      unfold copyFold
      rcases hf : fields.find? (fun f => f.1 == c.1) with _ | src
      · rw [hf]
        exact h
      · rw [hf]
        have hgen : ∀ (ds : List Nat) (l : List (Nat × TSVector)), (keysOf l).Nodup →
            (keysOf (ds.foldl
              (fun (fields : List (Nat × TSVector)) (dest : Nat) =>
                let destination :=
                  (((fields.find? (fun f => f.1 == dest)).map (·.2)).getD default)
                insertAssoc fields dest (destination.append src.2)) l)).Nodup := by
          intro ds
          induction ds with
          | nil => exact fun l h2 => h2
          | cons d ds ih2 =>
              intro l h2
              rw [List.foldl_cons]
              exact ih2 _ (nodup_keysOf_insertAssoc _ _ _ h2)
        exact hgen _ _ h

/-- The built document of a source has distinct field keys. -/
theorem as_document_nodup (lg : ℚ → ℚ) (source : DocumentSource)
    (td : TermDictionary) (dd : DataDictionary) :
    (keysOf (source.as_document lg td dd).1.fields).Nodup := by
  rw [as_document_eq]
  exact nodup_copyFoldList _ _ (nodup_buildFold lg dd source.fields ([], [], td)
    (by simp [keysOf]))

/-- Lookup characterisation of the ingest fold over built fields with
distinct keys: present vectors update (or create) their field's index,
other indexes are untouched. -/
theorem ingest_fold_lookup (id : Nat) :
    ∀ (bf : List (Nat × TSVector)) (fs : List (Nat × InvertedIndex)),
      (keysOf bf).Nodup →
      ∀ k, lookupA (bf.foldl (ingestStep id) fs) k =
        match lookupA fs k, lookupA bf k with
        | some idx, some v => some (idx.insert_tsvector id v)
        | some idx, none => some idx
        | none, some v => some ((default : InvertedIndex).insert_tsvector id v)
        | none, none => none := by
  intro bf
  induction bf with
  | nil =>
      intro fs _ k
      rw [List.foldl_nil]
      cases lookupA fs k <;> rfl
  | cons e bf ih =>
      intro fs hnd k
      rw [List.foldl_cons]
      have hnd2 : (keysOf bf).Nodup := (List.nodup_cons.mp hnd).2
      have hknot : e.1 ∉ keysOf bf := by
        have := (List.nodup_cons.mp hnd).1
        simpa [keysOf] using this
      have hstep : ingestStep id fs e =
          insertAssoc fs e.1 (((lookupA fs e.1).getD default).insert_tsvector id e.2) := rfl
      rw [hstep, ih _ hnd2 k]
      by_cases hk : k = e.1
      · subst hk
        have hbfk : lookupA bf e.1 = none := lookupA_eq_none_of_not_mem hknot
        rw [hbfk, lookupA_insertAssoc, if_pos rfl, lookupA_cons]
        rw [if_pos rfl]
        cases hfs : lookupA fs e.1 with
        | none => rfl
        | some idx => rfl
      · rw [lookupA_insertAssoc, if_neg hk, lookupA_cons, if_neg (fun h => hk h.symm)]

/-- The ingest fold only adds field keys. -/
theorem mem_keys_ingest_fold (id : Nat) (bf : List (Nat × TSVector))
    (fs : List (Nat × InvertedIndex)) (hnd : (keysOf bf).Nodup) (k : Nat) :
    k ∈ keysOf (bf.foldl (ingestStep id) fs) ↔ k ∈ keysOf fs ∨ k ∈ keysOf bf := by
  rw [← isSome_lookupA, ingest_fold_lookup id bf fs hnd k, ← isSome_lookupA,
    ← isSome_lookupA]
  cases lookupA fs k <;> cases lookupA bf k <;> simp

/-- The ingest fold keeps field keys distinct. -/
theorem nodup_keys_ingest_fold (id : Nat) :
    ∀ (bf : List (Nat × TSVector)) (fs : List (Nat × InvertedIndex)),
      (keysOf fs).Nodup → (keysOf (bf.foldl (ingestStep id) fs)).Nodup := by
  intro bf
  induction bf with
  | nil => exact fun fs h => h
  | cons e bf ih =>
      intro fs h
      rw [List.foldl_cons]
      apply ih
      have hstep : ingestStep id fs e =
          insertAssoc fs e.1 (((lookupA fs e.1).getD default).insert_tsvector id e.2) := rfl
      rw [hstep]
      exact nodup_keysOf_insertAssoc _ _ _ h

/-- Counter invariant maintained by ingestion: each field index counts the
documents that carry the field and sums the lengths of their vectors. -/
def CountersWF (db : Database) : Prop :=
  (keysOf db.fields).Nodup ∧
  (∀ k ∈ keysOf db.docs, k < db.next_document_id) ∧
  (∀ de ∈ db.docs, ∀ k ∈ keysOf de.2.fields, k ∈ keysOf db.fields) ∧
  ∀ e ∈ db.fields,
    e.2.total_documents =
      (db.docs.filter (fun de => (lookupA de.2.fields e.1).isSome)).length ∧
    e.2.total_terms =
      (db.docs.map (fun de => ((lookupA de.2.fields e.1).map (·.length)).getD 0)).sum

/-- Inserting a document preserves the counter invariant. -/
theorem countersWF_insert (lg : ℚ → ℚ) (db2 : Database) (source : DocumentSource)
    (ih : CountersWF db2) : CountersWF (db2.insert_document lg source).2 := by
  obtain ⟨hnd, hdocs, hsub, hcnt⟩ := ih
  have hbfnd : (keysOf (source.as_document lg db2.term_dictionary
      db2.data_dictionary).1.fields).Nodup := as_document_nodup lg source _ _
  have hid : db2.next_document_id ∉ keysOf db2.docs := by
    intro hmem
    have := hdocs _ hmem
    omega
  refine ⟨?_, ?_, ?_, ?_⟩
  · show (keysOf ((source.as_document lg db2.term_dictionary
        db2.data_dictionary).1.fields.foldl
        (ingestStep db2.next_document_id) db2.fields)).Nodup
    exact nodup_keys_ingest_fold _ _ _ hnd
  · show ∀ k ∈ keysOf (insertAssoc db2.docs db2.next_document_id
        (source.as_document lg db2.term_dictionary db2.data_dictionary).1),
        k < db2.next_document_id + 1
    intro k hk
    rw [insertAssoc_fresh _ _ _ hid, keysOf_append] at hk
    rcases List.mem_append.mp hk with h2 | h2
    · have := hdocs _ h2
      omega
    · simp [keysOf] at h2
      omega
  · show ∀ de ∈ insertAssoc db2.docs db2.next_document_id
        (source.as_document lg db2.term_dictionary db2.data_dictionary).1,
        ∀ k ∈ keysOf de.2.fields,
          k ∈ keysOf ((source.as_document lg db2.term_dictionary
            db2.data_dictionary).1.fields.foldl
            (ingestStep db2.next_document_id) db2.fields)
    intro de hde k hk
    rw [insertAssoc_fresh _ _ _ hid] at hde
    rw [mem_keys_ingest_fold _ _ _ hbfnd]
    rcases List.mem_append.mp hde with h2 | h2
    · exact Or.inl (hsub de h2 k hk)
    · right
      simp at h2
      rw [h2] at hk
      exact hk
  · show ∀ e ∈ (source.as_document lg db2.term_dictionary
        db2.data_dictionary).1.fields.foldl (ingestStep db2.next_document_id) db2.fields,
      e.2.total_documents =
        ((insertAssoc db2.docs db2.next_document_id
          (source.as_document lg db2.term_dictionary db2.data_dictionary).1).filter
          (fun de => (lookupA de.2.fields e.1).isSome)).length ∧
      e.2.total_terms =
        ((insertAssoc db2.docs db2.next_document_id
          (source.as_document lg db2.term_dictionary db2.data_dictionary).1).map
          (fun de => ((lookupA de.2.fields e.1).map (·.length)).getD 0)).sum
    intro e he
    have hnd' := nodup_keys_ingest_fold db2.next_document_id
      (source.as_document lg db2.term_dictionary db2.data_dictionary).1.fields
      db2.fields hnd
    have hlk : lookupA ((source.as_document lg db2.term_dictionary
        db2.data_dictionary).1.fields.foldl
        (ingestStep db2.next_document_id) db2.fields) e.1 = some e.2 :=
      (mem_iff_lookupA _ hnd' e.1 e.2).mp he
    rw [ingest_fold_lookup db2.next_document_id _ _ hbfnd e.1] at hlk
    rw [insertAssoc_fresh _ _ _ hid]
    rw [List.filter_append, List.length_append, List.map_append, List.sum_append]
    cases hfs : lookupA db2.fields e.1 with
    | some idx =>
        have hidx : (e.1, idx) ∈ db2.fields := (mem_iff_lookupA _ hnd e.1 idx).mpr hfs
        have hc := hcnt (e.1, idx) hidx
        have hc1 : idx.total_documents =
            (db2.docs.filter (fun de => (lookupA de.2.fields e.1).isSome)).length := hc.1
        have hc2 : idx.total_terms =
            (db2.docs.map
              (fun de => ((lookupA de.2.fields e.1).map (·.length)).getD 0)).sum := hc.2
        cases hbf : lookupA (source.as_document lg db2.term_dictionary
            db2.data_dictionary).1.fields e.1 with
        | some v =>
            rw [hfs, hbf] at hlk
            have he2 : e.2 = idx.insert_tsvector db2.next_document_id v :=
              (Option.some_inj.mp hlk).symm
            constructor
            · rw [he2]
              show idx.total_documents + 1 = _
              rw [hc1]
              have hone : ([((db2.next_document_id,
                  (source.as_document lg db2.term_dictionary
                    db2.data_dictionary).1) : Nat × Document)].filter
                  (fun de => (lookupA de.2.fields e.1).isSome)).length = 1 := by
                simp [hbf]
              rw [hone]
            · rw [he2]
              show idx.total_terms + v.length = _
              rw [hc2]
              have hone : ([((db2.next_document_id,
                  (source.as_document lg db2.term_dictionary
                    db2.data_dictionary).1) : Nat × Document)].map
                  (fun de => ((lookupA de.2.fields e.1).map (·.length)).getD 0)).sum =
                  v.length := by
                simp [hbf]
              rw [hone]
        | none =>
            rw [hfs, hbf] at hlk
            have he2 : e.2 = idx := (Option.some_inj.mp hlk).symm
            constructor
            · rw [he2, hc1]
              have hzero : ([((db2.next_document_id,
                  (source.as_document lg db2.term_dictionary
                    db2.data_dictionary).1) : Nat × Document)].filter
                  (fun de => (lookupA de.2.fields e.1).isSome)).length = 0 := by
                simp [hbf]
              rw [hzero]
              omega
            · rw [he2, hc2]
              have hzero : ([((db2.next_document_id,
                  (source.as_document lg db2.term_dictionary
                    db2.data_dictionary).1) : Nat × Document)].map
                  (fun de => ((lookupA de.2.fields e.1).map (·.length)).getD 0)).sum =
                  0 := by
                simp [hbf]
              rw [hzero]
              omega
    | none =>
        have hnotkey : e.1 ∉ keysOf db2.fields := by
          intro hmem
          rw [← isSome_lookupA, hfs] at hmem
          simp at hmem
        have holdzero : ∀ de ∈ db2.docs, lookupA de.2.fields e.1 = none := by
          intro de hde
          apply lookupA_eq_none_of_not_mem
          intro hmem
          exact hnotkey (hsub de hde e.1 hmem)
        have hfilter0 : (db2.docs.filter
            (fun de => (lookupA de.2.fields e.1).isSome)).length = 0 := by
          rw [List.length_eq_zero, List.filter_eq_nil]
          intro de hde
          rw [holdzero de hde]
          simp
        have hsum0 : (db2.docs.map
            (fun de => ((lookupA de.2.fields e.1).map (·.length)).getD 0)).sum = 0 := by
          apply List.sum_eq_zero
          intro x hx
          rcases List.mem_map.mp hx with ⟨de, hde, rfl⟩
          rw [holdzero de hde]
          rfl
        cases hbf : lookupA (source.as_document lg db2.term_dictionary
            db2.data_dictionary).1.fields e.1 with
        | some v =>
            rw [hfs, hbf] at hlk
            have he2 : e.2 =
                (default : InvertedIndex).insert_tsvector db2.next_document_id v :=
              (Option.some_inj.mp hlk).symm
            constructor
            · rw [he2, hfilter0]
              show 0 + 1 = _
              have hone : ([((db2.next_document_id,
                  (source.as_document lg db2.term_dictionary
                    db2.data_dictionary).1) : Nat × Document)].filter
                  (fun de => (lookupA de.2.fields e.1).isSome)).length = 1 := by
                simp [hbf]
              rw [hone]
            · rw [he2, hsum0]
              show 0 + v.length = _
              have hone : ([((db2.next_document_id,
                  (source.as_document lg db2.term_dictionary
                    db2.data_dictionary).1) : Nat × Document)].map
                  (fun de => ((lookupA de.2.fields e.1).map (·.length)).getD 0)).sum =
                  v.length := by
                simp [hbf]
              rw [hone]
        | none =>
            rw [hfs, hbf] at hlk
            cases hlk

/-- Every reachable database satisfies the counter invariant. -/
theorem reachable_countersWF (lg : ℚ → ℚ) (db : Database) (h : Reachable lg db) :
    CountersWF db := by
  induction h with
  | start data_dict =>
      refine ⟨by simp [Database.start, keysOf], ?_, ?_, ?_⟩
      · intro k hk
        simp [Database.start, keysOf] at hk
      · intro de hde
        simp [Database.start] at hde
      · intro e he
        simp [Database.start] at he
  | delete document_id h ih => exact ih
  | insert source h ih => exact countersWF_insert lg _ source ih

/-! ## Claims -/

/-- C2: for every query q over the executor's language and every
well-formed database state, the set of document ids returned by the scored
entry point query equals the set returned by simple_match, and Boost(q, 0)
yields exactly the unscored match set with score 0 for each document. -/
theorem query_docs_eq_simple_match (lg : ℚ → ℚ) (db : Database) (hwf : DbWF db)
    (q : Query) :
    (∀ d, d ∈ keysOf (db.query lg q) ↔ d ∈ db.simple_match q) ∧
    db.query lg (.Boost q 0) = (db.simple_match q).map (fun d => (d, 0)) :=
  ⟨mem_keys_query lg db hwf q, query_boost_zero lg db q⟩

/-- Closed instantiation of the C2 theorem at a concrete database and
query, discharging the well-formedness hypothesis by evaluation. -/
theorem query_docs_eq_simple_match_witness :
    (∀ d, d ∈ keysOf (dbW.query lg2 (.Term 0 0)) ↔ d ∈ dbW.simple_match (.Term 0 0)) ∧
    dbW.query lg2 (.Boost (.Term 0 0) 0) =
      (dbW.simple_match (.Term 0 0)).map (fun d => (d, 0)) :=
  query_docs_eq_simple_match lg2 dbW (by unfold DbWF IndexWF; decide) (.Term 0 0)

/-- C3: a document id in the tombstone set never appears in the result of
simple_match or of query, whatever the query. -/
theorem tombstone_never_matches (lg : ℚ → ℚ) (db : Database) (d : Nat)
    (hd : d ∈ db.deleted_docs) (q : Query) :
    d ∉ db.simple_match q ∧ ∀ s, (d, s) ∉ db.query lg q := by
  refine ⟨(tombstone_aux lg db d hd q).1, ?_⟩
  intro s hmem
  exact (tombstone_aux lg db d hd q).2 (mem_keysOf_of_mem hmem)

/-- Closed instantiation of the C3 theorem: after two inserts and a delete,
the tombstoned document 0 matches nothing. -/
theorem tombstone_never_matches_witness :
    0 ∈ dbW2.deleted_docs ∧
    (0 ∉ dbW2.simple_match .MatchAll ∧ ∀ s, (0, s) ∉ dbW2.query lg2 .MatchAll) :=
  ⟨by decide, tombstone_never_matches lg2 dbW2 0 (by decide) .MatchAll⟩

/-- C1: on a well-formed index and a non-empty term list, docs_with_phrase
returns exactly the documents with a start position p such that term i has
position p + i for every i (exact +1 adjacency); and if any term has no
posting list the result is empty. -/
theorem docs_with_phrase_spec (idx : InvertedIndex) (hwf : IndexWF idx)
    (terms : List Nat) (hne : terms ≠ []) :
    (∀ d, d ∈ idx.docs_with_phrase terms ↔
      ∃ p, ∀ (i : Nat) (h : i < terms.length),
        p + i ∈ posOfTerm idx (terms.get ⟨i, h⟩) d) ∧
    ((∃ t ∈ terms, idx.getPostings t = none) → idx.docs_with_phrase terms = []) :=
  ⟨fun d => mem_docs_with_phrase idx hwf terms hne d,
   fun h => docs_with_phrase_absent idx terms h⟩

/-- Closed instantiation of the C1 theorem at a concrete two-term index,
discharging the well-formedness and non-emptiness hypotheses by
evaluation. -/
theorem docs_with_phrase_spec_witness :
    (∀ d, d ∈ idxW.docs_with_phrase [0, 1] ↔
      ∃ p, ∀ (i : Nat) (h : i < ([0, 1] : List Nat).length),
        p + i ∈ posOfTerm idxW (([0, 1] : List Nat).get ⟨i, h⟩) d) ∧
    ((∃ t ∈ ([0, 1] : List Nat), idxW.getPostings t = none) →
      idxW.docs_with_phrase [0, 1] = []) :=
  docs_with_phrase_spec idxW (by unfold IndexWF; decide) [0, 1] (by decide)

/-- C6 (amended): in the copy_to scenario (all_text registered, title with
boost 2 and copy_to all_text, document with karl at 1 and hobley at 2
inserted to title), Term(all_text, karl) returns the document with a
positive score, but the positions of karl in the all_text index are {1},
not title.length + 1 = 3: the copy pass appends the title vector into a
freshly-created empty all_text vector, so positions shift by 0. -/
theorem copy_to_scenario :
    ((lookupA dbC.fields 0).map (fun idx =>
      (idx.getPostings 0).map (fun pl => pl.map (·.positions)))) =
      some (some [({1} : Finset Nat)]) ∧
    ∃ s, dbC.query lg2 (.Term 0 0) = [(0, s)] ∧ 0 < s := by
  refine ⟨by decide, ?_⟩
  have h1 : dbC.query lg2 (.Term 0 0) =
      match dbC.fields.find? (fun e => e.1 == 0) with
      | some e => (e.2.search lg2 0).filter (fun r => decide (r.1 ∉ dbC.deleted_docs))
      | none => [] := by
    simp [Database.query]
  rw [h1]
  refine ⟨_, rfl, ?_⟩
  show (0 : ℚ) < lg2 ((1 : ℚ) + 1) / ((2 : ℕ) : ℚ) * ((2 : ℚ) / ((2 : ℕ) : ℚ)) *
    (1 / lg2 (((1 : ℕ) : ℚ) + 1) * (1 / (((1 : ℕ) : ℚ) / ((2 : ℕ) : ℚ))))
  have hlog : Nat.log 2 2 = 1 :=
    Nat.log_eq_of_pow_le_of_lt_pow (by norm_num) (by norm_num)
  have hv1 : lg2 ((1 : ℚ) + 1) = 1 := by
    unfold lg2
    have h2 : ((1 : ℚ) + 1).num = 2 := by norm_num
    rw [h2, show Int.toNat 2 = 2 from rfl, hlog]
    norm_num
  have hv2 : lg2 (((1 : ℕ) : ℚ) + 1) = 1 := by
    unfold lg2
    have h3 : (((1 : ℕ) : ℚ) + 1).num = 2 := by norm_num
    rw [h3, show Int.toNat 2 = 2 from rfl, hlog]
    norm_num
  rw [hv1, hv2]
  norm_num

/-- Closed counterexample to the original C6 claim: the positions of karl
in the all_text index are {1}, not {3}. -/
theorem copy_to_counterexample :
    ((lookupA dbC.fields 0).map (fun idx =>
      (idx.getPostings 0).map (fun pl => pl.map (·.positions)))) ≠
      some (some [({3} : Finset Nat)]) := by
  decide

/-- C10: the empty phrase (the k = 0 case, outside the spec's k ≥ 1
precondition) is total and yields no matches in both docs_with_phrase and
phrase_search. -/
theorem empty_phrase_returns_nothing (lg : ℚ → ℚ) (idx : InvertedIndex) :
    idx.docs_with_phrase [] = [] ∧ idx.phrase_search lg [] = [] :=
  ⟨rfl, rfl⟩

/-- C9 (amended): after any sequence of insert and delete operations, each
field index's total_documents counts the documents that carry the field at
all — including documents whose vector for the field is empty, the
divergence from the original claim — and total_terms sums the lengths of
the vectors inserted for the field. -/
theorem index_counters (lg : ℚ → ℚ) (db : Database) (h : Reachable lg db) :
    ∀ e ∈ db.fields,
      e.2.total_documents =
        (db.docs.filter (fun de => (lookupA de.2.fields e.1).isSome)).length ∧
      e.2.total_terms =
        (db.docs.map
          (fun de => ((lookupA de.2.fields e.1).map (·.length)).getD 0)).sum :=
  (reachable_countersWF lg db h).2.2.2

/-- Closed counterexample to the original C9 claim: inserting one document
whose only field has no tokens leaves that field's index with no postings
(so no document contributed any term) yet total_documents = 1. -/
theorem index_counters_counterexample :
    lookupA dbE.fields 0 = some ⟨[], 1, 0⟩ := by
  decide

/-- The single field entry of dbW, the input of the C9 closed
instantiation. -/
def eW : Nat × InvertedIndex := (dbW.fields.head?).getD (0, ⟨[], 0, 0⟩)

/-- Closed instantiation of the amended C9 theorem on a concrete reachable
database at its single field entry, discharging the reachability and
membership hypotheses with an explicit derivation. -/
theorem index_counters_witness :
    eW.2.total_documents =
      (dbW.docs.filter (fun de => (lookupA de.2.fields eW.1).isSome)).length ∧
    eW.2.total_terms =
      (dbW.docs.map
        (fun de => ((lookupA de.2.fields eW.1).map (·.length)).getD 0)).sum :=
  index_counters lg2 dbW (Reachable.insert srcW (Reachable.start ddW)) eW
    (show eW ∈ eW :: dbW.fields.tail from List.mem_cons_self eW dbW.fields.tail)

/-- C5 (amended): from_tokens produces a vector whose length equals the
number of input tokens (not distinct terms) and whose entry for each
resolvable term collects exactly the positions of the tokens with that
term; the per-term weight however is not the plain sum of the token
weights but lg(sum + 1) / token count, applied by from_tokens itself. -/
theorem from_tokens_spec (lg : ℚ → ℚ) (tokens : List Token) (dict : TermDictionary)
    (hw : DictWF dict) :
    (TSVector.from_tokens lg tokens dict).1.length = tokens.length ∧
    ∀ s k, (TSVector.from_tokens lg tokens dict).2.lookup s = some k →
      lookupA (TSVector.from_tokens lg tokens dict).1.terms k =
        (if tokens.filter (fun tok => tok.term == s) = [] then none
         else some ⟨(tokens.filter (fun tok => tok.term == s)).map (·.position),
           lg (((tokens.filter (fun tok => tok.term == s)).map (·.weight)).sum + 1) /
             (tokens.length : ℚ)⟩) := by
  have hspec := foldl_tokStep_spec tokens [] dict hw (by simp [keysOf])
  constructor
  · rw [from_tokens_eq]
  · intro s k hlook
    rw [from_tokens_eq] at hlook ⊢
    have hchar := hspec.2.2.2 s k hlook
    rw [lookupA_nil] at hchar
    refine Eq.trans (lookupA_map_val
      (fun v : TSVectorTerm =>
        (⟨v.positions, lg (v.weight + 1) / (tokens.length : ℚ)⟩ : TSVectorTerm))
      (tokens.foldl tokStep ([], dict)).1 k) ?_
    by_cases hf : tokens.filter (fun tok => tok.term == s) = []
    · rw [hf] at hchar
      rw [hchar, if_pos hf]
      rfl
    · rw [if_neg hf]
      rcases hl : tokens.filter (fun tok => tok.term == s) with _ | ⟨t, l⟩
      · exact absurd hl hf
      · rw [hl] at hchar
        rw [hchar, hl]
        simp

/-- Closed counterexample to the original C5 weight clause: a single token
of weight 3 yields a stored weight of lg(3 + 1) / 1 = 2, not the claimed
sum 3. -/
theorem from_tokens_weight_counterexample :
    lookupA (TSVector.from_tokens lg2 [⟨"a", 1, 3⟩] TermDictionary.empty).1.terms 0 =
      some ⟨[1], 2⟩ ∧
    lookupA (TSVector.from_tokens lg2 [⟨"a", 1, 3⟩] TermDictionary.empty).1.terms 0 ≠
      some ⟨[1], 3⟩ := by
  have hlog : Nat.log 2 4 = 2 :=
    Nat.log_eq_of_pow_le_of_lt_pow (by norm_num) (by norm_num)
  have hval : lookupA (TSVector.from_tokens lg2 [⟨"a", 1, 3⟩]
      TermDictionary.empty).1.terms 0 =
      some ⟨[1], lg2 (3 + 1) / ((1 : ℕ) : ℚ)⟩ := rfl
  have hlg : lg2 (3 + 1) = 2 := by
    unfold lg2
    have h4 : ((3 + 1 : ℚ)).num = 4 := by norm_num
    rw [h4, show Int.toNat 4 = 4 from rfl, hlog]
    norm_num
  constructor
  · rw [hval, hlg]
    norm_num
  · rw [hval, hlg]
    norm_num

/-- Closed instantiation of the amended C5 theorem on a three-token input
with a repeated term, discharging the dictionary hypothesis by
evaluation. -/
theorem from_tokens_spec_witness :
    (TSVector.from_tokens lg2 [⟨"a", 1, 1⟩, ⟨"b", 2, 1⟩, ⟨"a", 3, 1⟩]
        TermDictionary.empty).1.length =
      ([⟨"a", 1, 1⟩, ⟨"b", 2, 1⟩, ⟨"a", 3, 1⟩] : List Token).length ∧
    ∀ s k,
      (TSVector.from_tokens lg2 [⟨"a", 1, 1⟩, ⟨"b", 2, 1⟩, ⟨"a", 3, 1⟩]
          TermDictionary.empty).2.lookup s = some k →
      lookupA (TSVector.from_tokens lg2 [⟨"a", 1, 1⟩, ⟨"b", 2, 1⟩, ⟨"a", 3, 1⟩]
          TermDictionary.empty).1.terms k =
        (if ([⟨"a", 1, 1⟩, ⟨"b", 2, 1⟩, ⟨"a", 3, 1⟩] : List Token).filter
            (fun tok => tok.term == s) = [] then none
         else some ⟨((([⟨"a", 1, 1⟩, ⟨"b", 2, 1⟩, ⟨"a", 3, 1⟩] : List Token).filter
             (fun tok => tok.term == s)).map (·.position)),
           lg2 (((([⟨"a", 1, 1⟩, ⟨"b", 2, 1⟩, ⟨"a", 3, 1⟩] : List Token).filter
               (fun tok => tok.term == s)).map (·.weight)).sum + 1) /
             (([⟨"a", 1, 1⟩, ⟨"b", 2, 1⟩, ⟨"a", 3, 1⟩] : List Token).length : ℚ)⟩) :=
  from_tokens_spec lg2 [⟨"a", 1, 1⟩, ⟨"b", 2, 1⟩, ⟨"a", 3, 1⟩] TermDictionary.empty
    (by unfold DictWF; decide)

/-- C8 (amended): the simplifier is idempotent on MatchAll-free queries:
for every query q without a MatchAll leaf,
simplify(simplify(q)) = simplify(q).  (The original claim asserted
idempotence for every query; the or smart constructor splices a nested
Or's children verbatim, so a hoisted MatchAll that lands mid-list is moved
to the end by a second pass.) -/
theorem simplify_idempotent_ma_free (q : Query) (h : maFree q = true) :
    simplify (simplify q) = simplify q :=
  simplify_fix (simplify q) (simplify_preserves q h).1 (simplify_preserves q h).2

/-- Closed counterexample to the original C8 claim: one more simplify pass
moves the spliced MatchAll of an inner Or to the end of the child list. -/
theorem simplify_not_idempotent :
    simplify (simplify (.Or [.Or [.Term 0 0, .MatchAll], .Term 0 1])) ≠
      simplify (.Or [.Or [.Term 0 0, .MatchAll], .Term 0 1]) := by
  decide

/-- Closed instantiation of the amended C8 theorem at a MatchAll-free
query, discharging the hypothesis by evaluation. -/
theorem simplify_idempotent_ma_free_witness :
    maFree (.Or [.Or [.Term 0 0, .Term 0 1], .Term 1 0]) = true ∧
    simplify (simplify (.Or [.Or [.Term 0 0, .Term 0 1], .Term 1 0])) =
      simplify (.Or [.Or [.Term 0 0, .Term 0 1], .Term 1 0]) :=
  ⟨by decide, simplify_idempotent_ma_free _ (by decide)⟩

/-- C7: evaluating Exclude(q, f) with simple_match gives the set difference
of the children's matches, and evaluating it with query gives exactly the
scored results of q restricted to documents not in simple_match(f), scores
untouched by the filter operand. -/
theorem exclude_executor_semantics (lg : ℚ → ℚ) (db : Database) (hwf : DbWF db)
    (q f : Query) :
    (∀ d, d ∈ db.simple_match (.Exclude q f) ↔
        d ∈ db.simple_match q ∧ d ∉ db.simple_match f) ∧
    (∀ d s, (d, s) ∈ db.query lg (.Exclude q f) ↔
        (d, s) ∈ db.query lg q ∧ d ∉ db.simple_match f) := by
  refine ⟨fun d => mem_simple_match_exclude db q f d, ?_⟩
  intro d s
  rw [query_exclude_eq lg db q f (query_keys_nodup lg db hwf q), List.mem_filter]
  simp

/-- C4 (amended): for every query q and every well-formed database state,
not(not(q)) has the same simple_match result set as q; and whenever q is
neither MatchAll nor MatchNone nor of the shapes Filter(MatchAll, _) or
Exclude(MatchAll, _) that the exclude-of-exclude rules rewrite, the query
produced by not(not(q)) is Filter(MatchAll, q).  (The original claim's
side condition mentioned only MatchAll and MatchNone.) -/
theorem not_not_semantics (db : Database) (hwf : DbWF db) (q : Query) :
    (∀ d, d ∈ db.simple_match (Query.not (Query.not q)) ↔ d ∈ db.simple_match q) ∧
    ((q ≠ .MatchAll ∧ q ≠ .MatchNone ∧ (∀ f, q ≠ .Filter .MatchAll f) ∧
        (∀ f, q ≠ .Exclude .MatchAll f)) →
      Query.not (Query.not q) = .Filter .MatchAll q) := by
  constructor
  · intro d
    have h1 : d ∈ db.simple_match (Query.not (Query.not q)) ↔
        d ∈ db.simple_match .MatchAll ∧ d ∉ db.simple_match (Query.not q) :=
      mem_sm_smart_not db hwf (Query.not q) d
    have h2 : d ∈ db.simple_match (Query.not q) ↔
        d ∈ db.simple_match .MatchAll ∧ d ∉ db.simple_match q :=
      mem_sm_smart_not db hwf q d
    rw [h1, h2]
    constructor
    · rintro ⟨hA, hn⟩
      by_contra hq
      exact hn ⟨hA, hq⟩
    · intro hq
      exact ⟨sm_subset_matchall db hwf q d hq, fun h => h.2 hq⟩
  · rintro ⟨h1, h2, h3, h4⟩
    have hnot : Query.not q = .Exclude .MatchAll q := by
      cases q with
      | MatchAll => exact absurd rfl h1
      | MatchNone => exact absurd rfl h2
      | Filter q1 f =>
          cases q1
          case MatchAll => exact absurd rfl (h3 f)
          all_goals rfl
      | Exclude q1 f =>
          cases q1
          case MatchAll => exact absurd rfl (h4 f)
          all_goals rfl
      | Term a b => rfl
      | Phrase a ts => rfl
      | Or qs => rfl
      | And qs => rfl
      | Boost q1 b => rfl
    have hfin : Query.filter .MatchAll q = .Filter .MatchAll q := by
      cases q with
      | MatchAll => exact absurd rfl h1
      | MatchNone => exact absurd rfl h2
      | Filter q1 f =>
          cases q1
          case MatchAll => exact absurd rfl (h3 f)
          all_goals rfl
      | Exclude q1 f =>
          cases q1
          case MatchAll => exact absurd rfl (h4 f)
          all_goals rfl
      | Term a b => rfl
      | Phrase a ts => rfl
      | Or qs => rfl
      | And qs => rfl
      | Boost q1 b => rfl
    calc Query.not (Query.not q)
        = Query.exclude .MatchAll (.Exclude .MatchAll q) := by rw [hnot]; rfl
      _ = Query.filter .MatchAll q := rfl
      _ = .Filter .MatchAll q := hfin

/-- Closed counterexample to the original C4 side condition: for
q = Exclude(MatchAll, Term 0 0), which is neither MatchAll nor MatchNone,
not(not(q)) is q itself, not Filter(MatchAll, q). -/
theorem not_not_counterexample :
    Query.not (Query.not (.Exclude .MatchAll (.Term 0 0))) =
        .Exclude .MatchAll (.Term 0 0) ∧
    Query.not (Query.not (.Exclude .MatchAll (.Term 0 0))) ≠
        .Filter .MatchAll (.Exclude .MatchAll (.Term 0 0)) := by
  constructor
  · rfl
  · decide

/-- Closed instantiation of the C4 theorem at a concrete database and
query, discharging the well-formedness hypothesis by evaluation. -/
theorem not_not_semantics_witness :
    (∀ d, d ∈ dbW.simple_match (Query.not (Query.not (.Term 0 0))) ↔
        d ∈ dbW.simple_match (.Term 0 0)) ∧
    (((.Term 0 0 : Query) ≠ .MatchAll ∧ (.Term 0 0 : Query) ≠ .MatchNone ∧
        (∀ f, (.Term 0 0 : Query) ≠ .Filter .MatchAll f) ∧
        (∀ f, (.Term 0 0 : Query) ≠ .Exclude .MatchAll f)) →
      Query.not (Query.not (.Term 0 0)) = .Filter .MatchAll (.Term 0 0)) :=
  not_not_semantics dbW (by unfold DbWF IndexWF; decide) (.Term 0 0)

/-- Closed instantiation of the C7 theorem at a concrete database and
queries, discharging the well-formedness hypothesis by evaluation. -/
theorem exclude_executor_semantics_witness :
    (∀ d, d ∈ dbW.simple_match (.Exclude (.Term 0 0) (.Term 0 1)) ↔
        d ∈ dbW.simple_match (.Term 0 0) ∧ d ∉ dbW.simple_match (.Term 0 1)) ∧
    (∀ d s, (d, s) ∈ dbW.query lg2 (.Exclude (.Term 0 0) (.Term 0 1)) ↔
        (d, s) ∈ dbW.query lg2 (.Term 0 0) ∧ d ∉ dbW.simple_match (.Term 0 1)) :=
  exclude_executor_semantics lg2 dbW (by unfold DbWF IndexWF; decide) (.Term 0 0) (.Term 0 1)

end Sparrow
